import Mathlib

/-!
# Search keyword parsing, ILIKE escaping and parameter validation

A shallow embedding of `EscapeILIKE` (escape.go) and `ParseKeywords`
(keywords.go) of `internal/pkg/search` and of `ValidateEnum`, `ParseBool` and
`ParseDateISO8601` (parse.go) of `internal/pkg/validation`, together with the
Go standard-library functions they call, a model of the batch existence
check `ExistsByURLBatch` declared in `internal/repository`, and the list
handler `ListHandler.ServeHTTP` (list.go) of `internal/handler/http/article`.

Go strings are modelled as Lean `String`s, i.e. as sequences of Unicode code
points (well-formed UTF-8 text).  The three characters the replacer looks for
are ASCII, so replacing them byte by byte, as Go does, is the same as replacing
them code point by code point.  Go `int` parameters are modelled as `Int`.
-/

namespace Search

/-! ## Go standard library: `unicode.IsSpace`, `strings.TrimSpace`, `strings.Fields` -/

/-- Go `unicode.IsSpace`: the Latin-1 cases `'\t' '\n' '\v' '\f' '\r' ' '`, U+0085, U+00A0,
and outside Latin-1 the `White_Space` range table. -/
def isSpace (r : Char) : Bool :=
  if r.toNat ≤ 0xFF then
    r.toNat = 0x09 || r.toNat = 0x0A || r.toNat = 0x0B || r.toNat = 0x0C || r.toNat = 0x0D
      || r.toNat = 0x20 || r.toNat = 0x85 || r.toNat = 0xA0
  else
    r.toNat = 0x1680 || (0x2000 ≤ r.toNat && r.toNat ≤ 0x200A) || r.toNat = 0x2028
      || r.toNat = 0x2029 || r.toNat = 0x202F || r.toNat = 0x205F || r.toNat = 0x3000

/-- Go `strings.TrimSpace` on code points: all leading and all trailing white space removed. -/
def trimSpaceRunes (s : List Char) : List Char :=
  (s.dropWhile isSpace).rdropWhile isSpace

/-- Go `strings.TrimSpace`. -/
def TrimSpace (s : String) : String :=
  String.mk (trimSpaceRunes s.data)

/-- The scanning loop of Go `strings.FieldsFunc(s, unicode.IsSpace)`.  The state is the field
being read: `none` when the scan is between fields (`start < 0` in Go), `some cur` when a field
has started and `cur` holds its code points so far.  A white-space code point closes the open
field; the end of the input closes it too. -/
def fieldsLoop : List Char → Option (List Char) → List (List Char)
  | [], none => []
  | [], some cur => [cur]
  | r :: rest, none =>
    if isSpace r then fieldsLoop rest none else fieldsLoop rest (some [r])
  | r :: rest, some cur =>
    if isSpace r then cur :: fieldsLoop rest none else fieldsLoop rest (some (cur ++ [r]))

/-- Go `strings.Fields`. -/
def Fields (s : String) : List String :=
  (fieldsLoop s.data none).map String.mk

/-- Go `len([]rune(s))`: the number of code points of `s`. -/
def runeCount (s : String) : Nat :=
  s.data.length

/-! ## escape.go -/

/-- The table of `strings.NewReplacer("\\", "\\\\", "%", "\\%", "_", "\\_")`: every old string
is one ASCII character, so the replacer is a per-character lookup. -/
def replacerLookup (c : Char) : Option (List Char) :=
  if c = '\\' then some ['\\', '\\']
  else if c = '%' then some ['\\', '%']
  else if c = '_' then some ['\\', '_']
  else none

/-- The method `Replace` of that replacer: one left-to-right pass, each character either
substituted from the table or copied. -/
def replacerReplace : List Char → List Char
  | [] => []
  | c :: cs =>
    match replacerLookup c with
    | some r => r ++ replacerReplace cs
    | none => c :: replacerReplace cs

/-- `EscapeILIKE` of escape.go. -/
def EscapeILIKE (input : String) : String :=
  let escaped := String.mk (replacerReplace input.data)
  "%" ++ escaped ++ "%"

/-! ## constants.go -/

/-- `DefaultMaxKeywordCount` of constants.go. -/
def DefaultMaxKeywordCount : Int := 10

/-- `DefaultMaxKeywordLength` of constants.go. -/
def DefaultMaxKeywordLength : Int := 100

/-! ## keywords.go -/

/-- The `for i, keyword := range keywords` loop of `ParseKeywords`: each keyword is trimmed and
stored back; the first keyword with more than `maxLength` code points ends the loop with the
error message. -/
def checkLengths (maxLength : Int) : List String → Except String (List String)
  | [] => Except.ok []
  | keyword :: rest =>
    let keyword := TrimSpace keyword
    if (runeCount keyword : Int) > maxLength then
      Except.error ("keyword '" ++ keyword ++ "' exceeds maximum length of "
        ++ toString maxLength ++ " characters")
    else
      match checkLengths maxLength rest with
      | Except.error e => Except.error e
      | Except.ok checked => Except.ok (keyword :: checked)

/-- `ParseKeywords` of keywords.go.  The result is the Go pair `([]string, error)`: the first
component is `none` for a nil slice, the second is `none` for a nil error and otherwise the
error's message. -/
def ParseKeywords (input : String) (maxCount : Int) (maxLength : Int) :
    Option (List String) × Option String :=
  let trimmed := TrimSpace input
  if trimmed = "" then
    (none, some "keywords cannot be empty")
  else
    let keywords := Fields trimmed
    if (keywords.length : Int) > maxCount then
      (none, some ("too many keywords: got " ++ toString (keywords.length : Int)
        ++ ", maximum " ++ toString maxCount ++ " allowed"))
    else
      match checkLengths maxLength keywords with
      | Except.error e => (none, some e)
      | Except.ok checked => (some checked, none)

/-! ## Specification-side definitions -/

/-- Removal of one leading and one trailing percent sign; `none` when the string does not both
start and end with one (the two being distinct characters). -/
def stripPercents : List Char → Option (List Char)
  | [] => none
  | c :: rest =>
    if c = '%' ∧ rest.getLast? = some '%' then some rest.dropLast else none

/-- Unescaping: each backslash followed by a character `c` is replaced by `c`. -/
def unescape : List Char → List Char
  | [] => []
  | [c] => [c]
  | c :: d :: rest =>
    if c = '\\' then d :: unescape rest else c :: unescape (d :: rest)

/-- LIKE matching of the string `s` against a pattern: an unescaped percent matches any
sequence of characters, an unescaped underscore matches exactly one character, a backslash
makes the next character match itself, every other character matches itself.  A pattern ending
in a lone backslash matches nothing. -/
def likeMatch : List Char → List Char → Bool
  | [], s => s.isEmpty
  | c :: p, s =>
    if c = '%' then
      s.tails.any (fun t => likeMatch p t)
    else if c = '_' then
      match s with
      | [] => false
      | _ :: s' => likeMatch p s'
    else if c = '\\' then
      match p with
      | [] => false
      | d :: p' =>
        match s with
        | [] => false
        | x :: s' => x == d && likeMatch p' s'
    else
      match s with
      | [] => false
      | x :: s' => x == c && likeMatch p s'

/-- Replacement of every occurrence of the character `old` by the characters `new`
(Go `strings.ReplaceAll` with a one-character old string). -/
def replaceAllChar (old : Char) (new : List Char) (s : List Char) : List Char :=
  s.flatMap (fun c => if c = old then new else [c])

/-- The three documented escaping steps applied one after the other, then the wrapping:
backslash first, then percent, then underscore. -/
def escapeSequential (input : String) : String :=
  let step1 := replaceAllChar '\\' ['\\', '\\'] input.data
  let step2 := replaceAllChar '%' ['\\', '%'] step1
  let step3 := replaceAllChar '_' ['\\', '_'] step2
  "%" ++ String.mk step3 ++ "%"

/-- Two characters are of the same class: both white space or both not. -/
def sameClass (a b : Char) : Bool :=
  isSpace a == isSpace b

/-- A run of characters none of which is white space. -/
def noSpace (run : List Char) : Bool :=
  run.all (fun c => !isSpace c)

/-- The maximal runs of non-white-space characters of `s`, in order: the characters are
grouped into maximal runs of equal class and the runs of white space are dropped. -/
def maximalRuns (s : String) : List String :=
  ((s.data.splitBy sameClass).filter noSpace).map String.mk

/-- The keywords after the first, each written after its separator. -/
def joinRest : List (String × String) → String
  | [] => ""
  | (sep, keyword) :: rest => sep ++ keyword ++ joinRest rest

/-- A list of keywords written out as an input string: leading white space, the first keyword,
every further keyword preceded by its separator, trailing white space. -/
def joinKeywords (lead first : String) (rest : List (String × String)) (trail : String) :
    String :=
  lead ++ first ++ joinRest rest ++ trail

/-- The three metacharacters of a LIKE pattern: percent, underscore and backslash. -/
def isMeta (c : Char) : Bool :=
  c = '%' || c = '_' || c = '\\'

/-- The characters with the Unicode property `White_Space` (Unicode Character Database,
PropList.txt), 25 code points: U+0009 to U+000D, U+0020, U+0085, U+00A0, U+1680, U+2000 to
U+200A, U+2028, U+2029, U+202F, U+205F and U+3000. -/
def unicodeWhiteSpace : List Char :=
  ['\t', '\n', '\x0b', '\x0c', '\r', ' ', '\u0085', '\u00a0', '\u1680', '\u2000', '\u2001',
    '\u2002', '\u2003', '\u2004', '\u2005', '\u2006', '\u2007', '\u2008', '\u2009', '\u200a',
    '\u2028', '\u2029', '\u202f', '\u205f', '\u3000']

/-- Case-insensitive LIKE matching (ILIKE) of the string `s` against a pattern: as `likeMatch`,
but a character that stands for itself in the pattern, escaped or not, matches a character of
the string when the two have the same folding by `fold`.  The wildcards and the escape
character are recognised in the pattern as it is written. -/
def ilikeMatch (fold : Char → Char) : List Char → List Char → Bool
  | [], s => s.isEmpty
  | c :: p, s =>
    if c = '%' then
      s.tails.any (fun t => ilikeMatch fold p t)
    else if c = '_' then
      match s with
      | [] => false
      | _ :: s' => ilikeMatch fold p s'
    else if c = '\\' then
      match p with
      | [] => false
      | d :: p' =>
        match s with
        | [] => false
        | x :: s' => fold x == fold d && ilikeMatch fold p' s'
    else
      match s with
      | [] => false
      | x :: s' => fold x == fold c && ilikeMatch fold p s'

/-- A text with its letter case folded: each of the letters `A` to `Z` is replaced by its
lower-case letter, every other character is kept. -/
def foldCase (s : List Char) : List Char :=
  s.map Char.toLower

/-- Modelled from the spec: the keyword part of the predicate composed by `SearchWithFilters`,
whose implementation (the query builder of the storage adapter) is not among the sources; only
the interface is.  Each keyword is escaped on its own with `EscapeILIKE` and contributes one
pattern-match predicate on the searched text, and all keyword predicates are combined with
logical AND.  Matching is case-insensitive (spec 4.4 and 8): it is `ilikeMatch` with the
folding `Char.toLower`, under which a letter matches its upper-case and its lower-case form. -/
def keywordPredicate (keywords : List String) (text : String) : Bool :=
  keywords.all (fun k => ilikeMatch Char.toLower (EscapeILIKE k).data text.data)

/-- A token of a LIKE pattern: the wildcard for any sequence (an unescaped percent), the
wildcard for one character (an unescaped underscore), or a character that matches itself (an
escaped character or any other character). -/
inductive Token where
  /-- An unescaped percent. -/
  | anySequence
  /-- An unescaped underscore. -/
  | anyOne
  /-- A character matching itself. -/
  | literal (c : Char)
  deriving DecidableEq, Repr

/-- The left-to-right scan of a LIKE pattern, each backslash consuming the following
character; `none` when the scan ends on a dangling backslash. -/
def scanPattern : List Char → Option (List Token)
  | [] => some []
  | c :: rest =>
    if c = '\\' then
      match rest with
      | [] => none
      | d :: rest' =>
        match scanPattern rest' with
        | none => none
        | some tokens => some (Token.literal d :: tokens)
    else
      match scanPattern rest with
      | none => none
      | some tokens =>
        some ((if c = '%' then Token.anySequence
          else if c = '_' then Token.anyOne else Token.literal c) :: tokens)

/-- Go `strings.Repeat` on code points. -/
def Repeat (s : String) (count : Nat) : String :=
  String.mk (List.replicate count s.data).flatten

end Search

namespace Validation

/-! ## Go standard library: `strings.Join` -/

/-- Go `strings.Join`: the empty string for no elements, otherwise the first element followed
by every further element preceded by the separator. -/
def Join : List String → String → String
  | [], _ => ""
  | first :: rest, sep => rest.foldl (fun b s => b ++ sep ++ s) first

/-! ## parse.go -/

/-- The `for _, a := range allowed` loop of `ValidateEnum`: `true` as soon as an element equal
to `value` is met, `false` when the list is exhausted. -/
def allowedLoop (value : String) : List String → Bool
  | [] => false
  | a :: rest => if value = a then true else allowedLoop value rest

/-- `ValidateEnum` of parse.go.  The result is the Go `error`: `none` for nil, otherwise the
error's message.  A nil and an empty `allowed` slice both have length zero and are the empty
list here. -/
def ValidateEnum (value : String) (allowed : List String) (fieldName : String) :
    Option String :=
  if value = "" then
    none
  else if allowed.length = 0 then
    some ("allowed values list cannot be empty for field '" ++ fieldName ++ "'")
  else if allowedLoop value allowed then
    none
  else
    some ("invalid value '" ++ value ++ "' for field '" ++ fieldName
      ++ "': must be one of [" ++ Join allowed ", " ++ "]")

/-! ## Go standard library: `strconv.ParseBool` -/

/-- Go `strconv.ParseBool`: a switch over the accepted spellings; `none` stands for the syntax
error returned for every other string. -/
def strconvParseBool (str : String) : Option Bool :=
  if str = "1" ∨ str = "t" ∨ str = "T" ∨ str = "true" ∨ str = "TRUE" ∨ str = "True" then
    some true
  else if str = "0" ∨ str = "f" ∨ str = "F" ∨ str = "false" ∨ str = "FALSE"
      ∨ str = "False" then
    some false
  else
    none

/-- `ParseBool` of parse.go.  The result is the Go pair `(*bool, error)`: `none` in the first
component is the nil pointer, `none` in the second the nil error. -/
def ParseBool (input : String) : Option Bool × Option String :=
  if input = "" then
    (none, none)
  else
    match strconvParseBool input with
    | none => (none, some ("invalid boolean value '" ++ input
        ++ "': expected 'true', 'false', '1', or '0'"))
    | some b => (some b, none)

/-! ## Go standard library: `time.Parse` for the layouts `"2006-01-02"` and `time.RFC3339`

The functions below follow the generic parser of package `time` (`format.go`), specialised to
the two layouts used by `ParseDateISO8601`.  The RFC 3339 fast path of recent Go versions
accepts a subset of what the generic parser accepts, with the same result, and falls back to
it; it is not modelled separately.  Inputs are compared character by character; every
character the parser consumes is tested against ASCII characters, so an input with a non-ASCII
character is rejected here as in Go.  The error value of `time.Parse` is not modelled: its
caller only tests it against nil, so a failed parse is `none`. -/

/-- A Go `time.Time` as read through its methods `Year`, `Month`, `Day`, `Hour`, `Minute`,
`Second`, `Nanosecond`: the wall clock in the time's location, and the offset of that location
in seconds east of UTC (`0` for UTC). -/
structure Time where
  /-- Result of `Year()`. -/
  year : Nat
  /-- Result of `Month()`, January being 1. -/
  month : Nat
  /-- Result of `Day()`. -/
  day : Nat
  /-- Result of `Hour()`. -/
  hour : Nat
  /-- Result of `Minute()`. -/
  minute : Nat
  /-- Result of `Second()`. -/
  second : Nat
  /-- Result of `Nanosecond()`. -/
  nanosecond : Nat
  /-- Offset of the location, seconds east of UTC. -/
  offset : Int
  deriving DecidableEq, Repr

/-- The two layouts passed to `time.Parse`. -/
inductive Layout where
  /-- The layout `"2006-01-02"`. -/
  | dateOnly
  /-- The layout `time.RFC3339`, `"2006-01-02T15:04:05Z07:00"`. -/
  | rfc3339
  deriving DecidableEq, Repr

/-- An ASCII decimal digit. -/
def isDigitRune (c : Char) : Bool :=
  '0'.toNat ≤ c.toNat && c.toNat ≤ '9'.toNat

/-- Go `isDigit(s, i)`: the string has a character at index `i` and it is a decimal digit. -/
def isDigit (s : List Char) (i : Nat) : Bool :=
  match s.get? i with
  | none => false
  | some c => isDigitRune c

/-- The value of a decimal digit, `c - '0'`. -/
def digitValue (c : Char) : Nat :=
  c.toNat - '0'.toNat

/-- Go `getnum(s, fixed)`: a number of one or two digits at the start of `s`, exactly two when
`fixed`; the number and the rest of the string. -/
def getnum (s : List Char) (fixed : Bool) : Option (Nat × List Char) :=
  if !isDigit s 0 then
    none
  else if !isDigit s 1 then
    if fixed then none else some (digitValue (s.getD 0 '0'), s.drop 1)
  else
    some (digitValue (s.getD 0 '0') * 10 + digitValue (s.getD 1 '0'), s.drop 2)

/-- Go `leadingInt`: the leading digits of the string, accumulated onto `x`, and the rest.
(The overflow test of the Go function needs more than eighteen digits; its callers here pass at
most nine.) -/
def leadingInt : List Char → Nat → Nat × List Char
  | [], x => (x, [])
  | c :: rest, x =>
    if isDigitRune c then leadingInt rest (x * 10 + digitValue c) else (x, c :: rest)

/-- Go `atoi` on a string that does not start with a sign (both call sites pass a string whose
first character is a digit): the whole string must be digits. -/
def atoi (s : List Char) : Option Nat :=
  match leadingInt s 0 with
  | (q, []) => some q
  | (_, _ :: _) => none

/-- Go `skip(value, lit)` for a literal without spaces: the literal must start the value. -/
def skip : List Char → List Char → Option (List Char)
  | value, [] => some value
  | [], _ :: _ => none
  | v :: value, l :: lit => if v = l then skip value lit else none

/-- Go `isLeap`. -/
def isLeap (year : Nat) : Bool :=
  year % 4 = 0 && (year % 100 != 0 || year % 400 = 0)

/-- Go `daysBefore`: the number of days in a non-leap year before the end of month `m`. -/
def daysBefore : Nat → Nat
  | 0 => 0
  | 1 => 31
  | 2 => 31 + 28
  | 3 => 31 + 28 + 31
  | 4 => 31 + 28 + 31 + 30
  | 5 => 31 + 28 + 31 + 30 + 31
  | 6 => 31 + 28 + 31 + 30 + 31 + 30
  | 7 => 31 + 28 + 31 + 30 + 31 + 30 + 31
  | 8 => 31 + 28 + 31 + 30 + 31 + 30 + 31 + 31
  | 9 => 31 + 28 + 31 + 30 + 31 + 30 + 31 + 31 + 30
  | 10 => 31 + 28 + 31 + 30 + 31 + 30 + 31 + 31 + 30 + 31
  | 11 => 31 + 28 + 31 + 30 + 31 + 30 + 31 + 31 + 30 + 31 + 30
  | _ => 31 + 28 + 31 + 30 + 31 + 30 + 31 + 31 + 30 + 31 + 30 + 31

/-- Go `daysIn(m, year)`. -/
def daysIn (m year : Nat) : Nat :=
  if m = 2 && isLeap year then 29 else daysBefore m - daysBefore (m - 1)

/-- The layout element `2006` (`stdLongYear`): four characters, the first a digit, that `atoi`
accepts. -/
def stdLongYear (value : List Char) : Option (Nat × List Char) :=
  if value.length < 4 || !isDigit value 0 then
    none
  else
    match atoi (value.take 4) with
    | none => none
    | some year => some (year, value.drop 4)

/-- The layout elements `2006-01-02` in order: the year, a hyphen, a two-digit month that must
be in 1..12, a hyphen, a two-digit day (validated by the caller once the parse is complete). -/
def stdDate (value : List Char) : Option ((Nat × Nat × Nat) × List Char) :=
  match stdLongYear value with
  | none => none
  | some (year, value) =>
    match skip value ['-'] with
    | none => none
    | some value =>
      match getnum value true with
      | none => none
      | some (month, value) =>
        if month ≤ 0 || 12 < month then
          none
        else
          match skip value ['-'] with
          | none => none
          | some value =>
            match getnum value true with
            | none => none
            | some (day, value) => some ((year, month, day), value)

/-- Go `commaOrPeriod`. -/
def commaOrPeriod (c : Char) : Bool :=
  c = '.' || c = ','

/-- Go `parseNanoseconds(value, nbytes)` for a value that starts with a comma or period
followed by `nbytes - 1` digits: at most nine digits are read and scaled to nanoseconds. -/
def parseNanoseconds (value : List Char) (nbytes : Nat) : Option Nat :=
  let nbytes := if nbytes > 10 then 10 else nbytes
  match atoi ((value.take nbytes).drop 1) with
  | none => none
  | some ns => some (ns * 10 ^ (10 - nbytes))

/-- The special case after the seconds of a layout without fractional seconds: a comma or
period followed by digits in the input is read as a fractional second. -/
def stdFraction (value : List Char) : Option (Nat × List Char) :=
  if value.length ≥ 2 && commaOrPeriod (value.getD 0 ' ') && isDigit value 1 then
    let n := 2 + ((value.drop 2).takeWhile isDigitRune).length
    match parseNanoseconds value n with
    | none => none
    | some nsec => some (nsec, value.drop n)
  else
    some (0, value)

/-- The layout element `Z07:00` (`stdISO8601ColonTZ`): `Z` for UTC, or a sign, two digits, a
colon and two digits; the offset hour may be up to 24 and the offset minute up to 60.  The
result is the offset in seconds east of UTC. -/
def stdISO8601ColonTZ (value : List Char) : Option (Int × List Char) :=
  if value.length ≥ 1 && value.getD 0 ' ' = 'Z' then
    some (0, value.drop 1)
  else if value.length < 6 then
    none
  else if value.getD 3 ' ' ≠ ':' then
    none
  else
    match getnum ((value.take 3).drop 1) true with
    | none => none
    | some (hr, _) =>
      match getnum ((value.take 6).drop 4) true with
      | none => none
      | some (mm, _) =>
        if hr > 24 || mm > 60 then
          none
        else if value.getD 0 ' ' = '+' then
          some ((((hr * 60 + mm) * 60 : Nat) : Int), value.drop 6)
        else if value.getD 0 ' ' = '-' then
          some (-(((hr * 60 + mm) * 60 : Nat) : Int), value.drop 6)
        else
          none

/-- The layout elements `T15:04:05` and the optional fractional second: the letter `T`, an hour
of one or two digits below 24, a colon, a two-digit minute below 60, a colon, a two-digit second
below 60, and the fraction. -/
def stdClock (value : List Char) : Option ((Nat × Nat × Nat × Nat) × List Char) :=
  match skip value ['T'] with
  | none => none
  | some value =>
    match getnum value false with
    | none => none
    | some (hour, value) =>
      if 24 ≤ hour then
        none
      else
        match skip value [':'] with
        | none => none
        | some value =>
          match getnum value true with
          | none => none
          | some (min, value) =>
            if 60 ≤ min then
              none
            else
              match skip value [':'] with
              | none => none
              | some value =>
                match getnum value true with
                | none => none
                | some (sec, value) =>
                  if 60 ≤ sec then
                    none
                  else
                    match stdFraction value with
                    | none => none
                    | some (nsec, value) => some ((hour, min, sec, nsec), value)

/-- Go `time.Parse(layout, value)` for the two layouts.  After the layout elements nothing may
be left of the value (`extra text`), and the day must exist in the month of the year
(`day out of range`).  Without a zone in the layout the time is in UTC. -/
def timeParse (layout : Layout) (value : String) : Option Time :=
  match stdDate value.data with
  | none => none
  | some ((year, month, day), rest) =>
    match layout with
    | Layout.dateOnly =>
      if rest ≠ [] then
        none
      else if day < 1 || day > daysIn month year then
        none
      else
        some (Time.mk year month day 0 0 0 0 0)
    | Layout.rfc3339 =>
      match stdClock rest with
      | none => none
      | some ((hour, min, sec, nsec), rest) =>
        match stdISO8601ColonTZ rest with
        | none => none
        | some (offset, rest) =>
          if rest ≠ [] then
            none
          else if day < 1 || day > daysIn month year then
            none
          else
            some (Time.mk year month day hour min sec nsec offset)

/-- `ParseDateISO8601` of parse.go.  The result is the Go pair `(*time.Time, error)`: `none` in
the first component is the nil pointer, `none` in the second the nil error. -/
def ParseDateISO8601 (input : String) : Option Time × Option String :=
  if input = "" then
    (none, none)
  else
    match timeParse Layout.dateOnly input with
    | some t => (some t, none)
    | none =>
      match timeParse Layout.rfc3339 input with
      | some t => (some t, none)
      | none => (none, some ("invalid date format '" ++ input
          ++ "': expected ISO 8601 format (e.g., '2024-01-01' or '2024-01-01T10:00:00Z')"))

/-! ## Specification-side definitions for dates -/

/-- The number written by a string of decimal digits. -/
def decimal (ds : List Char) : Nat :=
  ds.foldl (fun n c => n * 10 + digitValue c) 0

/-- The number of days of a month of the Gregorian calendar: thirty days for April, June,
September and November, twenty-eight or, in a leap year, twenty-nine for February, thirty-one
otherwise. -/
def daysInMonth (year month : Nat) : Nat :=
  if month = 2 then
    if year % 4 = 0 ∧ (year % 100 ≠ 0 ∨ year % 400 = 0) then 29 else 28
  else if month = 4 ∨ month = 6 ∨ month = 9 ∨ month = 11 then 30
  else 31

/-- A date or timestamp as written: the calendar and clock fields and the offset from UTC in
seconds. -/
structure Written where
  /-- The year written. -/
  year : Nat
  /-- The month written. -/
  month : Nat
  /-- The day written. -/
  day : Nat
  /-- The hour written. -/
  hour : Nat
  /-- The minute written. -/
  minute : Nat
  /-- The second written. -/
  second : Nat
  /-- The offset written, in seconds east of UTC. -/
  offset : Int
  deriving DecidableEq, Repr

/-- The calendar date written by four year digits, two month digits and two day digits, when
it is a valid calendar date: month 1 to 12, day 1 to the number of days of the month. -/
def calendarDate (y1 y2 y3 y4 m1 m2 d1 d2 : Char) : Option (Nat × Nat × Nat) :=
  if [y1, y2, y3, y4, m1, m2, d1, d2].all isDigitRune then
    let year := decimal [y1, y2, y3, y4]
    let month := decimal [m1, m2]
    let day := decimal [d1, d2]
    if 1 ≤ month ∧ month ≤ 12 ∧ 1 ≤ day ∧ day ≤ daysInMonth year month then
      some (year, month, day)
    else
      none
  else
    none

/-- The date written by a string of the form YYYY-MM-DD that denotes a valid calendar date;
`none` for every other string. -/
def dateWritten : List Char → Option (Nat × Nat × Nat)
  | [y1, y2, y3, y4, s1, m1, m2, s2, d1, d2] =>
    if s1 = '-' ∧ s2 = '-' then calendarDate y1 y2 y3 y4 m1 m2 d1 d2 else none
  | _ => none

/-- The offset written by the zone of an RFC 3339 timestamp: `Z`, or a sign, a two-digit hour
00 to 23, a colon and a two-digit minute 00 to 59. -/
def zoneWritten : List Char → Option Int
  | [z] => if z = 'Z' then some 0 else none
  | [sign, h1, h2, colon, m1, m2] =>
    if [h1, h2, m1, m2].all isDigitRune ∧ colon = ':' ∧ decimal [h1, h2] ≤ 23
        ∧ decimal [m1, m2] ≤ 59 then
      if sign = '+' then some (((decimal [h1, h2] * 60 + decimal [m1, m2]) * 60 : Nat) : Int)
      else if sign = '-' then
        some (-(((decimal [h1, h2] * 60 + decimal [m1, m2]) * 60 : Nat) : Int))
      else none
    else
      none
  | _ => none

/-- What follows the seconds of an RFC 3339 timestamp: an optional fraction, a period and one
or more digits, and then the zone. -/
def fractionAndZoneWritten : List Char → Option Int
  | [] => none
  | [c] => zoneWritten [c]
  | c :: f :: rest =>
    if c = '.' then
      if isDigitRune f then zoneWritten (rest.dropWhile isDigitRune) else none
    else
      zoneWritten (c :: f :: rest)

/-- The fields written by a well-formed RFC 3339 timestamp (RFC 3339, section 5.6): a valid
calendar date, the letter `T`, a two-digit hour 00 to 23, minute 00 to 59 and second 00 to 60
separated by colons (60 being the leap second), an optional fraction and the zone; `none` for
every other string. -/
def rfc3339Written : List Char → Option Written
  | y1 :: y2 :: y3 :: y4 :: s1 :: m1 :: m2 :: s2 :: d1 :: d2 :: t :: h1 :: h2 :: c1 :: n1
      :: n2 :: c2 :: e1 :: e2 :: rest =>
    if s1 = '-' ∧ s2 = '-' ∧ t = 'T' ∧ c1 = ':' ∧ c2 = ':'
        ∧ [h1, h2, n1, n2, e1, e2].all isDigitRune
        ∧ decimal [h1, h2] ≤ 23 ∧ decimal [n1, n2] ≤ 59 ∧ decimal [e1, e2] ≤ 60 then
      match calendarDate y1 y2 y3 y4 m1 m2 d1 d2, fractionAndZoneWritten rest with
      | some (year, month, day), some offset =>
        some (Written.mk year month day (decimal [h1, h2]) (decimal [n1, n2])
          (decimal [e1, e2]) offset)
      | _, _ => none
    else
      none
  | _ => none

/-- The offset written by the zone of a timestamp as `time.Parse` reads the layout element
`Z07:00`: `Z`, or a sign, a two-digit hour up to 24, a colon and a two-digit minute up to
60. -/
def lenientZoneWritten : List Char → Option Int
  | [z] => if z = 'Z' then some 0 else none
  | [sign, h1, h2, colon, m1, m2] =>
    if [h1, h2, m1, m2].all isDigitRune ∧ colon = ':' ∧ decimal [h1, h2] ≤ 24
        ∧ decimal [m1, m2] ≤ 60 then
      if sign = '+' then some (((decimal [h1, h2] * 60 + decimal [m1, m2]) * 60 : Nat) : Int)
      else if sign = '-' then
        some (-(((decimal [h1, h2] * 60 + decimal [m1, m2]) * 60 : Nat) : Int))
      else none
    else
      none
  | _ => none

/-- What follows the seconds of a timestamp as `time.Parse` reads it: an optional fraction, a
period or a comma and one or more digits, and then the zone. -/
def lenientFractionAndZoneWritten : List Char → Option Int
  | [] => none
  | [c] => lenientZoneWritten [c]
  | c :: f :: rest =>
    if (c = '.' ∨ c = ',') ∧ isDigitRune f = true then
      lenientZoneWritten (rest.dropWhile isDigitRune)
    else
      lenientZoneWritten (c :: f :: rest)

/-- What follows the hour of a timestamp as `time.Parse` reads it: a colon, a two-digit minute
00 to 59, a colon, a two-digit second 00 to 59, then the fraction and the zone; the hour must
be at most 23. -/
def lenientClockWritten (hour : Nat) : List Char → Option ((Nat × Nat × Nat) × Int)
  | c1 :: n1 :: n2 :: c2 :: e1 :: e2 :: rest =>
    if c1 = ':' ∧ c2 = ':' ∧ [n1, n2, e1, e2].all isDigitRune ∧ hour ≤ 23
        ∧ decimal [n1, n2] ≤ 59 ∧ decimal [e1, e2] ≤ 59 then
      match lenientFractionAndZoneWritten rest with
      | none => none
      | some offset => some ((hour, decimal [n1, n2], decimal [e1, e2]), offset)
    else
      none
  | _ => none

/-- The fields written by a timestamp in the form that `time.Parse` accepts for the layout
`time.RFC3339`: a valid calendar date YYYY-MM-DD, the letter `T`, an hour 0 to 23 written with
one or two digits, a two-digit minute and second 00 to 59 separated by colons, an optional
fraction after a period or a comma, and the zone `Z` or an offset of a sign, two digits up to
24, a colon and two digits up to 60; `none` for every other string.  This form contains the
well-formed RFC 3339 timestamps with a second of at most 59. -/
def lenientTimestampWritten : List Char → Option Written
  | y1 :: y2 :: y3 :: y4 :: s1 :: m1 :: m2 :: s2 :: d1 :: d2 :: t :: h1 :: x :: rest =>
    if s1 = '-' ∧ s2 = '-' ∧ t = 'T' ∧ isDigitRune h1 = true then
      match calendarDate y1 y2 y3 y4 m1 m2 d1 d2,
        (if isDigitRune x = true then lenientClockWritten (decimal [h1, x]) rest
          else lenientClockWritten (decimal [h1]) (x :: rest)) with
      | some (year, month, day), some ((hour, minute, second), offset) =>
        some (Written.mk year month day hour minute second offset)
      | _, _ => none
    else
      none
  | _ => none

end Validation

namespace Postgres

/-! ## The batch existence check of the article repository

The interface `ArticleRepository` declares `ExistsByURLBatch`; its implementation, the
PostgreSQL adapter, is not among the sources (its tests are). -/

/-- Modelled from the spec: the storage collaborator behind `executeBatchMembershipQuery`: the
`url` column of the stored articles, and the failure, if any, with which every query ends. -/
structure Storage where
  /-- The URLs of the stored articles, one per row. -/
  stored : List String
  /-- The error every query fails with, `none` for a working storage. -/
  failure : Option String

/-- Modelled from the spec: the single membership query, which accepts the full candidate list
and returns only the subset that exists (in the tests,
`SELECT url FROM articles WHERE url = ANY($1)`), or fails with the storage error. -/
def Storage.selectExisting (db : Storage) (candidates : List String) :
    Except String (List String) :=
  match db.failure with
  | some e => Except.error e
  | none => Except.ok (db.stored.filter (fun u => decide (u ∈ candidates)))

/-- A Go `map[string]bool` as the list of its entries, each key once; the assignment
`m[k] = v`. -/
def mapAssign : List (String × Bool) → String → Bool → List (String × Bool)
  | [], k, v => [(k, v)]
  | (k', v') :: rest, k, v =>
    if k' = k then (k, v) :: rest else (k', v') :: mapAssign rest k v

/-- The entry of a key in a Go map, `none` when the map has no such key. -/
def mapLookup : List (String × Bool) → String → Option Bool
  | [], _ => none
  | (k', v') :: rest, k => if k' = k then some v' else mapLookup rest k

/-- Modelled from the spec: `ExistsByURLBatch`, whose implementation is not among the sources.
An empty candidate list short-circuits to an empty mapping without any storage access; a
non-empty one issues exactly one storage query for the whole list and maps every returned URL
to `true`; a storage failure is surfaced and no mapping is returned.  The result is the
mapping (`none` for no mapping), the error (`none` for nil) and the number of storage queries
issued. -/
def ExistsByURLBatch (db : Storage) (urls : List String) :
    Option (List (String × Bool)) × Option String × Nat :=
  if urls.length = 0 then
    (some [], none, 0)
  else
    match db.selectExisting urls with
    | Except.error e => (none, some e, 1)
    | Except.ok rows => (some (rows.foldl (fun m u => mapAssign m u true) []), none, 1)

end Postgres

namespace ArticleHandler

/-! ## list.go of `internal/handler/http/article`

The handler reads the result of the service and answers through the helpers `respond.JSON` and
`respond.SafeError`.  The entity, the DTO and the helpers are declared in packages that are not
among the sources; the structures below have the fields the handler reads and writes, and the
response is represented by the call the handler makes to a helper. -/

/-- The fields of `entity.Article` that the handler reads. -/
structure Article where
  /-- Field `ID`. -/
  ID : Int
  /-- Field `SourceID`. -/
  SourceID : Int
  /-- Field `Title`. -/
  Title : String
  /-- Field `URL`. -/
  URL : String
  /-- Field `Summary`. -/
  Summary : String
  /-- Field `PublishedAt`. -/
  PublishedAt : Validation.Time
  /-- Field `CreatedAt`. -/
  CreatedAt : Validation.Time
  deriving DecidableEq

/-- `repository.ArticleWithSource`: a pointer to an article, `none` for nil, and the name of
its source. -/
structure ArticleWithSource where
  /-- Field `Article`, a pointer. -/
  Article : Option Article
  /-- Field `SourceName`. -/
  SourceName : String
  deriving DecidableEq

/-- The fields of `DTO` that the handler sets. -/
structure DTO where
  /-- Field `ID`. -/
  ID : Int
  /-- Field `SourceID`. -/
  SourceID : Int
  /-- Field `SourceName`. -/
  SourceName : String
  /-- Field `Title`. -/
  Title : String
  /-- Field `URL`. -/
  URL : String
  /-- Field `Summary`. -/
  Summary : String
  /-- Field `PublishedAt`. -/
  PublishedAt : Validation.Time
  /-- Field `CreatedAt`. -/
  CreatedAt : Validation.Time
  deriving DecidableEq

/-- What a call of `ServeHTTP` does: it answers through `respond.JSON` with a status and a
slice (`none` for a nil slice, written as JSON null, `some` for a non-nil one, written as an
array), or through `respond.SafeError` with a status and the error, or it panics on a nil
pointer. -/
inductive Outcome where
  /-- The call `respond.JSON(w, status, body)`. -/
  | respondJSON (status : Nat) (body : Option (List DTO))
  /-- The call `respond.SafeError(w, status, err)`. -/
  | respondSafeError (status : Nat) (err : String)
  /-- A nil pointer dereference. -/
  | panics
  deriving DecidableEq

/-- Go `http.StatusOK`. -/
def StatusOK : Nat := 200

/-- Go `http.StatusInternalServerError`. -/
def StatusInternalServerError : Nat := 500

/-- The `for _, item := range list` loop of `ServeHTTP`: one DTO is appended to `out` per item,
in order; reading a field through a nil `Article` pointer panics (`none`). -/
def appendLoop : List ArticleWithSource → List DTO → Option (List DTO)
  | [], out => some out
  | item :: rest, out =>
    match item.Article with
    | none => none
    | some article =>
      appendLoop rest (out ++ [DTO.mk article.ID article.SourceID item.SourceName article.Title
        article.URL article.Summary article.PublishedAt article.CreatedAt])

/-- `ListHandler.ServeHTTP` of list.go, as a function of the pair `(list, err)` returned by
`h.Svc.ListWithSource`; `out` starts as the empty, non-nil slice `make([]DTO, 0, len(list))`. -/
def ServeHTTP (result : List ArticleWithSource × Option String) : Outcome :=
  match result.2 with
  | some err => Outcome.respondSafeError StatusInternalServerError err
  | none =>
    match appendLoop result.1 [] with
    | none => Outcome.panics
    | some out => Outcome.respondJSON StatusOK (some out)

end ArticleHandler

namespace Search

/-! ## Lemmas on the escaper -/

theorem EscapeILIKE_data (k : String) :
    (EscapeILIKE k).data = '%' :: (replacerReplace k.data ++ ['%']) := by
  simp [EscapeILIKE, String.data_append]

theorem replacerReplace_cons_special (c : Char) (cs : List Char)
    (h : c = '\\' ∨ c = '%' ∨ c = '_') :
    replacerReplace (c :: cs) = '\\' :: c :: replacerReplace cs := by
  rcases h with h | h | h <;> subst h <;> simp [replacerReplace, replacerLookup]

theorem replacerReplace_cons_plain (c : Char) (cs : List Char)
    (h1 : c ≠ '\\') (h2 : c ≠ '%') (h3 : c ≠ '_') :
    replacerReplace (c :: cs) = c :: replacerReplace cs := by
  simp [replacerReplace, replacerLookup, h1, h2, h3]

theorem stripPercents_wrap (l : List Char) :
    stripPercents ('%' :: (l ++ ['%'])) = some l := by
  simp [stripPercents]

theorem unescape_cons_plain (c : Char) (l : List Char) (h : c ≠ '\\') :
    unescape (c :: l) = c :: unescape l := by
  cases l with
  | nil => simp [unescape]
  | cons d rest => simp [unescape, h]

theorem unescape_replacerReplace (l : List Char) : unescape (replacerReplace l) = l := by
  induction l with
  | nil => simp [replacerReplace, unescape]
  | cons c cs ih =>
    by_cases h : c = '\\' ∨ c = '%' ∨ c = '_'
    · rw [replacerReplace_cons_special c cs h]
      simp [unescape, ih]
    · simp only [not_or] at h
      rw [replacerReplace_cons_plain c cs h.1 h.2.1 h.2.2, unescape_cons_plain c _ h.1, ih]

theorem likeMatch_percent (p s : List Char) :
    likeMatch ('%' :: p) s = true ↔ ∃ t, t <:+ s ∧ likeMatch p t = true := by
  rw [likeMatch.eq_def]
  simp

theorem likeMatch_backslash (d : Char) (p s : List Char) :
    likeMatch ('\\' :: d :: p) s = true ↔ ∃ s', s = d :: s' ∧ likeMatch p s' = true := by
  rw [likeMatch.eq_def]
  cases s with
  | nil => simp
  | cons x s' =>
    simp
    constructor
    · rintro ⟨rfl, h⟩; exact ⟨s', ⟨rfl, rfl⟩, h⟩
    · rintro ⟨t, ⟨rfl, rfl⟩, h⟩; exact ⟨rfl, h⟩

theorem likeMatch_plain (c : Char) (p s : List Char)
    (h1 : c ≠ '\\') (h2 : c ≠ '%') (h3 : c ≠ '_') :
    likeMatch (c :: p) s = true ↔ ∃ s', s = c :: s' ∧ likeMatch p s' = true := by
  rw [likeMatch.eq_def]
  cases s with
  | nil => simp [h1, h2, h3]
  | cons x s' =>
    simp [h1, h2, h3]
    constructor
    · rintro ⟨rfl, h⟩; exact ⟨s', ⟨rfl, rfl⟩, h⟩
    · rintro ⟨t, ⟨rfl, rfl⟩, h⟩; exact ⟨rfl, h⟩

theorem likeMatch_escaped (k p : List Char) :
    ∀ s, likeMatch (replacerReplace k ++ p) s = true ↔ ∃ t, s = k ++ t ∧ likeMatch p t = true := by
  induction k with
  | nil => intro s; simp [replacerReplace]
  | cons c cs ih =>
    intro s
    by_cases h : c = '\\' ∨ c = '%' ∨ c = '_'
    · rw [replacerReplace_cons_special c cs h]
      simp only [List.cons_append, likeMatch_backslash, ih]
      constructor
      · rintro ⟨s', rfl, t, rfl, ht⟩
        exact ⟨t, rfl, ht⟩
      · rintro ⟨t, rfl, ht⟩
        exact ⟨cs ++ t, rfl, t, rfl, ht⟩
    · simp only [not_or] at h
      rw [replacerReplace_cons_plain c cs h.1 h.2.1 h.2.2]
      simp only [List.cons_append, likeMatch_plain c _ _ h.1 h.2.1 h.2.2, ih]
      constructor
      · rintro ⟨s', rfl, t, rfl, ht⟩
        exact ⟨t, rfl, ht⟩
      · rintro ⟨t, rfl, ht⟩
        exact ⟨cs ++ t, rfl, t, rfl, ht⟩

theorem likeMatch_trailing_percent (t : List Char) : likeMatch ['%'] t = true := by
  rw [likeMatch_percent]
  exact ⟨[], List.nil_suffix, by simp [likeMatch]⟩

theorem likeMatch_wrapped (k s : List Char) :
    likeMatch ('%' :: (replacerReplace k ++ ['%'])) s = true ↔ k <:+: s := by
  rw [likeMatch_percent]
  constructor
  · rintro ⟨t, ⟨pre, rfl⟩, ht⟩
    rw [likeMatch_escaped] at ht
    obtain ⟨u, rfl, -⟩ := ht
    exact ⟨pre, u, by simp⟩
  · rintro ⟨pre, u, rfl⟩
    refine ⟨k ++ u, ⟨pre, by simp⟩, ?_⟩
    rw [likeMatch_escaped]
    exact ⟨u, rfl, likeMatch_trailing_percent u⟩

theorem replaceAllChar_nil (old : Char) (new : List Char) : replaceAllChar old new [] = [] := rfl

theorem replaceAllChar_cons (old : Char) (new : List Char) (c : Char) (s : List Char) :
    replaceAllChar old new (c :: s)
      = (if c = old then new else [c]) ++ replaceAllChar old new s := by
  simp [replaceAllChar]

theorem replaceAllChar_append (old : Char) (new : List Char) (s t : List Char) :
    replaceAllChar old new (s ++ t) = replaceAllChar old new s ++ replaceAllChar old new t := by
  simp [replaceAllChar]

theorem sequential_eq_replacer (l : List Char) :
    replaceAllChar '_' ['\\', '_'] (replaceAllChar '%' ['\\', '%']
      (replaceAllChar '\\' ['\\', '\\'] l)) = replacerReplace l := by
  induction l with
  | nil => rfl
  | cons c cs ih =>
    rw [replaceAllChar_cons, replaceAllChar_append, replaceAllChar_append, ih]
    by_cases h1 : c = '\\'
    · subst h1; simp [replaceAllChar, replacerReplace, replacerLookup]
    · by_cases h2 : c = '%'
      · subst h2; simp [replaceAllChar, replacerReplace, replacerLookup]
      · by_cases h3 : c = '_'
        · subst h3; simp [replaceAllChar, replacerReplace, replacerLookup]
        · simp [replaceAllChar, replacerReplace, replacerLookup, h1, h2, h3]

/-! ## The escaper: claims -/

/-- C1: round trip of the escaper. For every input `k` the pattern `EscapeILIKE k` starts and
ends with a percent sign, and removing these two and unescaping what is left gives back `k`
exactly. -/
theorem EscapeILIKE_round_trip (k : String) :
    ∃ body, stripPercents (EscapeILIKE k).data = some body ∧ String.mk (unescape body) = k := by
  refine ⟨replacerReplace k.data, ?_, ?_⟩
  · rw [EscapeILIKE_data, stripPercents_wrap]
  · rw [unescape_replacerReplace]

/-- C2: contains semantics. Under LIKE matching a string `s` matches the pattern
`EscapeILIKE k` exactly when `k` occurs in `s` as a contiguous substring, whatever characters
`k` is made of; a percent, underscore or backslash of `k` therefore matches only itself. -/
theorem EscapeILIKE_matches_iff_contains (k s : String) :
    likeMatch (EscapeILIKE k).data s.data = true ↔ k.data <:+: s.data := by
  rw [EscapeILIKE_data, likeMatch_wrapped]

/-- C3: the single-pass replacer agrees with the three documented steps. For every input,
`EscapeILIKE` equals escaping the backslashes, then the percents, then the underscores, and
wrapping in percent signs; the input backslash-percent gives percent, three backslashes,
percent, percent. -/
theorem EscapeILIKE_eq_sequential :
    (∀ input : String, EscapeILIKE input = escapeSequential input)
      ∧ EscapeILIKE "\\%" = "%\\\\\\%%" := by
  refine ⟨fun input => ?_, by decide⟩
  simp only [EscapeILIKE, escapeSequential, sequential_eq_replacer]

/-! ## Lemmas on the field scanner -/

theorem fieldsLoop_space (r : Char) (rest : List Char) (st : Option (List Char))
    (h : isSpace r = true) :
    fieldsLoop (r :: rest) st = (match st with | none => [] | some cur => [cur])
      ++ fieldsLoop rest none := by
  cases st <;> simp [fieldsLoop, h]

theorem fieldsLoop_rune (r : Char) (rest : List Char) (st : Option (List Char))
    (h : isSpace r = false) :
    fieldsLoop (r :: rest) st
      = fieldsLoop rest (some ((match st with | none => [] | some cur => cur) ++ [r])) := by
  cases st <;> simp [fieldsLoop, h]

theorem fieldsLoop_dropWhile (l : List Char) :
    fieldsLoop (l.dropWhile isSpace) none = fieldsLoop l none := by
  induction l with
  | nil => rfl
  | cons r rest ih =>
    by_cases h : isSpace r = true
    · rw [List.dropWhile_cons_of_pos h, ih, fieldsLoop_space r rest none h]; rfl
    · rw [List.dropWhile_cons_of_neg h]

theorem fieldsLoop_append_space (l : List Char) (x : Char) (h : isSpace x = true) :
    ∀ st, fieldsLoop (l ++ [x]) st = fieldsLoop l st := by
  induction l with
  | nil => intro st; cases st <;> simp [fieldsLoop, h]
  | cons r rest ih =>
    intro st
    by_cases hr : isSpace r = true
    · rw [List.cons_append, fieldsLoop_space r _ st hr, fieldsLoop_space r _ st hr, ih]
    · simp only [Bool.not_eq_true] at hr
      rw [List.cons_append, fieldsLoop_rune r _ st hr, fieldsLoop_rune r _ st hr, ih]

theorem fieldsLoop_rdropWhile (l : List Char) (st : Option (List Char)) :
    fieldsLoop (l.rdropWhile isSpace) st = fieldsLoop l st := by
  induction l using List.reverseRecOn with
  | nil => rfl
  | append_singleton l x ih =>
    by_cases h : isSpace x = true
    · rw [List.rdropWhile_concat_pos _ _ _ h, ih, fieldsLoop_append_space l x h]
    · rw [List.rdropWhile_concat_neg _ _ _ h]

theorem fieldsLoop_trimSpaceRunes (l : List Char) :
    fieldsLoop (trimSpaceRunes l) none = fieldsLoop l none := by
  rw [trimSpaceRunes, fieldsLoop_rdropWhile, fieldsLoop_dropWhile]

theorem fieldsLoop_some_ne_nil (l : List Char) (cur : List Char) :
    fieldsLoop l (some cur) ≠ [] := by
  induction l generalizing cur with
  | nil => simp [fieldsLoop]
  | cons r rest ih =>
    by_cases hr : isSpace r = true
    · simp [fieldsLoop, hr]
    · simp only [Bool.not_eq_true] at hr
      rw [fieldsLoop_rune r _ _ hr]; exact ih _

theorem fieldsLoop_eq_nil_iff (l : List Char) :
    fieldsLoop l none = [] ↔ ∀ c ∈ l, isSpace c = true := by
  induction l with
  | nil => simp [fieldsLoop]
  | cons r rest ih =>
    by_cases hr : isSpace r = true
    · rw [fieldsLoop_space r _ _ hr]; simp [ih, hr]
    · simp only [Bool.not_eq_true] at hr
      rw [fieldsLoop_rune r _ _ hr]
      simp [fieldsLoop_some_ne_nil, hr]

theorem trimSpaceRunes_eq_nil_iff (l : List Char) :
    trimSpaceRunes l = [] ↔ ∀ c ∈ l, isSpace c = true := by
  rw [trimSpaceRunes, List.rdropWhile_eq_nil_iff]
  constructor
  · intro h
    have h2 : l.dropWhile isSpace = [] := by
      by_contra hne
      have := List.head_dropWhile_not isSpace l hne
      exact absurd (h _ (List.head_mem hne)) (by simpa using this)
    simpa using h2
  · intro h c hc
    exact h c ((List.dropWhile_suffix isSpace).subset hc)

/-- Every field produced by the scanner is non-empty and free of white space, provided the
field that is open at the start is. -/
theorem fieldsLoop_mem (l : List Char) :
    ∀ (st : Option (List Char)),
      (∀ cur, st = some cur → cur ≠ [] ∧ ∀ c ∈ cur, isSpace c = false) →
      ∀ f ∈ fieldsLoop l st, f ≠ [] ∧ ∀ c ∈ f, isSpace c = false := by
  induction l with
  | nil =>
    intro st hst f hf
    cases st with
    | none => simp [fieldsLoop] at hf
    | some cur => simp [fieldsLoop] at hf; subst hf; exact hst _ rfl
  | cons r rest ih =>
    intro st hst f hf
    by_cases hr : isSpace r = true
    · rw [fieldsLoop_space r _ _ hr, List.mem_append] at hf
      rcases hf with hf | hf
      · cases st with
        | none => simp at hf
        | some cur => simp at hf; subst hf; exact hst _ rfl
      · exact ih none (by simp) f hf
    · simp only [Bool.not_eq_true] at hr
      rw [fieldsLoop_rune r _ _ hr] at hf
      refine ih _ ?_ f hf
      intro cur hcur
      simp only [Option.some.injEq] at hcur
      subst hcur
      refine ⟨by simp, ?_⟩
      intro c hc
      rw [List.mem_append] at hc
      rcases hc with hc | hc
      · cases st with
        | none => simp at hc
        | some cur => exact (hst cur rfl).2 c hc
      · simp at hc; subst hc; exact hr

theorem trimSpaceRunes_of_no_space (f : List Char) (h : ∀ c ∈ f, isSpace c = false) :
    trimSpaceRunes f = f := by
  rw [trimSpaceRunes]
  have h1 : f.dropWhile isSpace = f := by
    cases f with
    | nil => rfl
    | cons a t => exact List.dropWhile_cons_of_neg (by simp [h a (by simp)])
  rw [h1, List.rdropWhile_eq_self_iff]
  intro hl
  simp [h _ (List.getLast_mem hl)]

/-! ## The scanner computes the maximal runs -/

theorem splitBy_loop_acc (R : Char → Char → Bool) (l : List Char) :
    ∀ (a : Char) (g : List Char) (gs : List (List Char)),
      List.splitBy.loop R l a g gs = gs.reverse ++ List.splitBy.loop R l a g [] := by
  induction l with
  | nil => intro a g gs; simp [List.splitBy.loop]
  | cons b l ih =>
    intro a g gs
    cases hR : R a b
    · simp only [List.splitBy.loop, hR]
      rw [ih b [] _, ih b [] [_]]
      simp
    · simp only [List.splitBy.loop, hR]
      exact ih b (a :: g) gs

theorem noSpace_run (a : Char) (g : List Char) (hg : ∀ x ∈ g, isSpace x = isSpace a) :
    noSpace (a :: g).reverse = !isSpace a := by
  cases ha : isSpace a
  · simp only [noSpace, Bool.not_false, List.all_eq_true, List.mem_reverse, List.mem_cons]
    rintro x (rfl | hx)
    · simp [ha]
    · simp [hg x hx, ha]
  · simp only [noSpace, Bool.not_true]
    rw [List.all_eq_false]
    exact ⟨a, by simp, by simp [ha]⟩

theorem filter_splitBy_loop (l : List Char) :
    ∀ (a : Char) (g : List Char), (∀ x ∈ g, isSpace x = isSpace a) →
      (List.splitBy.loop sameClass l a g []).filter noSpace
        = if isSpace a then fieldsLoop l none else fieldsLoop l (some (a :: g).reverse) := by
  induction l with
  | nil =>
    intro a g hg
    have h0 : List.splitBy.loop sameClass [] a g [] = [(a :: g).reverse] := rfl
    rw [h0, List.filter_cons, noSpace_run a g hg]
    cases ha : isSpace a <;> simp [fieldsLoop]
  | cons b l ih =>
    intro a g hg
    cases hR : sameClass a b
    · have h0 : List.splitBy.loop sameClass (b :: l) a g []
          = List.splitBy.loop sameClass l b [] [(a :: g).reverse] := by
        simp only [List.splitBy.loop, hR]
      rw [h0, splitBy_loop_acc, List.filter_append, ih b [] (by simp)]
      have h1 : [(a :: g).reverse].reverse = [(a :: g).reverse] := rfl
      rw [h1, List.filter_cons, noSpace_run a g hg]
      cases ha : isSpace a <;> cases hb : isSpace b <;> simp [sameClass, ha, hb] at hR
        <;> simp [fieldsLoop, hb]
    · have h0 : List.splitBy.loop sameClass (b :: l) a g []
          = List.splitBy.loop sameClass l b (a :: g) [] := by
        simp only [List.splitBy.loop, hR]
      have hab : isSpace a = isSpace b := by simpa [sameClass] using hR
      rw [h0, ih b (a :: g) (by
        intro x hx
        rcases List.mem_cons.mp hx with rfl | hx
        · exact hab
        · rw [hg x hx, hab])]
      cases hb : isSpace b <;> simp [hab, hb, fieldsLoop]

theorem fieldsLoop_eq_filter_splitBy (l : List Char) :
    fieldsLoop l none = (l.splitBy sameClass).filter noSpace := by
  cases l with
  | nil => rfl
  | cons a rest =>
    rw [List.splitBy, filter_splitBy_loop rest a [] (by simp)]
    cases ha : isSpace a <;> simp [fieldsLoop, ha]

/-! ## Lemmas on `ParseKeywords` -/

theorem TrimSpace_eq_empty_iff (s : String) :
    TrimSpace s = "" ↔ ∀ c ∈ s.data, isSpace c = true := by
  rw [← trimSpaceRunes_eq_nil_iff]
  constructor
  · intro h
    have := congrArg String.data h
    simpa [TrimSpace] using this
  · intro h
    simp [TrimSpace, h]

theorem Fields_TrimSpace (s : String) : Fields (TrimSpace s) = Fields s := by
  simp [Fields, TrimSpace, fieldsLoop_trimSpaceRunes]

theorem Fields_eq_maximalRuns (s : String) : Fields s = maximalRuns s := by
  rw [Fields, maximalRuns, fieldsLoop_eq_filter_splitBy]

theorem Fields_eq_nil_iff (s : String) :
    Fields s = [] ↔ ∀ c ∈ s.data, isSpace c = true := by
  simp [Fields, fieldsLoop_eq_nil_iff]

theorem Fields_mem (s : String) (k : String) (hk : k ∈ Fields s) :
    k ≠ "" ∧ ∀ c ∈ k.data, isSpace c = false := by
  simp only [Fields, List.mem_map] at hk
  obtain ⟨f, hf, rfl⟩ := hk
  have := fieldsLoop_mem s.data none (by simp) f hf
  refine ⟨?_, this.2⟩
  intro h
  exact this.1 (by simpa using congrArg String.data h)

theorem TrimSpace_of_no_space (k : String) (h : ∀ c ∈ k.data, isSpace c = false) :
    TrimSpace k = k := by
  simp [TrimSpace, trimSpaceRunes_of_no_space k.data h]

theorem checkLengths_ok (maxLength : Int) (ks : List String)
    (hns : ∀ k ∈ ks, ∀ c ∈ k.data, isSpace c = false)
    (hlen : ∀ k ∈ ks, (runeCount k : Int) ≤ maxLength) :
    checkLengths maxLength ks = Except.ok ks := by
  induction ks with
  | nil => rfl
  | cons k rest ih =>
    have hk : TrimSpace k = k := TrimSpace_of_no_space k (hns k (by simp))
    have hl : ¬ ((runeCount k : Int) > maxLength) := not_lt.mpr (hlen k (by simp))
    simp only [checkLengths, hk, hl, if_false]
    rw [ih (fun k' hk' => hns k' (List.mem_cons_of_mem _ hk'))
      (fun k' hk' => hlen k' (List.mem_cons_of_mem _ hk'))]

theorem checkLengths_error (maxLength : Int) (ks : List String)
    (hns : ∀ k ∈ ks, ∀ c ∈ k.data, isSpace c = false)
    (hlong : ∃ k ∈ ks, maxLength < (runeCount k : Int)) :
    ∃ k ∈ ks, maxLength < (runeCount k : Int) ∧
      checkLengths maxLength ks = Except.error ("keyword '" ++ k
        ++ "' exceeds maximum length of " ++ toString maxLength ++ " characters") := by
  induction ks with
  | nil => simp at hlong
  | cons k rest ih =>
    have hk : TrimSpace k = k := TrimSpace_of_no_space k (hns k (by simp))
    by_cases hl : maxLength < (runeCount k : Int)
    · exact ⟨k, by simp, hl, by simp only [checkLengths, hk, gt_iff_lt, hl, if_true]⟩
    · have hrest : ∃ k' ∈ rest, maxLength < (runeCount k' : Int) := by
        obtain ⟨k', hk', hlt⟩ := hlong
        rcases List.mem_cons.mp hk' with rfl | hk'
        · exact absurd hlt hl
        · exact ⟨k', hk', hlt⟩
      obtain ⟨k', hk', hlt, he⟩ :=
        ih (fun k' hk' => hns k' (List.mem_cons_of_mem _ hk')) hrest
      refine ⟨k', List.mem_cons_of_mem _ hk', hlt, ?_⟩
      simp only [checkLengths, hk, gt_iff_lt, hl, if_false, he]

/-- The parser in terms of the fields of the untrimmed input. -/
theorem parse_unfold (input : String) (maxCount maxLength : Int) :
    ParseKeywords input maxCount maxLength =
      if maximalRuns input = [] then (none, some "keywords cannot be empty")
      else if ((maximalRuns input).length : Int) > maxCount then
        (none, some ("too many keywords: got " ++ toString ((maximalRuns input).length : Int)
          ++ ", maximum " ++ toString maxCount ++ " allowed"))
      else
        match checkLengths maxLength (maximalRuns input) with
        | Except.error e => (none, some e)
        | Except.ok checked => (some checked, none) := by
  have h : (TrimSpace input = "") = (maximalRuns input = []) := by
    rw [← Fields_eq_maximalRuns, TrimSpace_eq_empty_iff, Fields_eq_nil_iff]
  have h2 : Fields (TrimSpace input) = maximalRuns input := by
    rw [Fields_TrimSpace, Fields_eq_maximalRuns]
  simp only [ParseKeywords, h, h2]

theorem maximalRuns_no_space (input : String) :
    ∀ k ∈ maximalRuns input, ∀ c ∈ k.data, isSpace c = false := by
  intro k hk
  rw [← Fields_eq_maximalRuns] at hk
  exact (Fields_mem input k hk).2

theorem parse_empty_of (input : String) (maxCount maxLength : Int)
    (h : maximalRuns input = []) :
    ParseKeywords input maxCount maxLength = (none, some "keywords cannot be empty") := by
  rw [parse_unfold, if_pos h]

theorem parse_tooMany_of (input : String) (maxCount maxLength : Int)
    (h0 : maximalRuns input ≠ []) (h : maxCount < ((maximalRuns input).length : Int)) :
    ParseKeywords input maxCount maxLength =
      (none, some ("too many keywords: got " ++ toString ((maximalRuns input).length : Int)
          ++ ", maximum " ++ toString maxCount ++ " allowed")) := by
  rw [parse_unfold, if_neg h0, if_pos h]

theorem parse_tooLong_of (input : String) (maxCount maxLength : Int)
    (h0 : maximalRuns input ≠ []) (h : ((maximalRuns input).length : Int) ≤ maxCount)
    (hlong : ∃ k ∈ maximalRuns input, maxLength < (runeCount k : Int)) :
    ∃ k ∈ maximalRuns input, maxLength < (runeCount k : Int) ∧
      ParseKeywords input maxCount maxLength = (none, some ("keyword '" ++ k
        ++ "' exceeds maximum length of " ++ toString maxLength ++ " characters")) := by
  obtain ⟨k, hk, hlt, he⟩ :=
    checkLengths_error maxLength (maximalRuns input) (maximalRuns_no_space input) hlong
  refine ⟨k, hk, hlt, ?_⟩
  rw [parse_unfold, if_neg h0, if_neg (not_lt.mpr h), he]

theorem parse_ok_of (input : String) (maxCount maxLength : Int)
    (h0 : maximalRuns input ≠ []) (h : ((maximalRuns input).length : Int) ≤ maxCount)
    (hlen : ∀ k ∈ maximalRuns input, (runeCount k : Int) ≤ maxLength) :
    ParseKeywords input maxCount maxLength = (some (maximalRuns input), none) := by
  rw [parse_unfold, if_neg h0, if_neg (not_lt.mpr h),
    checkLengths_ok maxLength _ (maximalRuns_no_space input) hlen]

/-- The four outcomes of the parser, by the keywords of the input. -/
theorem parse_cases (input : String) (maxCount maxLength : Int) :
    (maximalRuns input = [] ∧
        ParseKeywords input maxCount maxLength = (none, some "keywords cannot be empty"))
    ∨ (maximalRuns input ≠ [] ∧ maxCount < ((maximalRuns input).length : Int) ∧
        ParseKeywords input maxCount maxLength =
          (none, some ("too many keywords: got " ++ toString ((maximalRuns input).length : Int)
            ++ ", maximum " ++ toString maxCount ++ " allowed")))
    ∨ (maximalRuns input ≠ [] ∧ ((maximalRuns input).length : Int) ≤ maxCount ∧
        ∃ k ∈ maximalRuns input, maxLength < (runeCount k : Int) ∧
          ParseKeywords input maxCount maxLength = (none, some ("keyword '" ++ k
            ++ "' exceeds maximum length of " ++ toString maxLength ++ " characters")))
    ∨ (maximalRuns input ≠ [] ∧ ((maximalRuns input).length : Int) ≤ maxCount ∧
        (∀ k ∈ maximalRuns input, (runeCount k : Int) ≤ maxLength) ∧
          ParseKeywords input maxCount maxLength = (some (maximalRuns input), none)) := by
  by_cases h0 : maximalRuns input = []
  · exact Or.inl ⟨h0, parse_empty_of input maxCount maxLength h0⟩
  · by_cases h1 : maxCount < ((maximalRuns input).length : Int)
    · exact Or.inr (Or.inl ⟨h0, h1, parse_tooMany_of input maxCount maxLength h0 h1⟩)
    · have h1' := not_lt.mp h1
      by_cases h2 : ∃ k ∈ maximalRuns input, maxLength < (runeCount k : Int)
      · exact Or.inr (Or.inr (Or.inl ⟨h0, h1',
          parse_tooLong_of input maxCount maxLength h0 h1' h2⟩))
      · have h2' : ∀ k ∈ maximalRuns input, (runeCount k : Int) ≤ maxLength := by
          intro k hk
          by_contra hc
          exact h2 ⟨k, hk, not_le.mp hc⟩
        exact Or.inr (Or.inr (Or.inr ⟨h0, h1', h2',
          parse_ok_of input maxCount maxLength h0 h1' h2'⟩))

theorem tooMany_ne_empty (a b : String) :
    "too many keywords: got " ++ a ++ ", maximum " ++ b ++ " allowed"
      ≠ "keywords cannot be empty" := by
  intro h
  have h2 := congrArg (fun s => s.data.head?) h
  simp [String.data_append] at h2

theorem tooLong_ne_empty (a b : String) :
    "keyword '" ++ a ++ "' exceeds maximum length of " ++ b ++ " characters"
      ≠ "keywords cannot be empty" := by
  intro h
  have h2 := congrArg (fun s => s.data.take 9) h
  simp [String.data_append] at h2

/-- The error is nil exactly when the input has between one and `maxCount` keywords, all of at
most `maxLength` code points, and then the keywords are returned. -/
theorem parse_nil_error_iff (input : String) (maxCount maxLength : Int) :
    (ParseKeywords input maxCount maxLength).2 = none ↔
      (1 ≤ (maximalRuns input).length ∧ ((maximalRuns input).length : Int) ≤ maxCount
        ∧ ∀ k ∈ maximalRuns input, (runeCount k : Int) ≤ maxLength) := by
  rcases parse_cases input maxCount maxLength with
    ⟨h0, he⟩ | ⟨h0, h1, he⟩ | ⟨h0, h1, k, hk, hlt, he⟩ | ⟨h0, h1, h2, he⟩
  · simp [he, h0]
  · simp only [he, reduceCtorEq, false_iff, not_and]
    intro _ hle
    exact absurd h1 (not_lt.mpr hle)
  · simp only [he, reduceCtorEq, false_iff, not_and]
    intro _ _ hall
    exact absurd hlt (not_lt.mpr (hall k hk))
  · simp only [he, true_iff]
    exact ⟨List.length_pos.mpr h0, h1, h2⟩

/-! ## Lemmas on joined inputs -/

theorem fieldsLoop_spaces_none (ws l : List Char) (h : ∀ c ∈ ws, isSpace c = true) :
    fieldsLoop (ws ++ l) none = fieldsLoop l none := by
  induction ws with
  | nil => rfl
  | cons w ws ih =>
    rw [List.cons_append, fieldsLoop_space w _ none (h w (by simp)),
      ih (fun c hc => h c (List.mem_cons_of_mem _ hc))]
    rfl

theorem fieldsLoop_spaces_open (ws l cur : List Char) (hne : ws ≠ [])
    (h : ∀ c ∈ ws, isSpace c = true) :
    fieldsLoop (ws ++ l) (some cur) = cur :: fieldsLoop l none := by
  cases ws with
  | nil => exact absurd rfl hne
  | cons w ws =>
    rw [List.cons_append, fieldsLoop_space w _ (some cur) (h w (by simp)),
      fieldsLoop_spaces_none ws l (fun c hc => h c (List.mem_cons_of_mem _ hc))]
    rfl

theorem fieldsLoop_spaces_end (ws cur : List Char) (h : ∀ c ∈ ws, isSpace c = true) :
    fieldsLoop ws (some cur) = [cur] := by
  cases ws with
  | nil => rfl
  | cons w ws =>
    have := fieldsLoop_spaces_open (w :: ws) [] cur (by simp) h
    rw [List.append_nil] at this
    rw [this]; rfl

theorem fieldsLoop_word_open (k l cur : List Char) (h : ∀ c ∈ k, isSpace c = false) :
    fieldsLoop (k ++ l) (some cur) = fieldsLoop l (some (cur ++ k)) := by
  induction k generalizing cur with
  | nil => simp
  | cons c k ih =>
    rw [List.cons_append, fieldsLoop_rune c _ (some cur) (h c (by simp)),
      ih _ (fun c hc => h c (List.mem_cons_of_mem _ hc))]
    simp

theorem fieldsLoop_word_none (k l : List Char) (hne : k ≠ [])
    (h : ∀ c ∈ k, isSpace c = false) :
    fieldsLoop (k ++ l) none = fieldsLoop l (some k) := by
  cases k with
  | nil => exact absurd rfl hne
  | cons c k =>
    rw [List.cons_append, fieldsLoop_rune c _ none (h c (by simp)),
      fieldsLoop_word_open k l _ (fun c hc => h c (List.mem_cons_of_mem _ hc))]
    simp

theorem fieldsLoop_joinRest (rest : List (String × String)) (trail : List Char)
    (hrest : ∀ p ∈ rest, (p.1 ≠ "" ∧ ∀ c ∈ p.1.data, isSpace c = true)
      ∧ (p.2 ≠ "" ∧ ∀ c ∈ p.2.data, isSpace c = false))
    (htrail : ∀ c ∈ trail, isSpace c = true) :
    ∀ cur, fieldsLoop ((joinRest rest).data ++ trail) (some cur)
      = cur :: rest.map (fun p => p.2.data) := by
  induction rest with
  | nil =>
    intro cur
    simpa [joinRest] using fieldsLoop_spaces_end trail cur htrail
  | cons p rest ih =>
    intro cur
    obtain ⟨sep, keyword⟩ := p
    obtain ⟨⟨hs0, hs⟩, ⟨hk0, hk⟩⟩ := hrest (sep, keyword) (by simp)
    have hs0' : sep.data ≠ [] := fun h => hs0 (String.ext h)
    have hk0' : keyword.data ≠ [] := fun h => hk0 (String.ext h)
    simp only [joinRest, String.data_append, List.append_assoc, List.map_cons]
    rw [fieldsLoop_spaces_open _ _ cur hs0' hs, fieldsLoop_word_none _ _ hk0' hk,
      ih (fun q hq => hrest q (List.mem_cons_of_mem _ hq))]

theorem Fields_joinKeywords (lead first : String) (rest : List (String × String))
    (trail : String)
    (hlead : ∀ c ∈ lead.data, isSpace c = true)
    (hfirst : first ≠ "" ∧ ∀ c ∈ first.data, isSpace c = false)
    (hrest : ∀ p ∈ rest, (p.1 ≠ "" ∧ ∀ c ∈ p.1.data, isSpace c = true)
      ∧ (p.2 ≠ "" ∧ ∀ c ∈ p.2.data, isSpace c = false))
    (htrail : ∀ c ∈ trail.data, isSpace c = true) :
    Fields (joinKeywords lead first rest trail) = first :: rest.map Prod.snd := by
  have hf0 : first.data ≠ [] := fun h => hfirst.1 (String.ext h)
  simp only [Fields, joinKeywords, String.data_append, List.append_assoc]
  rw [fieldsLoop_spaces_none _ _ hlead, fieldsLoop_word_none _ _ hf0 hfirst.2,
    fieldsLoop_joinRest rest trail.data hrest htrail]
  simp


/-! ## The parser: claims -/

/-- C4: on success (nil error) `ParseKeywords` returns exactly the maximal runs of
non-white-space characters of the input, in input order, which is the list
`strings.Fields(input)` of the untrimmed input; nothing is deduplicated. -/
theorem ParseKeywords_returns_maximal_runs (input : String) (maxCount maxLength : Int)
    (h : (ParseKeywords input maxCount maxLength).2 = none) :
    (ParseKeywords input maxCount maxLength).1 = some (maximalRuns input)
      ∧ maximalRuns input = Fields input := by
  refine ⟨?_, (Fields_eq_maximalRuns input).symm⟩
  obtain ⟨h0, h1, h2⟩ := (parse_nil_error_iff input maxCount maxLength).mp h
  rw [parse_ok_of input maxCount maxLength (List.length_pos.mp h0) h1 h2]

/-- Witness for C4: spaces, tabs and newlines in runs of several lengths, leading and trailing
white space, and a repeated keyword. -/
theorem ParseKeywords_returns_maximal_runs_witness :
    (ParseKeywords "  Go\tReact \n\n Go\t " 10 100).2 = none
      ∧ ((ParseKeywords "  Go\tReact \n\n Go\t " 10 100).1
            = some (maximalRuns "  Go\tReact \n\n Go\t ")
          ∧ maximalRuns "  Go\tReact \n\n Go\t " = Fields "  Go\tReact \n\n Go\t ")
      ∧ maximalRuns "  Go\tReact \n\n Go\t " = ["Go", "React", "Go"] :=
  ⟨by decide, ParseKeywords_returns_maximal_runs "  Go\tReact \n\n Go\t " 10 100 (by decide),
    by decide⟩

/-- C5: for every input and all limits, `ParseKeywords` returns a nil error if and only if
the input has `n` keywords with `1 ≤ n ≤ maxCount`, each of at most `maxLength` code points.
So an input of exactly `maxCount` (at least one) keywords within the length limit succeeds with
`maxCount` keywords, and an input of `maxCount + 1` keywords fails with the too-many-keywords
error reporting `maxCount + 1`; the latter is shown for every limit `maxCount ≥ 0`, which
includes the limits `maxCount ≥ 1` of the former. -/
theorem ParseKeywords_succeeds_iff (input : String) (maxCount maxLength : Int) :
    ((ParseKeywords input maxCount maxLength).2 = none ↔
      (1 ≤ (maximalRuns input).length ∧ ((maximalRuns input).length : Int) ≤ maxCount
        ∧ ∀ k ∈ maximalRuns input, (runeCount k : Int) ≤ maxLength))
    ∧ (1 ≤ maxCount → ((maximalRuns input).length : Int) = maxCount →
        (∀ k ∈ maximalRuns input, (runeCount k : Int) ≤ maxLength) →
        ∃ ks, ParseKeywords input maxCount maxLength = (some ks, none)
          ∧ (ks.length : Int) = maxCount)
    ∧ (0 ≤ maxCount → ((maximalRuns input).length : Int) = maxCount + 1 →
        ParseKeywords input maxCount maxLength =
          (none, some ("too many keywords: got " ++ toString (maxCount + 1)
            ++ ", maximum " ++ toString maxCount ++ " allowed"))) := by
  refine ⟨parse_nil_error_iff input maxCount maxLength, ?_, ?_⟩
  · intro hpos hn hlen
    have h0 : maximalRuns input ≠ [] := by
      intro h; rw [h] at hn; simp at hn; omega
    exact ⟨maximalRuns input, parse_ok_of input maxCount maxLength h0 (le_of_eq hn) hlen, hn⟩
  · intro hpos hn
    have h0 : maximalRuns input ≠ [] := by
      intro h; rw [h] at hn; simp at hn; omega
    rw [parse_tooMany_of input maxCount maxLength h0 (by omega), hn]

/-- Witness for C5: two keywords with limit two succeed, three keywords with limit two fail
reporting three. -/
theorem ParseKeywords_succeeds_iff_witness :
    ((maximalRuns "Go React").length : Int) = 2
      ∧ ((maximalRuns "Go React TypeScript").length : Int) = 2 + 1
      ∧ (∃ ks, ParseKeywords "Go React" 2 100 = (some ks, none) ∧ (ks.length : Int) = 2)
      ∧ ParseKeywords "Go React TypeScript" 2 100 =
          (none, some ("too many keywords: got " ++ toString ((2 : Int) + 1)
            ++ ", maximum " ++ toString (2 : Int) ++ " allowed")) :=
  ⟨by decide, by decide,
    (ParseKeywords_succeeds_iff "Go React" 2 100).2.1 (by decide) (by decide) (by decide),
    (ParseKeywords_succeeds_iff "Go React TypeScript" 2 100).2.2 (by decide) (by decide)⟩

/-- C6: whatever the limits, `ParseKeywords` fails with the message "keywords cannot be empty"
and a nil slice if and only if every character of the input is white space (the empty input
included); in particular an input made of spaces, tabs and newlines only fails so. -/
theorem ParseKeywords_empty_iff (input : String) (maxCount maxLength : Int) :
    (ParseKeywords input maxCount maxLength = (none, some "keywords cannot be empty") ↔
      ∀ c ∈ input.data, isSpace c = true)
    ∧ ((∀ c ∈ input.data, c = ' ' ∨ c = '\t' ∨ c = '\n') →
        ParseKeywords input maxCount maxLength = (none, some "keywords cannot be empty")) := by
  have key : (ParseKeywords input maxCount maxLength = (none, some "keywords cannot be empty") ↔
      ∀ c ∈ input.data, isSpace c = true) := by
    rw [← Fields_eq_nil_iff, Fields_eq_maximalRuns]
    rcases parse_cases input maxCount maxLength with
      ⟨h0, he⟩ | ⟨h0, h1, he⟩ | ⟨h0, h1, k, hk, hlt, he⟩ | ⟨h0, h1, h2, he⟩
    · simp [he, h0]
    · simp [he, h0, tooMany_ne_empty]
    · simp [he, h0, tooLong_ne_empty]
    · simp [he, h0]
  refine ⟨key, fun h => key.mpr ?_⟩
  intro c hc
  rcases h c hc with rfl | rfl | rfl <;> decide

/-- Witness for C6: the mixed white-space input of the tests. -/
theorem ParseKeywords_empty_iff_witness :
    (∀ c ∈ "  \t\n  \t\n  ".data, c = ' ' ∨ c = '\t' ∨ c = '\n')
      ∧ ParseKeywords "  \t\n  \t\n  " 10 100 = (none, some "keywords cannot be empty") :=
  ⟨by decide, (ParseKeywords_empty_iff "  \t\n  \t\n  " 10 100).2 (by decide)⟩

/-- C7: for an input with `n ≥ 1` keywords and a limit `maxCount < n`, `ParseKeywords` returns
a nil slice and the error "too many keywords: got n, maximum maxCount allowed", whatever the
lengths of the keywords and whatever `maxLength` is. -/
theorem ParseKeywords_too_many_error (input : String) (maxCount maxLength : Int)
    (hn : 1 ≤ (maximalRuns input).length)
    (hlt : maxCount < ((maximalRuns input).length : Int)) :
    ParseKeywords input maxCount maxLength =
      (none, some ("too many keywords: got " ++ toString ((maximalRuns input).length : Int)
        ++ ", maximum " ++ toString maxCount ++ " allowed")) :=
  parse_tooMany_of input maxCount maxLength (List.length_pos.mp hn) hlt

/-- Witness for C7: six keywords against a limit of five, one of them over-long for the
length limit of one. -/
theorem ParseKeywords_too_many_error_witness :
    1 ≤ (maximalRuns "k1 k2 k3 k4 k5 k6").length
      ∧ (5 : Int) < ((maximalRuns "k1 k2 k3 k4 k5 k6").length : Int)
      ∧ ParseKeywords "k1 k2 k3 k4 k5 k6" 5 1 =
          (none, some ("too many keywords: got "
            ++ toString ((maximalRuns "k1 k2 k3 k4 k5 k6").length : Int)
            ++ ", maximum " ++ toString (5 : Int) ++ " allowed"))
      ∧ ParseKeywords "k1 k2 k3 k4 k5 k6" 5 1 =
          (none, some "too many keywords: got 6, maximum 5 allowed") :=
  ⟨by decide, by decide,
    ParseKeywords_too_many_error "k1 k2 k3 k4 k5 k6" 5 1 (by decide) (by decide), by decide⟩

/-- C8: if the input has between one and `maxCount` keywords and some keyword has more than
`maxLength` code points, `ParseKeywords` returns a nil slice and the error
"keyword 'k' exceeds maximum length of maxLength characters" for an over-long keyword `k` of
the input, written as in the input. -/
theorem ParseKeywords_too_long_error (input : String) (maxCount maxLength : Int)
    (hn : 1 ≤ (maximalRuns input).length)
    (hle : ((maximalRuns input).length : Int) ≤ maxCount)
    (hlong : ∃ k ∈ maximalRuns input, maxLength < (runeCount k : Int)) :
    ∃ k ∈ maximalRuns input, maxLength < (runeCount k : Int) ∧
      ParseKeywords input maxCount maxLength = (none, some ("keyword '" ++ k
        ++ "' exceeds maximum length of " ++ toString maxLength ++ " characters")) :=
  parse_tooLong_of input maxCount maxLength (List.length_pos.mp hn) hle hlong

/-- Witness for C8: the first keyword is within the limit, the second, in mixed case, is not. -/
theorem ParseKeywords_too_long_error_witness :
    1 ≤ (maximalRuns "Go TypeScript").length
      ∧ ((maximalRuns "Go TypeScript").length : Int) ≤ 10
      ∧ (∃ k ∈ maximalRuns "Go TypeScript", (5 : Int) < (runeCount k : Int))
      ∧ (∃ k ∈ maximalRuns "Go TypeScript", (5 : Int) < (runeCount k : Int) ∧
          ParseKeywords "Go TypeScript" 10 5 = (none, some ("keyword '" ++ k
            ++ "' exceeds maximum length of " ++ toString (5 : Int) ++ " characters")))
      ∧ ParseKeywords "Go TypeScript" 10 5 =
          (none, some "keyword 'TypeScript' exceeds maximum length of 5 characters") :=
  ⟨by decide, by decide, by decide,
    ParseKeywords_too_long_error "Go TypeScript" 10 5 (by decide) (by decide) (by decide),
    by decide⟩


/-- C9: keyword length is counted in code points. For an input with the single keyword `k`
and `maxCount ≥ 1`, `ParseKeywords` succeeds if and only if `k` has at most `maxLength` code
points: with exactly `maxLength` code points it is accepted, whatever its UTF-8 byte length,
and with `maxLength + 1` code points it is rejected as too long. -/
theorem ParseKeywords_counts_code_points (input k : String) (maxCount maxLength : Int)
    (hsingle : maximalRuns input = [k]) (hcount : 1 ≤ maxCount) :
    ((ParseKeywords input maxCount maxLength).2 = none ↔ (runeCount k : Int) ≤ maxLength)
    ∧ ((runeCount k : Int) = maxLength →
        ParseKeywords input maxCount maxLength = (some [k], none))
    ∧ ((runeCount k : Int) = maxLength + 1 →
        ParseKeywords input maxCount maxLength = (none, some ("keyword '" ++ k
          ++ "' exceeds maximum length of " ++ toString maxLength ++ " characters"))) := by
  have h0 : maximalRuns input ≠ [] := by rw [hsingle]; simp
  have h1 : ((maximalRuns input).length : Int) ≤ maxCount := by rw [hsingle]; simpa using hcount
  refine ⟨?_, ?_, ?_⟩
  · rw [parse_nil_error_iff, hsingle]
    simp [hcount]
  · intro hlen
    rw [parse_ok_of input maxCount maxLength h0 h1 (by rw [hsingle]; simp [hlen]), hsingle]
  · intro hlen
    obtain ⟨k', hk', -, he⟩ := parse_tooLong_of input maxCount maxLength h0 h1
      ⟨k, by rw [hsingle]; simp, by omega⟩
    rw [hsingle, List.mem_singleton] at hk'
    rw [he, hk']

/-- Witness for C9: the keyword 日本語 has three code points and nine UTF-8 bytes; it is
accepted with `maxLength = 3`, and the four-code-point keyword 日本語語 is rejected. -/
theorem ParseKeywords_counts_code_points_witness :
    (runeCount "日本語" = 3 ∧ "日本語".utf8ByteSize = 9)
      ∧ ParseKeywords "日本語" 1 3 = (some ["日本語"], none)
      ∧ ParseKeywords "日本語語" 1 3 = (none, some ("keyword '" ++ "日本語語"
          ++ "' exceeds maximum length of " ++ toString (3 : Int) ++ " characters")) :=
  ⟨by decide,
    (ParseKeywords_counts_code_points "日本語" "日本語" 1 3 (by decide) (by decide)).2.1
      (by decide),
    (ParseKeywords_counts_code_points "日本語語" "日本語語" 1 3 (by decide) (by decide)).2.2
      (by decide)⟩

/-- C10: round trip of the parser. Take a non-empty list of at most `maxCount` keywords, each
non-empty, free of white space and of at most `maxLength` code points; write them out with a
non-empty run of spaces, tabs and newlines between consecutive keywords and with any white
space before and after. `ParseKeywords` of that string returns exactly the list, with a nil
error. -/
theorem ParseKeywords_round_trip (lead first : String) (rest : List (String × String))
    (trail : String) (maxCount maxLength : Int)
    (hcount : ((first :: rest.map Prod.snd).length : Int) ≤ maxCount)
    (hkeys : ∀ k ∈ first :: rest.map Prod.snd,
      k ≠ "" ∧ (∀ c ∈ k.data, isSpace c = false) ∧ (runeCount k : Int) ≤ maxLength)
    (hseps : ∀ p ∈ rest, p.1 ≠ "" ∧ ∀ c ∈ p.1.data, c = ' ' ∨ c = '\t' ∨ c = '\n')
    (hlead : ∀ c ∈ lead.data, isSpace c = true)
    (htrail : ∀ c ∈ trail.data, isSpace c = true) :
    ParseKeywords (joinKeywords lead first rest trail) maxCount maxLength
      = (some (first :: rest.map Prod.snd), none) := by
  have hF : maximalRuns (joinKeywords lead first rest trail) = first :: rest.map Prod.snd := by
    rw [← Fields_eq_maximalRuns]
    refine Fields_joinKeywords lead first rest trail hlead ?_ ?_ htrail
    · exact ⟨(hkeys first (by simp)).1, (hkeys first (by simp)).2.1⟩
    · intro p hp
      have hk := hkeys p.2 (List.mem_cons_of_mem _ (List.mem_map_of_mem Prod.snd hp))
      refine ⟨⟨(hseps p hp).1, ?_⟩, ⟨hk.1, hk.2.1⟩⟩
      intro c hc
      rcases (hseps p hp).2 c hc with rfl | rfl | rfl <;> decide
  have := parse_ok_of (joinKeywords lead first rest trail) maxCount maxLength
    (by rw [hF]; simp) (by rw [hF]; exact hcount) (by rw [hF]; exact fun k hk => (hkeys k hk).2.2)
  rw [this, hF]

/-- Witness for C10: three keywords, one repeated, joined by mixed separators. -/
theorem ParseKeywords_round_trip_witness :
    joinKeywords "  " "Go" [(" \t", "React"), ("\n", "Go")] "\t\n" = "  Go \tReact\nGo\t\n"
      ∧ ParseKeywords (joinKeywords "  " "Go" [(" \t", "React"), ("\n", "Go")] "\t\n") 3 5
          = (some ("Go" :: [(" \t", "React"), ("\n", "Go")].map Prod.snd), none) :=
  ⟨by decide,
    ParseKeywords_round_trip "  " "Go" [(" \t", "React"), ("\n", "Go")] "\t\n" 3 5
      (by decide) (by decide) (by decide) (by decide) (by decide)⟩


/-! ## Further lemmas on the parser and the escaper -/

theorem flatten_fieldsLoop (l : List Char) :
    ∀ st : Option (List Char),
      (fieldsLoop l st).flatten
        = (match st with | none => [] | some cur => cur) ++ l.filter (fun c => !isSpace c) := by
  induction l with
  | nil => intro st; cases st <;> simp [fieldsLoop]
  | cons r rest ih =>
    intro st
    by_cases hr : isSpace r = true
    · rw [fieldsLoop_space r rest st hr, List.flatten_append, ih none]
      cases st <;> simp [hr]
    · simp only [Bool.not_eq_true] at hr
      rw [fieldsLoop_rune r rest st hr, ih]
      cases st <;> simp [hr]

theorem join_maximalRuns (input : String) :
    String.join (maximalRuns input)
      = String.mk (input.data.filter (fun c => !isSpace c)) := by
  apply String.ext
  rw [← Fields_eq_maximalRuns, String.data_join, Fields, List.map_map]
  have h : (String.data ∘ String.mk) = id := rfl
  rw [h, List.map_id, flatten_fieldsLoop]
  rfl

theorem replacerReplace_plain (l : List Char) (h : ∀ c ∈ l, isMeta c = false) :
    replacerReplace l = l := by
  induction l with
  | nil => rfl
  | cons c cs ih =>
    have hc := h c (by simp)
    simp only [isMeta, Bool.or_eq_false_iff, decide_eq_false_iff_not] at hc
    rw [replacerReplace_cons_plain c cs hc.2 hc.1.1 hc.1.2,
      ih (fun d hd => h d (List.mem_cons_of_mem _ hd))]

theorem replacerReplace_meta (l : List Char) (h : ∀ c ∈ l, isMeta c = true) :
    replacerReplace l = l.flatMap (fun c => ['\\', c]) := by
  induction l with
  | nil => rfl
  | cons c cs ih =>
    have hc := h c (by simp)
    simp only [isMeta, Bool.or_eq_true, decide_eq_true_eq] at hc
    rw [replacerReplace_cons_special c cs (by tauto),
      ih (fun d hd => h d (List.mem_cons_of_mem _ hd))]
    simp

theorem length_flatMap_pair (l : List Char) :
    (l.flatMap (fun c => ['\\', c])).length = 2 * l.length := by
  induction l with
  | nil => rfl
  | cons c cs ih => simp only [List.flatMap_cons, List.length_append, ih]; simp; omega

theorem filter_replacerReplace (l : List Char) :
    (replacerReplace l).filter (fun c => !isMeta c) = l.filter (fun c => !isMeta c) := by
  induction l with
  | nil => rfl
  | cons c cs ih =>
    by_cases h : c = '\\' ∨ c = '%' ∨ c = '_'
    · rw [replacerReplace_cons_special c cs h]
      have hm : isMeta c = true := by
        simp only [isMeta, Bool.or_eq_true, decide_eq_true_eq]; tauto
      have hb : isMeta '\\' = true := by decide
      simp [List.filter_cons, hm, hb, ih]
    · simp only [not_or] at h
      rw [replacerReplace_cons_plain c cs h.1 h.2.1 h.2.2]
      simp [List.filter_cons, ih]

/-! ## The parser and the escaper: further claims -/

/-- C11: keyword text is preserved verbatim. On success the concatenation of the returned
keywords is the input with every white-space character deleted: no other character is dropped,
added, reordered or changed in case. -/
theorem ParseKeywords_preserves_text (input : String) (maxCount maxLength : Int)
    (h : (ParseKeywords input maxCount maxLength).2 = none) :
    ∃ ks, (ParseKeywords input maxCount maxLength).1 = some ks
      ∧ String.join ks = String.mk (input.data.filter (fun c => !isSpace c)) := by
  obtain ⟨h0, h1, h2⟩ := (parse_nil_error_iff input maxCount maxLength).mp h
  refine ⟨maximalRuns input, ?_, join_maximalRuns input⟩
  rw [parse_ok_of input maxCount maxLength (List.length_pos.mp h0) h1 h2]

/-- Witness for C11: the mixed-case input of the tests. -/
theorem ParseKeywords_preserves_text_witness :
    ParseKeywords "Go REACT typescript" 10 100 = (some ["Go", "REACT", "typescript"], none)
      ∧ String.join ["Go", "REACT", "typescript"] = "GoREACTtypescript"
      ∧ ∃ ks, (ParseKeywords "Go REACT typescript" 10 100).1 = some ks
          ∧ String.join ks
            = String.mk ("Go REACT typescript".data.filter (fun c => !isSpace c)) :=
  ⟨by decide, by decide,
    ParseKeywords_preserves_text "Go REACT typescript" 10 100 (by decide)⟩

/-- C12: postcondition of `ParseKeywords`. When the error is nil the slice is non-nil and
non-empty, has at most `maxCount` elements, and every element is non-empty, free of white space
and of at most `maxLength` code points; when the error is not nil the slice is nil; an empty
slice with a nil error is never returned. -/
theorem ParseKeywords_postcondition (input : String) (maxCount maxLength : Int) :
    ((ParseKeywords input maxCount maxLength).2 = none →
      ∃ ks, (ParseKeywords input maxCount maxLength).1 = some ks ∧ ks ≠ []
        ∧ (ks.length : Int) ≤ maxCount
        ∧ ∀ k ∈ ks, k ≠ "" ∧ (∀ c ∈ k.data, isSpace c = false)
            ∧ (runeCount k : Int) ≤ maxLength)
    ∧ ((ParseKeywords input maxCount maxLength).2 ≠ none →
        (ParseKeywords input maxCount maxLength).1 = none)
    ∧ ParseKeywords input maxCount maxLength ≠ (some [], none) := by
  rcases parse_cases input maxCount maxLength with
    ⟨h0, he⟩ | ⟨h0, h1, he⟩ | ⟨h0, h1, k, hk, hlt, he⟩ | ⟨h0, h1, h2, he⟩
  · simp [he]
  · simp [he]
  · simp [he]
  · rw [he]
    refine ⟨fun _ => ⟨maximalRuns input, rfl, h0, h1, ?_⟩, by simp, ?_⟩
    · intro k hk
      have hf : k ∈ Fields input := by rw [Fields_eq_maximalRuns]; exact hk
      exact ⟨(Fields_mem input k hf).1, (Fields_mem input k hf).2, h2 k hk⟩
    · intro hc
      simp only [Prod.mk.injEq, Option.some.injEq, and_true] at hc
      exact h0 hc

/-- Witness for C12: a successful call and a call that fails. -/
theorem ParseKeywords_postcondition_witness :
    (∃ ks, (ParseKeywords "Go React" 10 100).1 = some ks ∧ ks ≠ []
        ∧ (ks.length : Int) ≤ 10
        ∧ ∀ k ∈ ks, k ≠ "" ∧ (∀ c ∈ k.data, isSpace c = false)
            ∧ (runeCount k : Int) ≤ 100)
      ∧ (ParseKeywords "   " 10 100).1 = none :=
  ⟨(ParseKeywords_postcondition "Go React" 10 100).1 (by decide),
    (ParseKeywords_postcondition "   " 10 100).2.1 (by decide)⟩

/-- C13: an input without percent, underscore and backslash is only wrapped: the pattern is a
percent sign, the input unchanged, and a percent sign. -/
theorem EscapeILIKE_plain (input : String)
    (h : ∀ c ∈ input.data, c ≠ '%' ∧ c ≠ '_' ∧ c ≠ '\\') :
    EscapeILIKE input = "%" ++ input ++ "%" := by
  have h2 : replacerReplace input.data = input.data := by
    apply replacerReplace_plain
    intro c hc
    obtain ⟨h1, h2, h3⟩ := h c hc
    simp [isMeta, h1, h2, h3]
  simp only [EscapeILIKE, h2]

/-- Witness for C13: the empty string gives the two-character pattern of two percent signs,
and non-ASCII text with digits and a space is wrapped unchanged. -/
theorem EscapeILIKE_plain_witness :
    (EscapeILIKE "" = "%%" ∧ (EscapeILIKE "").length = 2)
      ∧ EscapeILIKE "日本語 Go 123" = "%日本語 Go 123%"
      ∧ EscapeILIKE "" = "%" ++ "" ++ "%"
      ∧ EscapeILIKE "日本語 Go 123" = "%" ++ "日本語 Go 123" ++ "%" :=
  ⟨by decide, by decide, EscapeILIKE_plain "" (by decide),
    EscapeILIKE_plain "日本語 Go 123" (by decide)⟩

/-- C14: for an input of `n` characters, all of them percent, underscore or backslash, the
pattern has `2n + 2` characters: a percent sign, each input character in order preceded by one
backslash, and a percent sign. -/
theorem EscapeILIKE_all_meta (input : String)
    (h : ∀ c ∈ input.data, c = '%' ∨ c = '_' ∨ c = '\\') :
    EscapeILIKE input
        = "%" ++ String.mk (input.data.flatMap (fun c => ['\\', c])) ++ "%"
      ∧ (EscapeILIKE input).length = 2 * input.length + 2 := by
  have h2 : replacerReplace input.data = input.data.flatMap (fun c => ['\\', c]) := by
    apply replacerReplace_meta
    intro c hc
    rcases h c hc with rfl | rfl | rfl <;> decide
  refine ⟨by simp only [EscapeILIKE, h2], ?_⟩
  simp only [String.length, EscapeILIKE_data, h2, List.length_cons, List.length_append,
    length_flatMap_pair, List.length_nil]

/-- Witness for C14: percent-underscore-backslash. -/
theorem EscapeILIKE_all_meta_witness :
    EscapeILIKE "%_\\" = "%\\%\\_\\\\%"
      ∧ (EscapeILIKE "%_\\"
            = "%" ++ String.mk ("%_\\".data.flatMap (fun c => ['\\', c])) ++ "%"
          ∧ (EscapeILIKE "%_\\").length = 2 * "%_\\".length + 2) :=
  ⟨by decide, EscapeILIKE_all_meta "%_\\" (by decide)⟩

/-- C15: `EscapeILIKE` touches only the three metacharacters. For every input, the characters
other than percent, underscore and backslash of the result without its two wrapping percent
signs are, in order, those of the input. -/
theorem EscapeILIKE_keeps_other_characters (input : String) :
    ∃ body, stripPercents (EscapeILIKE input).data = some body
      ∧ body.filter (fun c => !isMeta c) = input.data.filter (fun c => !isMeta c) := by
  refine ⟨replacerReplace input.data, ?_, filter_replacerReplace input.data⟩
  rw [EscapeILIKE_data, stripPercents_wrap]

/-! ## Case-insensitive matching of an escaped keyword -/

theorem ilikeMatch_percent (fold : Char → Char) (p s : List Char) :
    ilikeMatch fold ('%' :: p) s = true ↔ ∃ t, t <:+ s ∧ ilikeMatch fold p t = true := by
  rw [ilikeMatch.eq_def]
  simp

theorem ilikeMatch_backslash (fold : Char → Char) (d : Char) (p s : List Char) :
    ilikeMatch fold ('\\' :: d :: p) s = true
      ↔ ∃ x s', s = x :: s' ∧ fold x = fold d ∧ ilikeMatch fold p s' = true := by
  rw [ilikeMatch.eq_def]
  cases s with
  | nil => simp
  | cons x s' =>
    simp
    constructor
    · rintro ⟨h1, h2⟩; exact ⟨x, s', ⟨rfl, rfl⟩, h1, h2⟩
    · rintro ⟨_, _, ⟨rfl, rfl⟩, h1, h2⟩; exact ⟨h1, h2⟩

theorem ilikeMatch_plain (fold : Char → Char) (c : Char) (p s : List Char)
    (h1 : c ≠ '\\') (h2 : c ≠ '%') (h3 : c ≠ '_') :
    ilikeMatch fold (c :: p) s = true
      ↔ ∃ x s', s = x :: s' ∧ fold x = fold c ∧ ilikeMatch fold p s' = true := by
  rw [ilikeMatch.eq_def]
  cases s with
  | nil => simp [h1, h2, h3]
  | cons x s' =>
    simp [h1, h2, h3]
    constructor
    · rintro ⟨h4, h5⟩; exact ⟨x, s', ⟨rfl, rfl⟩, h4, h5⟩
    · rintro ⟨_, _, ⟨rfl, rfl⟩, h4, h5⟩; exact ⟨h4, h5⟩

theorem ilikeMatch_escaped (fold : Char → Char) (k p : List Char) :
    ∀ s, ilikeMatch fold (replacerReplace k ++ p) s = true
      ↔ ∃ u t, s = u ++ t ∧ u.map fold = k.map fold ∧ ilikeMatch fold p t = true := by
  induction k with
  | nil =>
    intro s
    simp only [replacerReplace, List.nil_append, List.map_nil, List.map_eq_nil_iff]
    constructor
    · intro h; exact ⟨[], s, rfl, rfl, h⟩
    · rintro ⟨u, t, rfl, rfl, h⟩; simpa using h
  | cons c cs ih =>
    intro s
    have key : (∃ x s', s = x :: s' ∧ fold x = fold c
          ∧ ∃ u t, s' = u ++ t ∧ u.map fold = cs.map fold ∧ ilikeMatch fold p t = true)
        ↔ ∃ u t, s = u ++ t ∧ u.map fold = (c :: cs).map fold
          ∧ ilikeMatch fold p t = true := by
      constructor
      · rintro ⟨x, s', rfl, hx, u, t, rfl, hu, ht⟩
        exact ⟨x :: u, t, rfl, by simp [hx, hu], ht⟩
      · rintro ⟨u, t, rfl, hu, ht⟩
        cases u with
        | nil => simp at hu
        | cons x u' =>
          simp only [List.map_cons, List.cons.injEq] at hu
          exact ⟨x, u' ++ t, rfl, hu.1, u', t, rfl, hu.2, ht⟩
    by_cases h : c = '\\' ∨ c = '%' ∨ c = '_'
    · rw [replacerReplace_cons_special c cs h]
      simp only [List.cons_append, ilikeMatch_backslash, ih]
      exact key
    · simp only [not_or] at h
      rw [replacerReplace_cons_plain c cs h.1 h.2.1 h.2.2]
      simp only [List.cons_append, ilikeMatch_plain fold c _ _ h.1 h.2.1 h.2.2, ih]
      exact key

theorem ilikeMatch_trailing_percent (fold : Char → Char) (t : List Char) :
    ilikeMatch fold ['%'] t = true := by
  rw [ilikeMatch_percent]
  exact ⟨[], List.nil_suffix, by simp [ilikeMatch]⟩

/-- A text matches the escaped and wrapped keyword without regard to case exactly when the
folded keyword occurs in the folded text. -/
theorem ilikeMatch_wrapped (fold : Char → Char) (k s : List Char) :
    ilikeMatch fold ('%' :: (replacerReplace k ++ ['%'])) s = true
      ↔ k.map fold <:+: s.map fold := by
  rw [ilikeMatch_percent]
  constructor
  · rintro ⟨t, ⟨pre, rfl⟩, ht⟩
    rw [ilikeMatch_escaped] at ht
    obtain ⟨u, v, rfl, hu, -⟩ := ht
    exact ⟨pre.map fold, v.map fold, by simp [hu]⟩
  · rintro ⟨pre, post, h⟩
    obtain ⟨l1, post', h1, h2, h3⟩ := List.map_eq_append_iff.mp h.symm
    obtain ⟨pre', u, h4, h5, h6⟩ := List.map_eq_append_iff.mp h2
    subst h1 h4
    refine ⟨u ++ post', ⟨pre', by simp⟩, ?_⟩
    rw [ilikeMatch_escaped]
    exact ⟨u, post', rfl, h6, ilikeMatch_trailing_percent fold post'⟩

/-- Counterexample for C20: the text "Learning GO with React" satisfies the keyword predicate
of the keywords "go" and "react", since matching is case-insensitive, yet the keyword "go"
does not occur in it as a substring: the text has "GO". -/
theorem keywordPredicate_ignores_case :
    keywordPredicate ["go", "react"] "Learning GO with React" = true
      ∧ ¬ (∀ k ∈ ["go", "react"], k.data <:+: "Learning GO with React".data) := by
  refine ⟨by decide, by decide⟩

/-- C20, amended: keyword predicates combine with AND and the order of the keywords is
irrelevant.  A text satisfies the keyword predicate of a list of keywords exactly when it
matches, without regard to letter case, the pattern `EscapeILIKE k` of every keyword `k`, which
is exactly when every keyword occurs in it as a substring up to letter case; the same holds
for every folding of the characters in place of `Char.toLower`; the truth value is the same for
every permutation of the list; a text that contains only one of two keywords is excluded. -/
theorem keywordPredicate_and_up_to_case (ks : List String) (t : String) :
    (keywordPredicate ks t = true
      ↔ ∀ k ∈ ks, ilikeMatch Char.toLower (EscapeILIKE k).data t.data = true)
    ∧ ((∀ k ∈ ks, ilikeMatch Char.toLower (EscapeILIKE k).data t.data = true)
        ↔ ∀ k ∈ ks, foldCase k.data <:+: foldCase t.data)
    ∧ (∀ fold : Char → Char,
        (∀ k ∈ ks, ilikeMatch fold (EscapeILIKE k).data t.data = true)
          ↔ ∀ k ∈ ks, k.data.map fold <:+: t.data.map fold)
    ∧ (∀ ks', ks'.Perm ks → keywordPredicate ks' t = keywordPredicate ks t)
    ∧ keywordPredicate ["go", "react"] "learning go" = false
    ∧ keywordPredicate ["go", "react"] "react with go" = true
    ∧ keywordPredicate ["go", "react"] "Learning GO with React" = true := by
  have hfold : ∀ fold : Char → Char,
      (∀ k ∈ ks, ilikeMatch fold (EscapeILIKE k).data t.data = true)
        ↔ ∀ k ∈ ks, k.data.map fold <:+: t.data.map fold := by
    intro fold
    constructor
    · intro h k hk
      have := h k hk
      rwa [EscapeILIKE_data, ilikeMatch_wrapped] at this
    · intro h k hk
      rw [EscapeILIKE_data, ilikeMatch_wrapped]
      exact h k hk
  refine ⟨by simp [keywordPredicate], hfold Char.toLower, hfold, ?_, by decide, by decide,
    by decide⟩
  intro ks' hp
  rw [Bool.eq_iff_iff]
  simp only [keywordPredicate, List.all_eq_true]
  exact ⟨fun h k hk => h k (hp.mem_iff.mpr hk), fun h k hk => h k (hp.mem_iff.mp hk)⟩

/-- Witness for C20, amended: the two orders of two keywords give the same truth value. -/
theorem keywordPredicate_and_up_to_case_witness :
    keywordPredicate ["react", "go"] "React with GO"
      = keywordPredicate ["go", "react"] "React with GO" :=
  (keywordPredicate_and_up_to_case ["go", "react"] "React with GO").2.2.2.1
    ["react", "go"] (List.Perm.swap "go" "react" [])

end Search

namespace Validation

/-! ## Lemmas on `ValidateEnum` -/

theorem allowedLoop_iff (value : String) (allowed : List String) :
    allowedLoop value allowed = true ↔ value ∈ allowed := by
  induction allowed with
  | nil => simp [allowedLoop]
  | cons a rest ih =>
    by_cases h : value = a
    · simp [allowedLoop, h]
    · simp [allowedLoop, h, ih]

theorem foldl_eq_intercalate_go (sep : String) (rest : List String) :
    ∀ acc : String,
      rest.foldl (fun b s => b ++ sep ++ s) acc = String.intercalate.go acc sep rest := by
  induction rest with
  | nil => intro acc; rfl
  | cons a rest ih => intro acc; simp only [List.foldl_cons, String.intercalate.go, ih]

theorem Join_eq_intercalate (allowed : List String) (sep : String) :
    Join allowed sep = sep.intercalate allowed := by
  cases allowed with
  | nil => rfl
  | cons a rest => simp only [Join, String.intercalate, foldl_eq_intercalate_go]

theorem infix_foldl_join (sep : String) (a : String) (rest : List String) :
    ∀ acc : String, (a.data <:+: acc.data ∨ a ∈ rest) →
      a.data <:+: (rest.foldl (fun b s => b ++ sep ++ s) acc).data := by
  induction rest with
  | nil =>
    intro acc h
    rcases h with h | h
    · exact h
    · simp at h
  | cons b rest ih =>
    intro acc h
    rw [List.foldl_cons]
    apply ih
    rcases h with h | h
    · left
      obtain ⟨p, q, hpq⟩ := h
      exact ⟨p, q ++ sep.data ++ b.data, by simp [String.data_append, ← hpq]⟩
    · rcases List.mem_cons.mp h with rfl | h
      · left
        exact ⟨acc.data ++ sep.data, [], by simp [String.data_append]⟩
      · right; exact h

theorem infix_Join (sep : String) (a : String) (allowed : List String) (h : a ∈ allowed) :
    a.data <:+: (Join allowed sep).data := by
  cases allowed with
  | nil => simp at h
  | cons b rest =>
    rw [Join]
    apply infix_foldl_join
    rcases List.mem_cons.mp h with rfl | h
    · left; exact List.infix_refl _
    · right; exact h

theorem validate_invalid_of (value : String) (allowed : List String) (fieldName : String)
    (hv : value ≠ "") (hne : allowed ≠ []) (hnot : value ∉ allowed) :
    ValidateEnum value allowed fieldName
      = some ("invalid value '" ++ value ++ "' for field '" ++ fieldName
          ++ "': must be one of [" ++ Join allowed ", " ++ "]") := by
  have h1 : ¬ allowed.length = 0 := by simpa using hne
  have h2 : ¬ allowedLoop value allowed = true := by rwa [allowedLoop_iff]
  simp only [ValidateEnum, hv, h1, h2, if_false]
  rfl

/-! ## `ValidateEnum`: claims -/

/-- C16: `ValidateEnum` returns nil if and only if the value is the empty string or is equal
to some element of `allowed`; the comparison is exact, so the value "rss" is rejected with an
error when the only allowed value is "RSS". -/
theorem ValidateEnum_nil_iff :
    (∀ (value : String) (allowed : List String) (fieldName : String),
      ValidateEnum value allowed fieldName = none ↔ value = "" ∨ value ∈ allowed)
    ∧ (∀ fieldName : String, ValidateEnum "rss" ["RSS"] fieldName ≠ none) := by
  have key : ∀ (value : String) (allowed : List String) (fieldName : String),
      ValidateEnum value allowed fieldName = none ↔ value = "" ∨ value ∈ allowed := by
    intro value allowed fieldName
    by_cases hv : value = ""
    · simp [ValidateEnum, hv]
    · by_cases hl : allowed.length = 0
      · have : allowed = [] := List.length_eq_zero.mp hl
        simp [ValidateEnum, hv, this]
      · by_cases hm : value ∈ allowed
        · simp [ValidateEnum, hv, hl, (allowedLoop_iff value allowed).mpr hm, hm]
        · have h2 : ¬ allowedLoop value allowed = true := by rwa [allowedLoop_iff]
          simp [ValidateEnum, hv, hl, h2, hm]
  refine ⟨key, fun fieldName h => ?_⟩
  have := (key "rss" ["RSS"] fieldName).mp h
  revert this
  decide

/-- C17: for a non-empty value that is not an element of a non-empty allowed list,
`ValidateEnum` returns the error "invalid value 'value' for field 'fieldName': must be one of
[...]" with the allowed values in list order joined by comma-space; the message contains the
value, the field name and every allowed value. -/
theorem ValidateEnum_invalid_message (value : String) (allowed : List String)
    (fieldName : String) (hv : value ≠ "") (hne : allowed ≠ []) (hnot : value ∉ allowed) :
    ∃ msg, ValidateEnum value allowed fieldName = some msg
      ∧ msg = "invalid value '" ++ value ++ "' for field '" ++ fieldName
          ++ "': must be one of [" ++ ", ".intercalate allowed ++ "]"
      ∧ value.data <:+: msg.data ∧ fieldName.data <:+: msg.data
      ∧ ∀ a ∈ allowed, a.data <:+: msg.data := by
  refine ⟨_, validate_invalid_of value allowed fieldName hv hne hnot, ?_, ?_, ?_, ?_⟩
  · rw [Join_eq_intercalate]
  · exact ⟨"invalid value '".data, "' for field '".data ++ fieldName.data
      ++ "': must be one of [".data ++ (Join allowed ", ").data ++ "]".data,
      by simp [String.data_append]⟩
  · exact ⟨"invalid value '".data ++ value.data ++ "' for field '".data,
      "': must be one of [".data ++ (Join allowed ", ").data ++ "]".data,
      by simp [String.data_append]⟩
  · intro a ha
    obtain ⟨p, q, hpq⟩ := infix_Join ", " a allowed ha
    exact ⟨"invalid value '".data ++ value.data ++ "' for field '".data ++ fieldName.data
      ++ "': must be one of [".data ++ p, q ++ "]".data,
      by simp [String.data_append, ← hpq]⟩

/-- Witness for C17: the call of the error-message test. -/
theorem ValidateEnum_invalid_message_witness :
    ValidateEnum "Invalid" ["RSS", "Webflow"] "source_type"
        = some "invalid value 'Invalid' for field 'source_type': must be one of [RSS, Webflow]"
      ∧ ∃ msg, ValidateEnum "Invalid" ["RSS", "Webflow"] "source_type" = some msg
          ∧ msg = "invalid value '" ++ "Invalid" ++ "' for field '" ++ "source_type"
              ++ "': must be one of [" ++ ", ".intercalate ["RSS", "Webflow"] ++ "]"
          ∧ "Invalid".data <:+: msg.data ∧ "source_type".data <:+: msg.data
          ∧ ∀ a ∈ ["RSS", "Webflow"], a.data <:+: msg.data :=
  ⟨by decide,
    ValidateEnum_invalid_message "Invalid" ["RSS", "Webflow"] "source_type"
      (by decide) (by decide) (by decide)⟩

/-- C18: an empty value is an unset optional field: `ValidateEnum` returns nil for it, for
every allowed list and every field name. -/
theorem ValidateEnum_empty_value (allowed : List String) (fieldName : String) :
    ValidateEnum "" allowed fieldName = none := by
  simp [ValidateEnum]

/-- Counterexample for C19: with the empty value and an empty allowed list `ValidateEnum`
returns nil, so it is not the case that every call with an empty allowed list returns an
error. -/
theorem ValidateEnum_nil_on_empty_allowed :
    ValidateEnum "" [] "source_type" = none
      ∧ ¬ (∀ (value fieldName : String), ValidateEnum value [] fieldName ≠ none) := by
  refine ⟨by decide, fun h => h "" "source_type" (by decide)⟩

/-- C19, amended: for every non-empty value and every field name, `ValidateEnum` called with
an empty (or nil) allowed list returns an error, with the message "allowed values list cannot
be empty for field 'fieldName'". -/
theorem ValidateEnum_empty_allowed (value fieldName : String) (hv : value ≠ "") :
    ValidateEnum value [] fieldName
      = some ("allowed values list cannot be empty for field '" ++ fieldName ++ "'") := by
  simp [ValidateEnum, hv]

/-- Witness for C19, amended: the call of the tests. -/
theorem ValidateEnum_empty_allowed_witness :
    "RSS" ≠ "" ∧ ValidateEnum "RSS" [] "source_type"
      = some ("allowed values list cannot be empty for field '" ++ "source_type" ++ "'") :=
  ⟨by decide, ValidateEnum_empty_allowed "RSS" "source_type" (by decide)⟩

end Validation

namespace Search

/-! ## Defaults and the order of the checks -/

theorem checkLengths_leftmost (maxLength : Int) (pre post : List String) (k : String)
    (hpre : ∀ p ∈ pre, (∀ c ∈ p.data, isSpace c = false) ∧ (runeCount p : Int) ≤ maxLength)
    (hk : ∀ c ∈ k.data, isSpace c = false) (hlong : maxLength < (runeCount k : Int)) :
    checkLengths maxLength (pre ++ k :: post) = Except.error ("keyword '" ++ k
      ++ "' exceeds maximum length of " ++ toString maxLength ++ " characters") := by
  induction pre with
  | nil =>
    have hkt : TrimSpace k = k := TrimSpace_of_no_space k hk
    simp only [List.nil_append, checkLengths, hkt, gt_iff_lt, hlong, if_true]
  | cons p pre ih =>
    have hp := hpre p (by simp)
    have hpt : TrimSpace p = p := TrimSpace_of_no_space p hp.1
    have hl : ¬ maxLength < (runeCount p : Int) := not_lt.mpr hp.2
    have hih := ih (fun q hq => hpre q (List.mem_cons_of_mem _ hq))
    rw [List.cons_append]
    simp only [checkLengths, hpt, gt_iff_lt, hl, if_false, hih]

theorem tooMany_ne_tooLong (a b c d : String) :
    "too many keywords: got " ++ a ++ ", maximum " ++ b ++ " allowed"
      ≠ "keyword '" ++ c ++ "' exceeds maximum length of " ++ d ++ " characters" := by
  intro h
  have h2 := congrArg (fun s => s.data.head?) h
  simp [String.data_append] at h2

/-- C29: the default limits are 10 keywords and 100 code points per keyword, so
`ParseKeywords` with the default limits succeeds exactly for the inputs with 1 to 10 keywords
of at most 100 code points each. -/
theorem ParseKeywords_default_limits :
    DefaultMaxKeywordCount = 10 ∧ DefaultMaxKeywordLength = 100
    ∧ ∀ input : String,
        (ParseKeywords input DefaultMaxKeywordCount DefaultMaxKeywordLength).2 = none ↔
          (1 ≤ (maximalRuns input).length ∧ (maximalRuns input).length ≤ 10
            ∧ ∀ k ∈ maximalRuns input, runeCount k ≤ 100) := by
  refine ⟨rfl, rfl, fun input => ?_⟩
  rw [parse_nil_error_iff]
  simp only [DefaultMaxKeywordCount, DefaultMaxKeywordLength]
  constructor
  · rintro ⟨h1, h2, h3⟩
    exact ⟨h1, by exact_mod_cast h2, fun k hk => by exact_mod_cast h3 k hk⟩
  · rintro ⟨h1, h2, h3⟩
    exact ⟨h1, by exact_mod_cast h2, fun k hk => by exact_mod_cast h3 k hk⟩

/-- C30: `ParseKeywords` reports the first failing check in the order empty, count, length.
An input without keywords fails with the empty error whatever the limits; an input with more
than `maxCount` keywords, one of them over-long, fails with the too-many-keywords error, which
is not a too-long error; and when the count is within the limit, the keyword named in the
too-long error is the leftmost keyword of the input that exceeds `maxLength`. -/
theorem ParseKeywords_check_order (input : String) (maxCount maxLength : Int) :
    (maximalRuns input = [] →
      ParseKeywords input maxCount maxLength = (none, some "keywords cannot be empty"))
    ∧ (maxCount < ((maximalRuns input).length : Int) →
        (∃ k ∈ maximalRuns input, maxLength < (runeCount k : Int)) →
        ParseKeywords input maxCount maxLength =
          (none, some ("too many keywords: got "
            ++ toString ((maximalRuns input).length : Int)
            ++ ", maximum " ++ toString maxCount ++ " allowed"))
        ∧ ∀ k : String, (ParseKeywords input maxCount maxLength).2 ≠ some ("keyword '" ++ k
            ++ "' exceeds maximum length of " ++ toString maxLength ++ " characters"))
    ∧ (∀ (pre post : List String) (k : String),
        maximalRuns input = pre ++ k :: post →
        ((maximalRuns input).length : Int) ≤ maxCount →
        (∀ p ∈ pre, (runeCount p : Int) ≤ maxLength) →
        maxLength < (runeCount k : Int) →
        ParseKeywords input maxCount maxLength = (none, some ("keyword '" ++ k
          ++ "' exceeds maximum length of " ++ toString maxLength ++ " characters"))) := by
  refine ⟨parse_empty_of input maxCount maxLength, ?_, ?_⟩
  · intro hlt hlong
    obtain ⟨k, hk, -⟩ := hlong
    have h0 : maximalRuns input ≠ [] := List.ne_nil_of_mem hk
    rw [parse_tooMany_of input maxCount maxLength h0 hlt]
    refine ⟨rfl, fun k' h => ?_⟩
    simp only [Option.some.injEq] at h
    exact tooMany_ne_tooLong _ _ _ _ h
  · intro pre post k hruns hle hpre hlong
    have h0 : maximalRuns input ≠ [] := by rw [hruns]; simp
    have hns := maximalRuns_no_space input
    rw [parse_unfold, if_neg h0, if_neg (not_lt.mpr hle), hruns,
      checkLengths_leftmost maxLength pre post k
        (fun p hp => ⟨hns p (by rw [hruns]; simp [hp]), hpre p hp⟩)
        (hns k (by rw [hruns]; simp)) hlong]

/-- Witness for C30: three keywords against a limit of two, one of them over-long; and two
over-long keywords within the count limit, of which the left one is named. -/
theorem ParseKeywords_check_order_witness :
    ParseKeywords "Go TypeScript React" 2 5
        = (none, some "too many keywords: got 3, maximum 2 allowed")
      ∧ ParseKeywords "Go TypeScript JavaScript" 3 5
        = (none, some "keyword 'TypeScript' exceeds maximum length of 5 characters")
      ∧ (ParseKeywords "Go TypeScript React" 2 5 =
          (none, some ("too many keywords: got "
            ++ toString ((maximalRuns "Go TypeScript React").length : Int)
            ++ ", maximum " ++ toString (2 : Int) ++ " allowed"))
        ∧ ∀ k : String, (ParseKeywords "Go TypeScript React" 2 5).2 ≠ some ("keyword '" ++ k
            ++ "' exceeds maximum length of " ++ toString (5 : Int) ++ " characters"))
      ∧ ParseKeywords "Go TypeScript JavaScript" 3 5 = (none, some ("keyword '" ++ "TypeScript"
          ++ "' exceeds maximum length of " ++ toString (5 : Int) ++ " characters")) :=
  ⟨by decide, by decide,
    (ParseKeywords_check_order "Go TypeScript React" 2 5).2.1 (by decide) (by decide),
    (ParseKeywords_check_order "Go TypeScript JavaScript" 3 5).2.2 ["Go"] ["JavaScript"]
      "TypeScript" (by decide) (by decide) (by decide) (by decide)⟩

end Search

namespace Postgres

/-! ## Lemmas on the map model and the batch existence check -/

theorem keys_mapAssign (m : List (String × Bool)) (k : String) (v : Bool) :
    (mapAssign m k v).map Prod.fst
      = if k ∈ m.map Prod.fst then m.map Prod.fst else m.map Prod.fst ++ [k] := by
  induction m with
  | nil => simp [mapAssign]
  | cons p rest ih =>
    obtain ⟨k', v'⟩ := p
    by_cases h : k' = k
    · subst h; simp [mapAssign]
    · have h' : ¬ k = k' := fun e => h e.symm
      simp only [mapAssign, h, if_false, List.map_cons, ih, List.mem_cons, h', false_or]
      split <;> simp

theorem values_mapAssign (m : List (String × Bool)) (k : String)
    (h : ∀ p ∈ m, p.2 = true) : ∀ p ∈ mapAssign m k true, p.2 = true := by
  induction m with
  | nil => simp [mapAssign]
  | cons q rest ih =>
    obtain ⟨k', v'⟩ := q
    by_cases hk : k' = k
    · simp only [mapAssign, hk, if_true]
      intro p hp
      rcases List.mem_cons.mp hp with rfl | hp
      · rfl
      · exact h p (List.mem_cons_of_mem _ hp)
    · simp only [mapAssign, hk, if_false]
      intro p hp
      rcases List.mem_cons.mp hp with rfl | hp
      · exact h _ (by simp)
      · exact ih (fun p hp => h p (List.mem_cons_of_mem _ hp)) p hp

theorem foldl_mapAssign (rows : List String) :
    ∀ m : List (String × Bool), (m.map Prod.fst).Nodup → (∀ p ∈ m, p.2 = true) →
      ((rows.foldl (fun m u => mapAssign m u true) m).map Prod.fst).Nodup
      ∧ (∀ u, u ∈ (rows.foldl (fun m u => mapAssign m u true) m).map Prod.fst
          ↔ u ∈ m.map Prod.fst ∨ u ∈ rows)
      ∧ (∀ p ∈ rows.foldl (fun m u => mapAssign m u true) m, p.2 = true) := by
  induction rows with
  | nil =>
    intro m hn hv
    exact ⟨hn, fun u => by simp, hv⟩
  | cons r rows ih =>
    intro m hn hv
    have hk := keys_mapAssign m r true
    have hn' : ((mapAssign m r true).map Prod.fst).Nodup := by
      rw [hk]
      split
      · exact hn
      · rename_i hr
        exact List.Nodup.append hn (List.nodup_singleton r) (by
          intro a ha hb
          rw [List.mem_singleton] at hb
          exact hr (hb ▸ ha))
    obtain ⟨h1, h2, h3⟩ := ih (mapAssign m r true) hn' (values_mapAssign m r hv)
    refine ⟨h1, ?_, h3⟩
    intro u
    rw [List.foldl_cons, h2, hk]
    split
    · rename_i hr
      constructor
      · rintro (h | h)
        · exact Or.inl h
        · exact Or.inr (List.mem_cons_of_mem _ h)
      · rintro (h | h)
        · exact Or.inl h
        · rcases List.mem_cons.mp h with rfl | h
          · exact Or.inl hr
          · exact Or.inr h
    · simp only [List.mem_append, List.mem_singleton, List.mem_cons]
      tauto

theorem mapLookup_eq_none (m : List (String × Bool)) (k : String) :
    mapLookup m k = none ↔ k ∉ m.map Prod.fst := by
  induction m with
  | nil => simp [mapLookup]
  | cons p rest ih =>
    obtain ⟨k', v'⟩ := p
    by_cases h : k' = k
    · simp [mapLookup, h]
    · have h' : ¬ k = k' := fun e => h e.symm
      simp [mapLookup, h, h', ih]

/-! ## The batch existence check: claims -/

/-- C21: `ExistsByURLBatch` called with an empty list of URLs returns an empty mapping and a
nil error and issues no storage query, whatever the storage holds and even when the storage
would fail. -/
theorem ExistsByURLBatch_empty (db : Storage) :
    ExistsByURLBatch db [] = (some [], none, 0) := by
  simp [ExistsByURLBatch]

/-- C22: sparse result of `ExistsByURLBatch`. For every list of candidate URLs and every
working storage, a mapping is returned with a nil error; it has exactly one entry per distinct
candidate that the storage holds (its keys are pairwise distinct and are the candidates that
are stored), every entry has the value true, a candidate absent from the storage has no entry,
and the size of the mapping is at most the number of distinct candidates. -/
theorem ExistsByURLBatch_sparse (db : Storage) (urls : List String)
    (hok : db.failure = none) :
    ∃ m, (ExistsByURLBatch db urls).1 = some m ∧ (ExistsByURLBatch db urls).2.1 = none
      ∧ (m.map Prod.fst).Nodup
      ∧ (∀ u, u ∈ m.map Prod.fst ↔ u ∈ urls ∧ u ∈ db.stored)
      ∧ (∀ p ∈ m, p.2 = true)
      ∧ (∀ u ∈ urls, u ∉ db.stored → mapLookup m u = none)
      ∧ m.length ≤ urls.dedup.length := by
  by_cases h0 : urls.length = 0
  · have hu : urls = [] := List.length_eq_zero.mp h0
    subst hu
    exact ⟨[], by simp [ExistsByURLBatch]⟩
  · obtain ⟨h1, h2, h3⟩ := foldl_mapAssign
      (db.stored.filter (fun u => decide (u ∈ urls))) [] (by simp) (by simp)
    have hkeys : ∀ u, u ∈ ((db.stored.filter (fun u => decide (u ∈ urls))).foldl
        (fun m u => mapAssign m u true) []).map Prod.fst ↔ u ∈ urls ∧ u ∈ db.stored := by
      intro u
      rw [h2]
      simp only [List.map_nil, List.not_mem_nil, false_or, List.mem_filter, decide_eq_true_eq]
      tauto
    refine ⟨_, by simp only [ExistsByURLBatch, h0, if_false, Storage.selectExisting, hok],
      by simp only [ExistsByURLBatch, h0, if_false, Storage.selectExisting, hok],
      h1, hkeys, h3, ?_, ?_⟩
    · intro u _ hns
      rw [mapLookup_eq_none, hkeys]
      exact fun h => hns h.2
    · rw [← List.length_map _ Prod.fst]
      apply List.Subperm.length_le
      apply List.Nodup.subperm h1
      intro u hu
      exact List.mem_dedup.mpr ((hkeys u).mp hu).1

/-- Witness for C22: the candidate `a` is listed twice and stored, `b` is not stored. -/
theorem ExistsByURLBatch_sparse_witness :
    ExistsByURLBatch (Storage.mk ["a", "c"] none) ["a", "a", "b"] = (some [("a", true)], none, 1)
      ∧ ∃ m, (ExistsByURLBatch (Storage.mk ["a", "c"] none) ["a", "a", "b"]).1 = some m
        ∧ (ExistsByURLBatch (Storage.mk ["a", "c"] none) ["a", "a", "b"]).2.1 = none
        ∧ (m.map Prod.fst).Nodup
        ∧ (∀ u, u ∈ m.map Prod.fst ↔ u ∈ ["a", "a", "b"] ∧ u ∈ (Storage.mk ["a", "c"] none).stored)
        ∧ (∀ p ∈ m, p.2 = true)
        ∧ (∀ u ∈ ["a", "a", "b"], u ∉ (Storage.mk ["a", "c"] none).stored → mapLookup m u = none)
        ∧ m.length ≤ ["a", "a", "b"].dedup.length :=
  ⟨by decide, ExistsByURLBatch_sparse (Storage.mk ["a", "c"] none) ["a", "a", "b"] rfl⟩

end Postgres

namespace Validation

/-! ## `ParseBool`: claims -/

theorem strconvParseBool_true_iff (str : String) :
    strconvParseBool str = some true ↔ str ∈ ["1", "t", "T", "TRUE", "true", "True"] := by
  unfold strconvParseBool
  split_ifs with h1 h2
  · simp only [true_iff, List.mem_cons, List.mem_singleton, List.not_mem_nil, or_false]
    tauto
  · simp only [Option.some.injEq, Bool.false_eq_true, false_iff, List.mem_cons,
      List.mem_singleton, List.not_mem_nil, or_false]
    tauto
  · simp only [reduceCtorEq, false_iff, List.mem_cons, List.mem_singleton, List.not_mem_nil,
      or_false]
    tauto

theorem strconvParseBool_false_iff (str : String) :
    strconvParseBool str = some false ↔ str ∈ ["0", "f", "F", "FALSE", "false", "False"] := by
  unfold strconvParseBool
  split_ifs with h1 h2
  · simp only [Option.some.injEq, Bool.true_eq_false, false_iff, List.mem_cons,
      List.mem_singleton, List.not_mem_nil, or_false]
    rintro (h | h | h | h | h | h) <;> subst h <;> revert h1 <;> decide
  · simp only [true_iff, List.mem_cons, List.mem_singleton, List.not_mem_nil, or_false]
    tauto
  · simp only [reduceCtorEq, false_iff, List.mem_cons, List.mem_singleton, List.not_mem_nil,
      or_false]
    tauto

theorem strconvParseBool_none_iff (str : String) :
    strconvParseBool str = none ↔
      str ∉ ["1", "t", "T", "TRUE", "true", "True", "0", "f", "F", "FALSE", "false", "False"] := by
  cases h : strconvParseBool str with
  | none =>
    simp only [true_iff]
    intro hmem
    have h1 : ¬ str ∈ ["1", "t", "T", "TRUE", "true", "True"] := by
      rw [← strconvParseBool_true_iff, h]; simp
    have h2 : ¬ str ∈ ["0", "f", "F", "FALSE", "false", "False"] := by
      rw [← strconvParseBool_false_iff, h]; simp
    simp only [List.mem_cons, List.mem_singleton, List.not_mem_nil, or_false] at hmem h1 h2
    tauto
  | some b =>
    simp only [reduceCtorEq, false_iff, not_not]
    cases b
    · have := (strconvParseBool_false_iff str).mp h
      simp only [List.mem_cons, List.mem_singleton, List.not_mem_nil, or_false] at this ⊢
      tauto
    · have := (strconvParseBool_true_iff str).mp h
      simp only [List.mem_cons, List.mem_singleton, List.not_mem_nil, or_false] at this ⊢
      tauto

theorem ParseBool_of_nonempty (input : String) (h : input ≠ "") :
    ParseBool input =
      match strconvParseBool input with
      | none => (none, some ("invalid boolean value '" ++ input
          ++ "': expected 'true', 'false', '1', or '0'"))
      | some b => (some b, none) := by
  simp only [ParseBool, h, if_false]

/-- C23: `ParseBool` characterised exactly. It returns (nil, nil) if and only if the input is
the empty string, a pointer to true with a nil error if and only if the input is one of "1",
"t", "T", "TRUE", "true", "True", a pointer to false with a nil error if and only if the input
is one of "0", "f", "F", "FALSE", "false", "False", and for every other input nil and the error
"invalid boolean value 'input': expected 'true', 'false', '1', or '0'". -/
theorem ParseBool_characterised (input : String) :
    (ParseBool input = (none, none) ↔ input = "")
    ∧ (ParseBool input = (some true, none) ↔
        input ∈ ["1", "t", "T", "TRUE", "true", "True"])
    ∧ (ParseBool input = (some false, none) ↔
        input ∈ ["0", "f", "F", "FALSE", "false", "False"])
    ∧ (input ∉ ["", "1", "t", "T", "TRUE", "true", "True", "0", "f", "F", "FALSE", "false",
          "False"] →
        ParseBool input = (none, some ("invalid boolean value '" ++ input
          ++ "': expected 'true', 'false', '1', or '0'"))) := by
  by_cases h0 : input = ""
  · subst h0
    refine ⟨by decide, by decide, by decide, fun h => absurd (by simp) h⟩
  · rw [ParseBool_of_nonempty input h0]
    cases h : strconvParseBool input with
    | none =>
      have hn := (strconvParseBool_none_iff input).mp h
      have h1 : ¬ input ∈ ["1", "t", "T", "TRUE", "true", "True"] := by
        rw [← strconvParseBool_true_iff, h]; simp
      have h2 : ¬ input ∈ ["0", "f", "F", "FALSE", "false", "False"] := by
        rw [← strconvParseBool_false_iff, h]; simp
      simp [h0, h1, h2]
    | some b =>
      have hb : ¬ strconvParseBool input = none := by rw [h]; simp
      rw [strconvParseBool_none_iff, not_not] at hb
      have h1 := strconvParseBool_true_iff input
      have h2 := strconvParseBool_false_iff input
      rw [h] at h1 h2
      refine ⟨by simp [h0], ?_, ?_, ?_⟩
      · rw [← h1]; simp
      · rw [← h2]; simp
      · intro hnot
        exact absurd (List.mem_cons_of_mem _ hb) hnot

/-- Witness for C23: the inputs "yes", "no", "invalid" and the mixed-case "tRuE" are rejected
with the error message. -/
theorem ParseBool_characterised_witness :
    ParseBool "tRuE" = (none, some ("invalid boolean value '" ++ "tRuE"
        ++ "': expected 'true', 'false', '1', or '0'"))
      ∧ ParseBool "yes" = (none, some "invalid boolean value 'yes': expected 'true', 'false', '1', or '0'")
      ∧ ParseBool "no" = (none, some "invalid boolean value 'no': expected 'true', 'false', '1', or '0'")
      ∧ ParseBool "invalid"
          = (none, some "invalid boolean value 'invalid': expected 'true', 'false', '1', or '0'") :=
  ⟨(ParseBool_characterised "tRuE").2.2.2 (by decide), by decide, by decide, by decide⟩

/-- Counterexample for C24: the input "TRUE" is none of the documented values "true", "1",
"false", "0" and the empty string, and it is not rejected: it parses to true with a nil
error. -/
theorem ParseBool_accepts_undocumented :
    "TRUE" ∉ ["true", "1", "false", "0", ""]
      ∧ ParseBool "TRUE" = (some true, none)
      ∧ ¬ (∀ input : String, input ∉ ["true", "1", "false", "0", ""] →
            (ParseBool input).2 ≠ none) := by
  refine ⟨by decide, by decide, fun h => h "TRUE" (by decide) (by decide)⟩

/-- C24, amended: `ParseBool` accepts the values its documentation lists, "true" and "1" parse
to true, "false" and "0" parse to false, the empty string parses to nil, and besides them
exactly the other spellings of `strconv.ParseBool`, "t", "T", "TRUE", "True" for true and "f",
"F", "FALSE", "False" for false; every other input is rejected with an error. -/
theorem ParseBool_accepted_values :
    ParseBool "true" = (some true, none) ∧ ParseBool "1" = (some true, none)
    ∧ ParseBool "false" = (some false, none) ∧ ParseBool "0" = (some false, none)
    ∧ ParseBool "" = (none, none)
    ∧ (∀ input ∈ ["t", "T", "TRUE", "True"], ParseBool input = (some true, none))
    ∧ (∀ input ∈ ["f", "F", "FALSE", "False"], ParseBool input = (some false, none))
    ∧ (∀ input : String,
        input ∉ ["true", "1", "false", "0", "", "t", "T", "TRUE", "True", "f", "F", "FALSE",
          "False"] →
        (ParseBool input).1 = none ∧ (ParseBool input).2 ≠ none) := by
  refine ⟨by decide, by decide, by decide, by decide, by decide, by decide, by decide, ?_⟩
  intro input hnot
  have h0 : input ≠ "" := by
    intro h; subst h; exact hnot (by decide)
  have hn : strconvParseBool input = none := by
    rw [strconvParseBool_none_iff]
    simp only [List.mem_cons, List.mem_singleton, List.not_mem_nil, or_false] at hnot ⊢
    tauto
  rw [ParseBool_of_nonempty input h0, hn]
  simp

/-- Witness for C24, amended: "yes" is rejected. -/
theorem ParseBool_accepted_values_witness :
    (ParseBool "yes").1 = none ∧ (ParseBool "yes").2 ≠ none :=
  ParseBool_accepted_values.2.2.2.2.2.2.2 "yes" (by decide)

/-! ## `ParseDateISO8601`: claims -/

/-- C25: `ParseDateISO8601` returns (nil, nil) if and only if the input is the empty string;
for every non-empty input exactly one of the time pointer and the error is non-nil. -/
theorem ParseDateISO8601_nil_nil_iff (input : String) :
    (ParseDateISO8601 input = (none, none) ↔ input = "")
    ∧ (input ≠ "" →
        ((ParseDateISO8601 input).1 ≠ none ∧ (ParseDateISO8601 input).2 = none)
        ∨ ((ParseDateISO8601 input).1 = none ∧ (ParseDateISO8601 input).2 ≠ none)) := by
  by_cases h0 : input = ""
  · subst h0
    exact ⟨by decide, fun h => absurd rfl h⟩
  · simp only [ParseDateISO8601, h0, if_false]
    cases timeParse Layout.dateOnly input with
    | some t => simp
    | none =>
      cases timeParse Layout.rfc3339 input with
      | some t => simp
      | none => simp

/-- Witness for C25: a date, a timestamp and a malformed input. -/
theorem ParseDateISO8601_nil_nil_iff_witness :
    (((ParseDateISO8601 "2024-01-01").1 ≠ none ∧ (ParseDateISO8601 "2024-01-01").2 = none)
        ∨ ((ParseDateISO8601 "2024-01-01").1 = none ∧ (ParseDateISO8601 "2024-01-01").2 ≠ none))
      ∧ (((ParseDateISO8601 "2024/01/01").1 ≠ none ∧ (ParseDateISO8601 "2024/01/01").2 = none)
        ∨ ((ParseDateISO8601 "2024/01/01").1 = none
            ∧ (ParseDateISO8601 "2024/01/01").2 ≠ none)) :=
  ⟨(ParseDateISO8601_nil_nil_iff "2024-01-01").2 (by decide),
    (ParseDateISO8601_nil_nil_iff "2024/01/01").2 (by decide)⟩


/-! ## Lemmas on the date parser -/

theorem isDigit_zero (a : Char) (r : List Char) : isDigit (a :: r) 0 = isDigitRune a := by
  simp [isDigit]

theorem isDigit_one (a b : Char) (r : List Char) : isDigit (a :: b :: r) 1 = isDigitRune b := by
  simp [isDigit]

theorem getnum_two (a b : Char) (r : List Char) (fixed : Bool)
    (ha : isDigitRune a = true) (hb : isDigitRune b = true) :
    getnum (a :: b :: r) fixed = some (decimal [a, b], r) := by
  simp [getnum, isDigit_zero, isDigit_one, ha, hb, decimal]

theorem leadingInt_digits (l : List Char) (h : ∀ c ∈ l, isDigitRune c = true) :
    ∀ x, leadingInt l x = (l.foldl (fun n c => n * 10 + digitValue c) x, []) := by
  induction l with
  | nil => intro x; rfl
  | cons c rest ih =>
    intro x
    simp only [leadingInt, h c (by simp), if_true, List.foldl_cons]
    exact ih (fun d hd => h d (List.mem_cons_of_mem _ hd)) _

theorem atoi_digits (l : List Char) (h : ∀ c ∈ l, isDigitRune c = true) :
    atoi l = some (decimal l) := by
  simp only [atoi, leadingInt_digits l h 0, decimal]

theorem stdLongYear_digits (y1 y2 y3 y4 : Char) (r : List Char)
    (h : [y1, y2, y3, y4].all isDigitRune = true) :
    stdLongYear (y1 :: y2 :: y3 :: y4 :: r) = some (decimal [y1, y2, y3, y4], r) := by
  have hall : ∀ c ∈ [y1, y2, y3, y4], isDigitRune c = true := by
    simpa using h
  have h1 : isDigitRune y1 = true := hall y1 (by simp)
  have ht : (y1 :: y2 :: y3 :: y4 :: r).take 4 = [y1, y2, y3, y4] := rfl
  have hd : (y1 :: y2 :: y3 :: y4 :: r).drop 4 = r := rfl
  simp only [stdLongYear, isDigit_zero, h1, ht, hd, atoi_digits _ hall]
  simp

theorem skip_one (c : Char) (r : List Char) : skip (c :: r) [c] = some r := by
  simp [skip]

theorem daysIn_eq_daysInMonth (year month : Nat) (h1 : 1 ≤ month) (h12 : month ≤ 12) :
    daysIn month year = daysInMonth year month := by
  have hleap : isLeap year = true ↔ (year % 4 = 0 ∧ (year % 100 ≠ 0 ∨ year % 400 = 0)) := by
    simp [isLeap]
  by_cases hl : year % 4 = 0 ∧ (year % 100 ≠ 0 ∨ year % 400 = 0)
  · have hl' := hleap.mpr hl
    interval_cases month <;> simp [daysIn, daysInMonth, daysBefore, hl, hl']
  · have hl' : isLeap year = false := by
      rw [← Bool.not_eq_true, hleap]; exact hl
    interval_cases month <;> simp [daysIn, daysInMonth, daysBefore, hl, hl']

/-- What `calendarDate` says about its digits when it returns a date. -/
theorem calendarDate_some (y1 y2 y3 y4 m1 m2 d1 d2 : Char) (year month day : Nat)
    (h : calendarDate y1 y2 y3 y4 m1 m2 d1 d2 = some (year, month, day)) :
    [y1, y2, y3, y4, m1, m2, d1, d2].all isDigitRune = true
      ∧ year = decimal [y1, y2, y3, y4] ∧ month = decimal [m1, m2] ∧ day = decimal [d1, d2]
      ∧ 1 ≤ month ∧ month ≤ 12 ∧ 1 ≤ day ∧ day ≤ daysInMonth year month := by
  by_cases hd : [y1, y2, y3, y4, m1, m2, d1, d2].all isDigitRune = true
  · by_cases hr : 1 ≤ decimal [m1, m2] ∧ decimal [m1, m2] ≤ 12 ∧ 1 ≤ decimal [d1, d2]
        ∧ decimal [d1, d2] ≤ daysInMonth (decimal [y1, y2, y3, y4]) (decimal [m1, m2])
    · simp only [calendarDate, hd, hr, if_true, and_self, Option.some.injEq,
        Prod.mk.injEq] at h
      obtain ⟨rfl, rfl, rfl⟩ := h
      exact ⟨hd, rfl, rfl, rfl, hr⟩
    · simp only [calendarDate, hd, hr, if_true, if_false, reduceCtorEq] at h
  · simp only [calendarDate, hd, if_false, reduceCtorEq] at h

theorem stdDate_of_calendarDate (y1 y2 y3 y4 m1 m2 d1 d2 : Char) (rest : List Char)
    (year month day : Nat)
    (h : calendarDate y1 y2 y3 y4 m1 m2 d1 d2 = some (year, month, day)) :
    stdDate (y1 :: y2 :: y3 :: y4 :: '-' :: m1 :: m2 :: '-' :: d1 :: d2 :: rest)
      = some ((year, month, day), rest) := by
  obtain ⟨hd, rfl, rfl, rfl, hm1, hm12, -, -⟩ := calendarDate_some _ _ _ _ _ _ _ _ _ _ _ h
  have hall : ∀ c ∈ [y1, y2, y3, y4, m1, m2, d1, d2], isDigitRune c = true := by
    simpa using hd
  have hy : [y1, y2, y3, y4].all isDigitRune = true := by
    simp [hall y1 (by simp), hall y2 (by simp), hall y3 (by simp), hall y4 (by simp)]
  have hrange : ¬ (decimal [m1, m2] ≤ 0 ∨ 12 < decimal [m1, m2]) := by omega
  simp only [stdDate, stdLongYear_digits y1 y2 y3 y4 _ hy, skip_one,
    getnum_two m1 m2 _ true (hall m1 (by simp)) (hall m2 (by simp)),
    getnum_two d1 d2 _ true (hall d1 (by simp)) (hall d2 (by simp)),
    Bool.or_eq_true, decide_eq_true_eq, hrange, if_false]

theorem timeParse_dateOnly_of_dateWritten (input : String) (year month day : Nat)
    (h : dateWritten input.data = some (year, month, day)) :
    timeParse Layout.dateOnly input = some (Time.mk year month day 0 0 0 0 0) := by
  obtain ⟨l⟩ := input
  simp only at h
  rcases l with _ | ⟨y1, _ | ⟨y2, _ | ⟨y3, _ | ⟨y4, _ | ⟨s1, _ | ⟨m1, _ | ⟨m2, _ | ⟨s2,
    _ | ⟨d1, _ | ⟨d2, _ | ⟨x, l⟩⟩⟩⟩⟩⟩⟩⟩⟩⟩⟩ <;> try (simp [dateWritten] at h)
  obtain ⟨⟨rfl, rfl⟩, hc⟩ := h
  obtain ⟨-, -, -, -, hm1, hm12, hd1, hdn⟩ := calendarDate_some _ _ _ _ _ _ _ _ _ _ _ hc
  have hday : ¬ (day < 1 ∨ day > daysIn month year) := by
    rw [daysIn_eq_daysInMonth year month hm1 hm12]; omega
  simp only [timeParse, stdDate_of_calendarDate _ _ _ _ _ _ _ _ [] _ _ _ hc, ne_eq,
    not_true_eq_false, if_false, Bool.or_eq_true, decide_eq_true_eq, hday]

theorem dateWritten_ne_empty (input : String) (h : dateWritten input.data ≠ none) :
    input ≠ "" := by
  intro he
  subst he
  exact h rfl

/-- C26: for every input of the form YYYY-MM-DD that denotes a valid calendar date,
`ParseDateISO8601` returns a nil error and a time whose year, month and day are the ones
written and whose time of day is 00:00:00 in UTC. -/
theorem ParseDateISO8601_date_only (input : String) (year month day : Nat)
    (h : dateWritten input.data = some (year, month, day)) :
    ParseDateISO8601 input = (some (Time.mk year month day 0 0 0 0 0), none) := by
  have h0 : input ≠ "" := dateWritten_ne_empty input (by rw [h]; simp)
  simp only [ParseDateISO8601, h0, if_false,
    timeParse_dateOnly_of_dateWritten input year month day h]

/-- Witness for C26: the date of the tests and a leap day. -/
theorem ParseDateISO8601_date_only_witness :
    (dateWritten "2024-01-01".data = some (2024, 1, 1)
        ∧ ParseDateISO8601 "2024-01-01" = (some (Time.mk 2024 1 1 0 0 0 0 0), none))
      ∧ (dateWritten "2024-02-29".data = some (2024, 2, 29)
        ∧ ParseDateISO8601 "2024-02-29" = (some (Time.mk 2024 2 29 0 0 0 0 0), none)) :=
  ⟨⟨by decide, ParseDateISO8601_date_only "2024-01-01" 2024 1 1 (by decide)⟩,
    ⟨by decide, ParseDateISO8601_date_only "2024-02-29" 2024 2 29 (by decide)⟩⟩


/-! ## Lemmas on the timestamp parser -/

theorem zone_of_zoneWritten (z : List Char) (off : Int) (h : zoneWritten z = some off) :
    stdISO8601ColonTZ z = some (off, []) := by
  rcases z with _ | ⟨sign, _ | ⟨h1, _ | ⟨h2, _ | ⟨colon, _ | ⟨m1, _ | ⟨m2, _ | ⟨x, l⟩⟩⟩⟩⟩⟩⟩
    <;> try (simp [zoneWritten] at h)
  · obtain ⟨rfl, rfl⟩ := h
    decide
  · obtain ⟨⟨hd, rfl, hh, hm⟩, hs⟩ := h
    obtain ⟨hd1, hd2, hd3, hd4⟩ := hd
    have hnz : ¬ sign = 'Z' := by
      intro he
      subst he
      simp at hs
    have g1 : getnum ((List.take 3 [sign, h1, h2, ':', m1, m2]).drop 1) true
        = some (decimal [h1, h2], []) := getnum_two h1 h2 [] true hd1 hd2
    have g2 : getnum ((List.take 6 [sign, h1, h2, ':', m1, m2]).drop 4) true
        = some (decimal [m1, m2], []) := getnum_two m1 m2 [] true hd3 hd4
    have hr : ¬ (decimal [h1, h2] > 24 ∨ decimal [m1, m2] > 60) := by omega
    simp only [stdISO8601ColonTZ, g1, g2]
    by_cases hp : sign = '+'
    · subst hp
      simp at hs
      simp [hr, hs]
    · simp only [hp, if_false] at hs
      by_cases hmn : sign = '-'
      · subst hmn
        simp at hs
        simp [hr, hs]
      · simp [hmn] at hs

theorem take_of_le_takeWhile (p : Char → Bool) (l : List Char) :
    ∀ k, k ≤ (l.takeWhile p).length → ∀ x ∈ l.take k, p x = true := by
  induction l with
  | nil => intro k _ x hx; simp at hx
  | cons a rest ih =>
    intro k hk x hx
    cases k with
    | zero => simp at hx
    | succ k =>
      by_cases ha : p a = true
      · rw [List.takeWhile_cons_of_pos ha] at hk
        rw [List.take_succ_cons] at hx
        rcases List.mem_cons.mp hx with rfl | hx
        · exact ha
        · exact ih k (by simpa using hk) x hx
      · rw [List.takeWhile_cons_of_neg ha] at hk
        simp at hk

theorem drop_length_takeWhile (p : Char → Bool) (l : List Char) :
    l.drop (l.takeWhile p).length = l.dropWhile p := by
  induction l with
  | nil => rfl
  | cons a rest ih =>
    by_cases ha : p a = true
    · rw [List.takeWhile_cons_of_pos ha, List.dropWhile_cons_of_pos ha]
      simpa using ih
    · rw [List.takeWhile_cons_of_neg ha, List.dropWhile_cons_of_neg ha]
      rfl

theorem stdFraction_period (f : Char) (rest : List Char) (hf : isDigitRune f = true) :
    ∃ nsec, stdFraction ('.' :: f :: rest) = some (nsec, rest.dropWhile isDigitRune) := by
  have hcond : ((('.' :: f :: rest).length ≥ 2 : Bool)
      && commaOrPeriod (('.' :: f :: rest).getD 0 ' ') && isDigit ('.' :: f :: rest) 1) = true := by
    simp [commaOrPeriod, isDigit_one, hf]
  have hdigits : ∀ nb, nb ≤ 2 + (rest.takeWhile isDigitRune).length →
      ∀ x ∈ (('.' :: f :: rest).take nb).drop 1, isDigitRune x = true := by
    intro nb hnb x hx
    rcases nb with _ | _ | nb
    · simp at hx
    · simp at hx
    · simp only [List.take_succ_cons, List.drop_succ_cons, List.drop_zero] at hx
      rcases List.mem_cons.mp hx with rfl | hx
      · exact hf
      · exact take_of_le_takeWhile isDigitRune rest nb (by omega) x hx
  have hdrop : ('.' :: f :: rest).drop (2 + (rest.takeWhile isDigitRune).length)
      = rest.dropWhile isDigitRune := by
    rw [Nat.add_comm]
    simp only [List.drop_succ_cons]
    exact drop_length_takeWhile isDigitRune rest
  simp only [stdFraction, hcond, if_true, parseNanoseconds, List.drop_succ_cons, List.drop_zero]
  split_ifs with hbig
  · rw [atoi_digits _ (hdigits 10 (by omega))]
    simp only [hdrop]
    exact ⟨_, rfl⟩
  · rw [atoi_digits _ (hdigits _ (le_refl _))]
    simp only [hdrop]
    exact ⟨_, rfl⟩

theorem stdFraction_none (c : Char) (rest : List Char) (hc : c = 'Z' ∨ c = '+' ∨ c = '-') :
    stdFraction (c :: rest) = some (0, c :: rest) := by
  have : commaOrPeriod c = false := by
    rcases hc with rfl | rfl | rfl <;> decide
  simp [stdFraction, this]

theorem zoneWritten_head (c : Char) (rest : List Char) (off : Int)
    (h : zoneWritten (c :: rest) = some off) : c = 'Z' ∨ c = '+' ∨ c = '-' := by
  rcases rest with _ | ⟨h1, _ | ⟨h2, _ | ⟨colon, _ | ⟨m1, _ | ⟨m2, _ | ⟨x, l⟩⟩⟩⟩⟩⟩
    <;> try (simp [zoneWritten] at h)
  · exact Or.inl h.1
  · obtain ⟨-, hs⟩ := h
    by_cases hp : c = '+'
    · exact Or.inr (Or.inl hp)
    · by_cases hm : c = '-'
      · exact Or.inr (Or.inr hm)
      · simp [hp, hm] at hs

theorem fraction_and_zone (rest : List Char) (off : Int)
    (h : fractionAndZoneWritten rest = some off) :
    ∃ nsec z, stdFraction rest = some (nsec, z) ∧ stdISO8601ColonTZ z = some (off, []) := by
  rcases rest with _ | ⟨c, _ | ⟨f, rest⟩⟩
  · simp [fractionAndZoneWritten] at h
  · simp only [fractionAndZoneWritten] at h
    exact ⟨0, [c], stdFraction_none c [] (zoneWritten_head c [] off h),
      zone_of_zoneWritten _ _ h⟩
  · by_cases hc : c = '.'
    · subst hc
      by_cases hf : isDigitRune f = true
      · simp only [fractionAndZoneWritten, hf, if_true] at h
        obtain ⟨nsec, hn⟩ := stdFraction_period f rest hf
        exact ⟨nsec, _, hn, zone_of_zoneWritten _ _ h⟩
      · simp [fractionAndZoneWritten, hf] at h
    · simp only [fractionAndZoneWritten, hc, if_false] at h
      exact ⟨0, c :: f :: rest, stdFraction_none c _ (zoneWritten_head c _ off h),
        zone_of_zoneWritten _ _ h⟩

theorem stdClock_digits (h1 h2 n1 n2 e1 e2 : Char) (rest z : List Char) (nsec : Nat)
    (hd : [h1, h2, n1, n2, e1, e2].all isDigitRune = true)
    (hh : decimal [h1, h2] ≤ 23) (hn : decimal [n1, n2] ≤ 59) (he : decimal [e1, e2] ≤ 59)
    (hf : stdFraction rest = some (nsec, z)) :
    stdClock ('T' :: h1 :: h2 :: ':' :: n1 :: n2 :: ':' :: e1 :: e2 :: rest)
      = some ((decimal [h1, h2], decimal [n1, n2], decimal [e1, e2], nsec), z) := by
  have hall : ∀ c ∈ [h1, h2, n1, n2, e1, e2], isDigitRune c = true := by
    simpa using hd
  have g1 : ¬ 24 ≤ decimal [h1, h2] := by omega
  have g2 : ¬ 60 ≤ decimal [n1, n2] := by omega
  have g3 : ¬ 60 ≤ decimal [e1, e2] := by omega
  simp only [stdClock, skip_one,
    getnum_two h1 h2 _ false (hall h1 (by simp)) (hall h2 (by simp)),
    getnum_two n1 n2 _ true (hall n1 (by simp)) (hall n2 (by simp)),
    getnum_two e1 e2 _ true (hall e1 (by simp)) (hall e2 (by simp)),
    g1, g2, g3, if_false, hf]


/-! ## The date-only layout accepts exactly the valid calendar dates -/

theorem getnum_fixed_some (s r : List Char) (n : Nat) (h : getnum s true = some (n, r)) :
    ∃ a b, s = a :: b :: r ∧ isDigitRune a = true ∧ isDigitRune b = true
      ∧ n = decimal [a, b] := by
  rcases s with _ | ⟨a, _ | ⟨b, rest⟩⟩
  · simp [getnum, isDigit] at h
  · simp [getnum, isDigit] at h
  · by_cases ha : isDigitRune a = true
    · by_cases hb : isDigitRune b = true
      · rw [getnum_two a b rest true ha hb] at h
        simp only [Option.some.injEq, Prod.mk.injEq] at h
        exact ⟨a, b, by rw [h.2], ha, hb, h.1.symm⟩
      · simp [getnum, isDigit_zero, isDigit_one, ha, hb] at h
    · simp [getnum, isDigit_zero, ha] at h

theorem skip_one_some (c : Char) (s r : List Char) (h : skip s [c] = some r) : s = c :: r := by
  rcases s with _ | ⟨a, rest⟩
  · simp [skip] at h
  · by_cases hc : a = c
    · subst hc
      simp [skip] at h
      rw [h]
    · simp [skip, hc] at h

theorem leadingInt_nil (l : List Char) :
    ∀ x q, leadingInt l x = (q, []) → ∀ c ∈ l, isDigitRune c = true := by
  induction l with
  | nil => intro x q _ c hc; simp at hc
  | cons a rest ih =>
    intro x q h c hc
    by_cases ha : isDigitRune a = true
    · simp only [leadingInt, ha, if_true] at h
      rcases List.mem_cons.mp hc with rfl | hc
      · exact ha
      · exact ih _ _ h c hc
    · simp [leadingInt, ha] at h

theorem atoi_some (l : List Char) (q : Nat) (h : atoi l = some q) :
    (∀ c ∈ l, isDigitRune c = true) ∧ q = decimal l := by
  have hall : ∀ c ∈ l, isDigitRune c = true := by
    cases hl : leadingInt l 0 with
    | mk q' rem =>
      cases rem with
      | nil => exact leadingInt_nil l 0 q' hl
      | cons a rem => simp [atoi, hl] at h
  refine ⟨hall, ?_⟩
  rw [atoi_digits l hall] at h
  exact (Option.some.inj h).symm

theorem stdLongYear_some (s r : List Char) (y : Nat) (h : stdLongYear s = some (y, r)) :
    ∃ y1 y2 y3 y4, s = y1 :: y2 :: y3 :: y4 :: r
      ∧ [y1, y2, y3, y4].all isDigitRune = true ∧ y = decimal [y1, y2, y3, y4] := by
  rcases s with _ | ⟨y1, _ | ⟨y2, _ | ⟨y3, _ | ⟨y4, rest⟩⟩⟩⟩
  · simp [stdLongYear] at h
  · simp [stdLongYear] at h
  · simp [stdLongYear] at h
  · simp [stdLongYear] at h
  · have ht : (y1 :: y2 :: y3 :: y4 :: rest).take 4 = [y1, y2, y3, y4] := rfl
    have hd : (y1 :: y2 :: y3 :: y4 :: rest).drop 4 = rest := rfl
    unfold stdLongYear at h
    rw [ht, hd] at h
    split_ifs at h with hc
    cases ha : atoi [y1, y2, y3, y4] with
    | none => simp [ha] at h
    | some q =>
      simp only [ha, Option.some.injEq, Prod.mk.injEq] at h
      obtain ⟨hall, hq⟩ := atoi_some _ q ha
      refine ⟨y1, y2, y3, y4, by rw [h.2], ?_, by rw [← h.1, hq]⟩
      simp [hall y1 (by simp), hall y2 (by simp), hall y3 (by simp), hall y4 (by simp)]

theorem stdDate_some (s r : List Char) (year month day : Nat)
    (h : stdDate s = some ((year, month, day), r)) :
    ∃ y1 y2 y3 y4 m1 m2 d1 d2,
      s = y1 :: y2 :: y3 :: y4 :: '-' :: m1 :: m2 :: '-' :: d1 :: d2 :: r
      ∧ [y1, y2, y3, y4, m1, m2, d1, d2].all isDigitRune = true
      ∧ year = decimal [y1, y2, y3, y4] ∧ month = decimal [m1, m2] ∧ day = decimal [d1, d2]
      ∧ 1 ≤ month ∧ month ≤ 12 := by
  unfold stdDate at h
  cases hy : stdLongYear s with
  | none => simp [hy] at h
  | some yr =>
    obtain ⟨y, v1⟩ := yr
    simp only [hy] at h
    cases hs1 : skip v1 ['-'] with
    | none => simp [hs1] at h
    | some v2 =>
      simp only [hs1] at h
      cases hm : getnum v2 true with
      | none => simp [hm] at h
      | some mr =>
        obtain ⟨m, v3⟩ := mr
        simp only [hm] at h
        split_ifs at h with hrange
        cases hs2 : skip v3 ['-'] with
        | none => simp [hs2] at h
        | some v4 =>
          simp only [hs2] at h
          cases hdd : getnum v4 true with
          | none => simp [hdd] at h
          | some dr =>
            obtain ⟨d, v5⟩ := dr
            simp only [hdd, Option.some.injEq, Prod.mk.injEq] at h
            obtain ⟨⟨rfl, rfl, rfl⟩, rfl⟩ := h
            obtain ⟨y1, y2, y3, y4, rfl, hyd, rfl⟩ := stdLongYear_some s v1 _ hy
            have e1 := skip_one_some '-' v1 v2 hs1
            obtain ⟨m1, m2, e2, hm1, hm2, rfl⟩ := getnum_fixed_some v2 v3 _ hm
            have e3 := skip_one_some '-' v3 v4 hs2
            obtain ⟨d1, d2, e4, hd1, hd2, rfl⟩ := getnum_fixed_some v4 _ _ hdd
            subst e1 e2 e3 e4
            have hyall : ∀ c ∈ [y1, y2, y3, y4], isDigitRune c = true := by simpa using hyd
            simp only [Bool.or_eq_true, decide_eq_true_eq, not_or, not_le, not_lt] at hrange
            refine ⟨y1, y2, y3, y4, m1, m2, d1, d2, rfl, ?_, rfl, rfl, rfl, hrange.1, hrange.2⟩
            simp [hyall y1 (by simp), hyall y2 (by simp), hyall y3 (by simp),
              hyall y4 (by simp), hm1, hm2, hd1, hd2]

/-- The layout `2006-01-02` accepts exactly the valid calendar dates written YYYY-MM-DD. -/
theorem timeParse_dateOnly_eq_none_iff (input : String) :
    timeParse Layout.dateOnly input = none ↔ dateWritten input.data = none := by
  constructor
  · intro h
    cases hw : dateWritten input.data with
    | none => rfl
    | some ymd =>
      obtain ⟨year, month, day⟩ := ymd
      rw [timeParse_dateOnly_of_dateWritten input year month day hw] at h
      simp at h
  · intro h
    cases ht : timeParse Layout.dateOnly input with
    | none => rfl
    | some t =>
      exfalso
      unfold timeParse at ht
      cases hsd : stdDate input.data with
      | none => simp [hsd] at ht
      | some res =>
        obtain ⟨⟨year, month, day⟩, rest⟩ := res
        simp only [hsd] at ht
        split_ifs at ht with hrest hday
        simp only [ne_eq, not_not] at hrest
        subst hrest
        obtain ⟨y1, y2, y3, y4, m1, m2, d1, d2, hs, hd, rfl, rfl, rfl, hm1, hm12⟩ :=
          stdDate_some _ _ _ _ _ hsd
        simp only [Bool.or_eq_true, decide_eq_true_eq, not_or, not_lt] at hday
        rw [daysIn_eq_daysInMonth _ _ hm1 hm12] at hday
        have hr : 1 ≤ decimal [m1, m2] ∧ decimal [m1, m2] ≤ 12 ∧ 1 ≤ decimal [d1, d2]
            ∧ decimal [d1, d2] ≤ daysInMonth (decimal [y1, y2, y3, y4]) (decimal [m1, m2]) :=
          ⟨hm1, hm12, hday.1, by omega⟩
        rw [hs] at h
        simp only [dateWritten, and_self, if_true, calendarDate, hd, hr, reduceCtorEq] at h


/-- A well-formed RFC 3339 timestamp with a second below 60 is rejected by the date-only layout
and accepted by the RFC 3339 layout, with the fields it writes. -/
theorem timeParse_of_rfc3339Written (input : String) (w : Written)
    (h : rfc3339Written input.data = some w) (hs : w.second ≤ 59) :
    timeParse Layout.dateOnly input = none
      ∧ ∃ nsec, timeParse Layout.rfc3339 input
          = some (Time.mk w.year w.month w.day w.hour w.minute w.second nsec w.offset) := by
  obtain ⟨l⟩ := input
  simp only at h
  rcases l with _ | ⟨y1, _ | ⟨y2, _ | ⟨y3, _ | ⟨y4, _ | ⟨s1, _ | ⟨m1, _ | ⟨m2, _ | ⟨s2,
    _ | ⟨d1, _ | ⟨d2, _ | ⟨t, _ | ⟨h1, _ | ⟨h2, _ | ⟨c1, _ | ⟨n1, _ | ⟨n2, _ | ⟨c2,
    _ | ⟨e1, _ | ⟨e2, rest⟩⟩⟩⟩⟩⟩⟩⟩⟩⟩⟩⟩⟩⟩⟩⟩⟩⟩⟩
    <;> try (simp only [rfc3339Written, reduceCtorEq] at h)
  by_cases hc : s1 = '-' ∧ s2 = '-' ∧ t = 'T' ∧ c1 = ':' ∧ c2 = ':'
      ∧ [h1, h2, n1, n2, e1, e2].all isDigitRune = true
      ∧ decimal [h1, h2] ≤ 23 ∧ decimal [n1, n2] ≤ 59 ∧ decimal [e1, e2] ≤ 60
  · rw [if_pos hc] at h
    obtain ⟨rfl, rfl, rfl, rfl, rfl, hd, hh, hn, -⟩ := hc
    cases hcal : calendarDate y1 y2 y3 y4 m1 m2 d1 d2 with
    | none => simp [hcal] at h
    | some ymd =>
      obtain ⟨year, month, day⟩ := ymd
      cases hfz : fractionAndZoneWritten rest with
      | none => simp [hcal, hfz] at h
      | some off =>
        simp only [hcal, hfz, Option.some.injEq] at h
        subst h
        simp only at hs
        obtain ⟨-, -, -, -, hm1, hm12, hd1, hdn⟩ :=
          calendarDate_some _ _ _ _ _ _ _ _ _ _ _ hcal
        have hday : ¬ (day < 1 ∨ day > daysIn month year) := by
          rw [daysIn_eq_daysInMonth year month hm1 hm12]; omega
        obtain ⟨nsec, z, hf, hz⟩ := fraction_and_zone rest off hfz
        refine ⟨?_, nsec, ?_⟩
        · simp only [timeParse, stdDate_of_calendarDate _ _ _ _ _ _ _ _ _ _ _ _ hcal]
          simp
        · simp only [timeParse, stdDate_of_calendarDate _ _ _ _ _ _ _ _ _ _ _ _ hcal,
            stdClock_digits h1 h2 n1 n2 e1 e2 rest z nsec hd hh hn hs hf, hz, ne_eq,
            not_true_eq_false, if_false, Bool.or_eq_true, decide_eq_true_eq, hday]
  · rw [if_neg hc] at h
    simp at h

/-! ## The layout `time.RFC3339` reads exactly the timestamps of the lenient form -/

theorem zone_of_lenientZoneWritten (z : List Char) (off : Int)
    (h : lenientZoneWritten z = some off) :
    stdISO8601ColonTZ z = some (off, []) := by
  rcases z with _ | ⟨sign, _ | ⟨h1, _ | ⟨h2, _ | ⟨colon, _ | ⟨m1, _ | ⟨m2, _ | ⟨x, l⟩⟩⟩⟩⟩⟩⟩
    <;> try (simp [lenientZoneWritten] at h)
  · obtain ⟨rfl, rfl⟩ := h
    decide
  · obtain ⟨⟨hd, rfl, hh, hm⟩, hs⟩ := h
    obtain ⟨hd1, hd2, hd3, hd4⟩ := hd
    have hnz : ¬ sign = 'Z' := by
      intro he
      subst he
      simp at hs
    have g1 : getnum ((List.take 3 [sign, h1, h2, ':', m1, m2]).drop 1) true
        = some (decimal [h1, h2], []) := getnum_two h1 h2 [] true hd1 hd2
    have g2 : getnum ((List.take 6 [sign, h1, h2, ':', m1, m2]).drop 4) true
        = some (decimal [m1, m2], []) := getnum_two m1 m2 [] true hd3 hd4
    have hr : ¬ (decimal [h1, h2] > 24 ∨ decimal [m1, m2] > 60) := by omega
    simp only [stdISO8601ColonTZ, g1, g2]
    by_cases hp : sign = '+'
    · subst hp
      simp at hs
      simp [hr, hs]
    · simp only [hp, if_false] at hs
      by_cases hmn : sign = '-'
      · subst hmn
        simp at hs
        simp [hr, hs]
      · simp [hmn] at hs

theorem lenientZoneWritten_of_zone (z : List Char) (off : Int)
    (h : stdISO8601ColonTZ z = some (off, [])) :
    lenientZoneWritten z = some off := by
  rcases z with _ | ⟨sign, _ | ⟨h1, _ | ⟨h2, _ | ⟨colon, _ | ⟨m1, _ | ⟨m2, l⟩⟩⟩⟩⟩⟩
  · simp [stdISO8601ColonTZ] at h
  · by_cases hz : sign = 'Z'
    · subst hz
      simp [stdISO8601ColonTZ] at h
      simp [lenientZoneWritten, h]
    · simp [stdISO8601ColonTZ, hz] at h
  · by_cases hz : sign = 'Z'
    · subst hz; simp [stdISO8601ColonTZ] at h
    · simp [stdISO8601ColonTZ, hz] at h
  · by_cases hz : sign = 'Z'
    · subst hz; simp [stdISO8601ColonTZ] at h
    · simp [stdISO8601ColonTZ, hz] at h
  · by_cases hz : sign = 'Z'
    · subst hz; simp [stdISO8601ColonTZ] at h
    · simp [stdISO8601ColonTZ, hz] at h
  · by_cases hz : sign = 'Z'
    · subst hz; simp [stdISO8601ColonTZ] at h
    · simp [stdISO8601ColonTZ, hz] at h
  · by_cases hz : sign = 'Z'
    · subst hz; simp [stdISO8601ColonTZ] at h
    · have hc1 : (decide ((sign :: h1 :: h2 :: colon :: m1 :: m2 :: l).length ≥ 1)
          && decide ((sign :: h1 :: h2 :: colon :: m1 :: m2 :: l).getD 0 ' ' = 'Z')) = false := by
        simp [hz]
      have hlen : ¬ (sign :: h1 :: h2 :: colon :: m1 :: m2 :: l).length < 6 := by simp
      have ht1 : ((sign :: h1 :: h2 :: colon :: m1 :: m2 :: l).take 3).drop 1 = [h1, h2] := rfl
      have ht2 : ((sign :: h1 :: h2 :: colon :: m1 :: m2 :: l).take 6).drop 4 = [m1, m2] := rfl
      have hg3 : (sign :: h1 :: h2 :: colon :: m1 :: m2 :: l).getD 3 ' ' = colon := rfl
      have hg0 : (sign :: h1 :: h2 :: colon :: m1 :: m2 :: l).getD 0 ' ' = sign := rfl
      have hd6 : (sign :: h1 :: h2 :: colon :: m1 :: m2 :: l).drop 6 = l := rfl
      unfold stdISO8601ColonTZ at h
      rw [hc1, ht1, ht2, hg3, hg0, hd6] at h
      simp only [Bool.false_eq_true, if_false, hlen] at h
      by_cases hcol : colon = ':'
      · subst hcol
        simp only [ne_eq, not_true_eq_false, if_false] at h
        cases hg1 : getnum [h1, h2] true with
        | none => simp [hg1] at h
        | some r1 =>
          obtain ⟨hr, x1⟩ := r1
          simp only [hg1] at h
          cases hg2 : getnum [m1, m2] true with
          | none => simp [hg2] at h
          | some r2 =>
            obtain ⟨mm, x2⟩ := r2
            simp only [hg2] at h
            obtain ⟨a, b, e1, ha, hb, rfl⟩ := getnum_fixed_some _ _ _ hg1
            obtain ⟨a', b', e2, ha', hb', rfl⟩ := getnum_fixed_some _ _ _ hg2
            simp only [List.cons.injEq, and_true] at e1 e2
            obtain ⟨rfl, rfl, -⟩ := e1
            obtain ⟨rfl, rfl, -⟩ := e2
            by_cases hrange : decimal [h1, h2] > 24 ∨ decimal [m1, m2] > 60
            · simp [hrange] at h
            · have hr24 : decimal [h1, h2] ≤ 24 := by omega
              have hm60 : decimal [m1, m2] ≤ 60 := by omega
              simp only [Bool.or_eq_true, decide_eq_true_eq, hrange, if_false] at h
              by_cases hp : sign = '+'
              · subst hp
                simp only [if_true, Option.some.injEq, Prod.mk.injEq] at h
                obtain ⟨rfl, rfl⟩ := h
                simp [lenientZoneWritten, ha, hb, ha', hb', hr24, hm60]
              · simp only [hp, if_false] at h
                by_cases hmn : sign = '-'
                · subst hmn
                  simp only [if_true, Option.some.injEq, Prod.mk.injEq] at h
                  obtain ⟨rfl, rfl⟩ := h
                  simp [lenientZoneWritten, ha, hb, ha', hb', hr24, hm60]
                · simp [hmn] at h
      · simp [hcol] at h

theorem stdFraction_mark (c f : Char) (rest : List Char) (hc : c = '.' ∨ c = ',')
    (hf : isDigitRune f = true) :
    ∃ nsec, stdFraction (c :: f :: rest) = some (nsec, rest.dropWhile isDigitRune) := by
  have hcp : commaOrPeriod c = true := by
    rcases hc with rfl | rfl <;> decide
  have hcond : (((c :: f :: rest).length ≥ 2 : Bool)
      && commaOrPeriod ((c :: f :: rest).getD 0 ' ') && isDigit (c :: f :: rest) 1) = true := by
    simp [hcp, isDigit_one, hf]
  have hdigits : ∀ nb, nb ≤ 2 + (rest.takeWhile isDigitRune).length →
      ∀ x ∈ ((c :: f :: rest).take nb).drop 1, isDigitRune x = true := by
    intro nb hnb x hx
    rcases nb with _ | _ | nb
    · simp at hx
    · simp at hx
    · simp only [List.take_succ_cons, List.drop_succ_cons, List.drop_zero] at hx
      rcases List.mem_cons.mp hx with rfl | hx
      · exact hf
      · exact take_of_le_takeWhile isDigitRune rest nb (by omega) x hx
  have hdrop : (c :: f :: rest).drop (2 + (rest.takeWhile isDigitRune).length)
      = rest.dropWhile isDigitRune := by
    rw [Nat.add_comm]
    simp only [List.drop_succ_cons]
    exact drop_length_takeWhile isDigitRune rest
  simp only [stdFraction, hcond, if_true, parseNanoseconds, List.drop_succ_cons, List.drop_zero]
  split_ifs with hbig
  · rw [atoi_digits _ (hdigits 10 (by omega))]
    simp only [hdrop]
    exact ⟨_, rfl⟩
  · rw [atoi_digits _ (hdigits _ (le_refl _))]
    simp only [hdrop]
    exact ⟨_, rfl⟩

theorem stdFraction_some (v z : List Char) (nsec : Nat) (h : stdFraction v = some (nsec, z)) :
    (z = v ∧ ∀ c f rest, v = c :: f :: rest → ¬ ((c = '.' ∨ c = ',') ∧ isDigitRune f = true))
    ∨ (∃ c f rest, v = c :: f :: rest ∧ (c = '.' ∨ c = ',') ∧ isDigitRune f = true
        ∧ z = rest.dropWhile isDigitRune) := by
  rcases v with _ | ⟨c, _ | ⟨f, rest⟩⟩
  · simp [stdFraction] at h
    exact Or.inl ⟨h.2, by simp⟩
  · simp [stdFraction] at h
    exact Or.inl ⟨by first | exact h.2 | exact h.2.symm, by simp⟩
  · by_cases hc : (c = '.' ∨ c = ',') ∧ isDigitRune f = true
    · obtain ⟨n', hn'⟩ := stdFraction_mark c f rest hc.1 hc.2
      rw [hn'] at h
      simp only [Option.some.injEq, Prod.mk.injEq] at h
      exact Or.inr ⟨c, f, rest, rfl, hc.1, hc.2, by first | exact h.2 | exact h.2.symm⟩
    · have hcond : (((c :: f :: rest).length ≥ 2 : Bool)
          && commaOrPeriod ((c :: f :: rest).getD 0 ' ') && isDigit (c :: f :: rest) 1)
            = false := by
        rw [Bool.eq_false_iff]
        intro ht
        simp only [Bool.and_eq_true, decide_eq_true_eq, isDigit_one, commaOrPeriod,
          Bool.or_eq_true] at ht
        exact hc ⟨by simpa using ht.1.2, ht.2⟩
      simp only [stdFraction, hcond, Bool.false_eq_true, if_false, Option.some.injEq,
        Prod.mk.injEq] at h
      refine Or.inl ⟨by first | exact h.2 | exact h.2.symm, ?_⟩
      intro c' f' rest' he
      simp only [List.cons.injEq] at he
      obtain ⟨rfl, rfl, rfl⟩ := he
      exact hc

theorem lenientZoneWritten_head (c : Char) (rest : List Char) (off : Int)
    (h : lenientZoneWritten (c :: rest) = some off) : c = 'Z' ∨ c = '+' ∨ c = '-' := by
  rcases rest with _ | ⟨h1, _ | ⟨h2, _ | ⟨colon, _ | ⟨m1, _ | ⟨m2, _ | ⟨x, l⟩⟩⟩⟩⟩⟩
    <;> try (simp [lenientZoneWritten] at h)
  · exact Or.inl h.1
  · obtain ⟨-, hs⟩ := h
    by_cases hp : c = '+'
    · exact Or.inr (Or.inl hp)
    · by_cases hm : c = '-'
      · exact Or.inr (Or.inr hm)
      · simp [hp, hm] at hs

theorem fraction_of_lenient (rest : List Char) (off : Int)
    (h : lenientFractionAndZoneWritten rest = some off) :
    ∃ nsec z, stdFraction rest = some (nsec, z) ∧ stdISO8601ColonTZ z = some (off, []) := by
  rcases rest with _ | ⟨c, _ | ⟨f, rest⟩⟩
  · simp [lenientFractionAndZoneWritten] at h
  · simp only [lenientFractionAndZoneWritten] at h
    exact ⟨0, [c], stdFraction_none c [] (lenientZoneWritten_head c [] off h),
      zone_of_lenientZoneWritten _ _ h⟩
  · by_cases hc : (c = '.' ∨ c = ',') ∧ isDigitRune f = true
    · simp only [lenientFractionAndZoneWritten, hc, and_self, if_true] at h
      obtain ⟨nsec, hn⟩ := stdFraction_mark c f rest hc.1 hc.2
      exact ⟨nsec, _, hn, zone_of_lenientZoneWritten _ _ h⟩
    · simp only [lenientFractionAndZoneWritten, hc, if_false] at h
      exact ⟨0, c :: f :: rest, stdFraction_none c _ (lenientZoneWritten_head c _ off h),
        zone_of_lenientZoneWritten _ _ h⟩

theorem lenient_of_fraction (v z : List Char) (nsec : Nat) (off : Int)
    (hf : stdFraction v = some (nsec, z)) (hz : stdISO8601ColonTZ z = some (off, [])) :
    lenientFractionAndZoneWritten v = some off := by
  have hzw := lenientZoneWritten_of_zone z off hz
  rcases stdFraction_some v z nsec hf with ⟨rfl, hno⟩ | ⟨c, f, rest, rfl, hc, hd, rfl⟩
  · rcases z with _ | ⟨c, _ | ⟨f, rest⟩⟩
    · simp [lenientZoneWritten] at hzw
    · simpa [lenientFractionAndZoneWritten] using hzw
    · simp only [lenientFractionAndZoneWritten, hno c f rest rfl, if_false]
      exact hzw
  · simp only [lenientFractionAndZoneWritten, hc, hd, and_self, if_true]
    exact hzw

theorem getnum_one (a x : Char) (r : List Char) (ha : isDigitRune a = true)
    (hx : isDigitRune x = false) :
    getnum (a :: x :: r) false = some (decimal [a], x :: r) := by
  simp [getnum, isDigit_zero, isDigit_one, ha, hx, decimal]

theorem getnum_free_some (s r : List Char) (n : Nat) (h : getnum s false = some (n, r)) :
    (∃ a b, s = a :: b :: r ∧ isDigitRune a = true ∧ isDigitRune b = true
      ∧ n = decimal [a, b])
    ∨ (∃ a, s = a :: r ∧ isDigitRune a = true ∧ n = decimal [a]
        ∧ ∀ x r', r = x :: r' → isDigitRune x = false) := by
  rcases s with _ | ⟨a, _ | ⟨b, rest⟩⟩
  · simp [getnum, isDigit] at h
  · by_cases ha : isDigitRune a = true
    · simp [getnum, isDigit, ha] at h
      obtain ⟨h1, h2⟩ := h
      subst h2
      refine Or.inr ⟨a, rfl, ha, by rw [← h1]; simp [decimal], ?_⟩
      intro x r' hr
      simp at hr
    · simp [getnum, isDigit, ha] at h
  · by_cases ha : isDigitRune a = true
    · by_cases hb : isDigitRune b = true
      · rw [getnum_two a b rest false ha hb] at h
        simp only [Option.some.injEq, Prod.mk.injEq] at h
        exact Or.inl ⟨a, b, by rw [h.2], ha, hb, h.1.symm⟩
      · simp only [Bool.not_eq_true] at hb
        rw [getnum_one a b rest ha hb] at h
        simp only [Option.some.injEq, Prod.mk.injEq] at h
        refine Or.inr ⟨a, by rw [← h.2], ha, h.1.symm, ?_⟩
        intro x r' hr
        rw [← h.2] at hr
        simp only [List.cons.injEq] at hr
        rw [← hr.1]
        exact hb
    · simp [getnum, isDigit_zero, ha] at h

/-- The clock part of the parser after the hour has been read. -/
theorem stdClock_of_hour (v l : List Char) (hour : Nat)
    (hg : getnum v false = some (hour, l)) :
    stdClock ('T' :: v) =
      if 24 ≤ hour then none
      else
        match skip l [':'] with
        | none => none
        | some value =>
          match getnum value true with
          | none => none
          | some (min, value) =>
            if 60 ≤ min then none
            else
              match skip value [':'] with
              | none => none
              | some value =>
                match getnum value true with
                | none => none
                | some (sec, value) =>
                  if 60 ≤ sec then none
                  else
                    match stdFraction value with
                    | none => none
                    | some (nsec, value) => some ((hour, min, sec, nsec), value) := by
  simp only [stdClock, skip_one, hg]

theorem stdClock_of_lenient (v l : List Char) (hour : Nat) (res : Nat × Nat × Nat)
    (off : Int) (hg : getnum v false = some (hour, l))
    (h : lenientClockWritten hour l = some (res, off)) :
    ∃ nsec z, stdClock ('T' :: v) = some ((res.1, res.2.1, res.2.2, nsec), z)
      ∧ stdISO8601ColonTZ z = some (off, []) := by
  rcases l with _ | ⟨c1, _ | ⟨n1, _ | ⟨n2, _ | ⟨c2, _ | ⟨e1, _ | ⟨e2, rest⟩⟩⟩⟩⟩⟩
    <;> try (simp [lenientClockWritten] at h; done)
  by_cases hc : c1 = ':' ∧ c2 = ':' ∧ [n1, n2, e1, e2].all isDigitRune = true ∧ hour ≤ 23
      ∧ decimal [n1, n2] ≤ 59 ∧ decimal [e1, e2] ≤ 59
  · cases hfz : lenientFractionAndZoneWritten rest with
    | none => simp [lenientClockWritten, if_pos hc, hfz] at h
    | some off' =>
      simp only [lenientClockWritten, if_pos hc, hfz, Option.some.injEq,
        Prod.mk.injEq] at h
      obtain ⟨rfl, rfl⟩ := h
      obtain ⟨rfl, rfl, hd, hh, hn, he⟩ := hc
      have hall : ∀ c ∈ [n1, n2, e1, e2], isDigitRune c = true := by simpa using hd
      obtain ⟨nsec, z, hf, hz⟩ := fraction_of_lenient rest off' hfz
      refine ⟨nsec, z, ?_, hz⟩
      have g1 : ¬ 24 ≤ hour := by omega
      have g2 : ¬ 60 ≤ decimal [n1, n2] := by omega
      have g3 : ¬ 60 ≤ decimal [e1, e2] := by omega
      rw [stdClock_of_hour v _ hour hg]
      simp only [skip_one, getnum_two n1 n2 _ true (hall n1 (by simp)) (hall n2 (by simp)),
        getnum_two e1 e2 _ true (hall e1 (by simp)) (hall e2 (by simp)), g1, g2, g3,
        if_false, hf]
  · exfalso
    apply hc
    simp [lenientClockWritten] at h
    simpa using h.1

theorem lenient_of_stdClock (v l z : List Char) (hour H N E nsec : Nat) (off : Int)
    (hg : getnum v false = some (hour, l))
    (h : stdClock ('T' :: v) = some ((H, N, E, nsec), z))
    (hz : stdISO8601ColonTZ z = some (off, [])) :
    lenientClockWritten hour l = some ((H, N, E), off) := by
  rw [stdClock_of_hour v l hour hg] at h
  split_ifs at h with h24
  cases hs1 : skip l [':'] with
  | none => simp [hs1] at h
  | some v1 =>
    simp only [hs1] at h
    cases hm : getnum v1 true with
    | none => simp [hm] at h
    | some mr =>
      obtain ⟨mn, v2⟩ := mr
      simp only [hm] at h
      split_ifs at h with h60
      cases hs2 : skip v2 [':'] with
      | none => simp [hs2] at h
      | some v3 =>
        simp only [hs2] at h
        cases hsec : getnum v3 true with
        | none => simp [hsec] at h
        | some sr =>
          obtain ⟨sc, v4⟩ := sr
          simp only [hsec] at h
          split_ifs at h with hs60
          cases hfr : stdFraction v4 with
          | none => simp [hfr] at h
          | some fr =>
            obtain ⟨ns, v5⟩ := fr
            simp only [hfr, Option.some.injEq, Prod.mk.injEq] at h
            obtain ⟨⟨rfl, rfl, rfl, rfl⟩, rfl⟩ := h
            have e1 := skip_one_some ':' l v1 hs1
            obtain ⟨n1, n2, e2, hn1, hn2, rfl⟩ := getnum_fixed_some v1 v2 _ hm
            have e3 := skip_one_some ':' v2 v3 hs2
            obtain ⟨s1, s2, e4, hd1, hd2, rfl⟩ := getnum_fixed_some v3 v4 _ hsec
            subst e1 e2 e3 e4
            have hfz := lenient_of_fraction v4 _ _ off hfr hz
            simp [lenientClockWritten, hfz, hn1, hn2, hd1, hd2]
            omega

/-- The generic parser on the layout `time.RFC3339`, after the date has been read. -/
theorem timeParse_rfc3339_unfold (input : String) :
    timeParse Layout.rfc3339 input =
      match stdDate input.data with
      | none => none
      | some ((year, month, day), value) =>
        match stdClock value with
        | none => none
        | some ((hour, min, sec, nsec), value) =>
          match stdISO8601ColonTZ value with
          | none => none
          | some (offset, value) =>
            if value ≠ [] then none
            else if day < 1 || day > daysIn month year then none
            else some (Time.mk year month day hour min sec nsec offset) := by
  simp only [timeParse]

theorem timeParse_of_lenientTimestampWritten (input : String) (w : Written)
    (h : lenientTimestampWritten input.data = some w) :
    ∃ nsec, timeParse Layout.rfc3339 input
      = some (Time.mk w.year w.month w.day w.hour w.minute w.second nsec w.offset) := by
  obtain ⟨l⟩ := input
  simp only at h
  rcases l with _ | ⟨y1, _ | ⟨y2, _ | ⟨y3, _ | ⟨y4, _ | ⟨s1, _ | ⟨m1, _ | ⟨m2, _ | ⟨s2,
    _ | ⟨d1, _ | ⟨d2, _ | ⟨t, _ | ⟨h1, _ | ⟨x, rest⟩⟩⟩⟩⟩⟩⟩⟩⟩⟩⟩⟩⟩
    <;> try (simp [lenientTimestampWritten] at h; done)
  by_cases hc : s1 = '-' ∧ s2 = '-' ∧ t = 'T' ∧ isDigitRune h1 = true
  · obtain ⟨rfl, rfl, rfl, hh1⟩ := hc
    cases hcal : calendarDate y1 y2 y3 y4 m1 m2 d1 d2 with
    | none => simp [lenientTimestampWritten, hh1, hcal] at h
    | some ymd =>
      obtain ⟨year, month, day⟩ := ymd
      obtain ⟨-, -, -, -, hm1, hm12, hd1, hdn⟩ :=
        calendarDate_some _ _ _ _ _ _ _ _ _ _ _ hcal
      have hday : ¬ (day < 1 ∨ day > daysIn month year) := by
        rw [daysIn_eq_daysInMonth year month hm1 hm12]; omega
      have hdate := stdDate_of_calendarDate y1 y2 y3 y4 m1 m2 d1 d2
        ('T' :: h1 :: x :: rest) year month day hcal
      by_cases hx : isDigitRune x = true
      · cases hclk : lenientClockWritten (decimal [h1, x]) rest with
        | none => simp [lenientTimestampWritten, hh1, hcal, hx, hclk] at h
        | some res =>
          obtain ⟨⟨hour, minute, second⟩, off⟩ := res
          simp [lenientTimestampWritten, hh1, hcal, hx, hclk] at h
          subst h
          obtain ⟨nsec, z, hsc, hz⟩ := stdClock_of_lenient (h1 :: x :: rest) rest _ _ off
            (getnum_two h1 x rest false hh1 hx) hclk
          refine ⟨nsec, ?_⟩
          rw [timeParse_rfc3339_unfold]
          simp only [hdate, hsc, hz, ne_eq, not_true_eq_false, if_false, Bool.or_eq_true,
            decide_eq_true_eq, hday]
      · simp only [Bool.not_eq_true] at hx
        cases hclk : lenientClockWritten (decimal [h1]) (x :: rest) with
        | none => simp [lenientTimestampWritten, hh1, hcal, hx, hclk] at h
        | some res =>
          obtain ⟨⟨hour, minute, second⟩, off⟩ := res
          simp [lenientTimestampWritten, hh1, hcal, hx, hclk] at h
          subst h
          obtain ⟨nsec, z, hsc, hz⟩ := stdClock_of_lenient (h1 :: x :: rest) (x :: rest) _ _ off
            (getnum_one h1 x rest hh1 hx) hclk
          refine ⟨nsec, ?_⟩
          rw [timeParse_rfc3339_unfold]
          simp only [hdate, hsc, hz, ne_eq, not_true_eq_false, if_false, Bool.or_eq_true,
            decide_eq_true_eq, hday]
  · exfalso
    apply hc
    simp [lenientTimestampWritten] at h
    simpa using h.1

theorem stdClock_some_head (v0 : List Char) (r : (Nat × Nat × Nat × Nat) × List Char)
    (h : stdClock v0 = some r) :
    ∃ v hour l, v0 = 'T' :: v ∧ getnum v false = some (hour, l) := by
  unfold stdClock at h
  cases hs : skip v0 ['T'] with
  | none => simp [hs] at h
  | some v =>
    simp only [hs] at h
    cases hg : getnum v false with
    | none => simp [hg] at h
    | some gr =>
      obtain ⟨hour, l⟩ := gr
      exact ⟨v, hour, l, skip_one_some 'T' v0 v hs, hg⟩

theorem calendarDate_of_digits (y1 y2 y3 y4 m1 m2 d1 d2 : Char)
    (hd : [y1, y2, y3, y4, m1, m2, d1, d2].all isDigitRune = true)
    (hm1 : 1 ≤ decimal [m1, m2]) (hm12 : decimal [m1, m2] ≤ 12)
    (hday : ¬ (decimal [d1, d2] < 1
      ∨ decimal [d1, d2] > daysIn (decimal [m1, m2]) (decimal [y1, y2, y3, y4]))) :
    calendarDate y1 y2 y3 y4 m1 m2 d1 d2
      = some (decimal [y1, y2, y3, y4], decimal [m1, m2], decimal [d1, d2]) := by
  rw [daysIn_eq_daysInMonth _ _ hm1 hm12] at hday
  have hr : 1 ≤ decimal [m1, m2] ∧ decimal [m1, m2] ≤ 12 ∧ 1 ≤ decimal [d1, d2]
      ∧ decimal [d1, d2] ≤ daysInMonth (decimal [y1, y2, y3, y4]) (decimal [m1, m2]) := by
    omega
  simp only [calendarDate, hd, hr, if_true, and_self]

theorem lenientClockWritten_nonempty (hour : Nat) (l : List Char)
    (r : (Nat × Nat × Nat) × Int) (h : lenientClockWritten hour l = some r) :
    ∃ x rest, l = x :: rest := by
  rcases l with _ | ⟨x, rest⟩
  · simp [lenientClockWritten] at h
  · exact ⟨x, rest, rfl⟩

theorem lenientTimestampWritten_of_timeParse (input : String) (t : Time)
    (h : timeParse Layout.rfc3339 input = some t) :
    lenientTimestampWritten input.data
      = some (Written.mk t.year t.month t.day t.hour t.minute t.second t.offset) := by
  rw [timeParse_rfc3339_unfold] at h
  cases hd : stdDate input.data with
  | none => simp [hd] at h
  | some dr =>
    obtain ⟨⟨year, month, day⟩, v0⟩ := dr
    simp only [hd] at h
    cases hck : stdClock v0 with
    | none => simp [hck] at h
    | some cr =>
      obtain ⟨⟨H, N, E, ns⟩, z⟩ := cr
      simp only [hck] at h
      cases hz : stdISO8601ColonTZ z with
      | none => simp [hz] at h
      | some zr =>
        obtain ⟨off, z2⟩ := zr
        simp only [hz] at h
        by_cases hz2 : z2 = []
        · subst hz2
          by_cases hday : (day < 1 ∨ day > daysIn month year)
          · simp at h
            omega
          · simp only [ne_eq, not_true_eq_false, if_false, Bool.or_eq_true,
              decide_eq_true_eq, hday, Option.some.injEq] at h
            subst h
            obtain ⟨y1, y2, y3, y4, m1, m2, d1, d2, hs, hdig, rfl, rfl, rfl, hm1, hm12⟩ :=
              stdDate_some _ _ _ _ _ hd
            have hcal := calendarDate_of_digits y1 y2 y3 y4 m1 m2 d1 d2 hdig hm1 hm12 hday
            obtain ⟨v, hour, l, rfl, hg⟩ := stdClock_some_head v0 _ hck
            have hclk := lenient_of_stdClock v l z hour H N E ns off hg hck hz
            rw [hs]
            rcases getnum_free_some v l hour hg with
              ⟨a, b, rfl, ha, hb, rfl⟩ | ⟨a, rfl, ha, rfl, hnext⟩
            · simp [lenientTimestampWritten, ha, hb, hcal, hclk]
            · obtain ⟨x, rest, rfl⟩ := lenientClockWritten_nonempty _ l _ hclk
              have hx := hnext x rest rfl
              simp [lenientTimestampWritten, ha, hx, hcal, hclk]
        · simp [hz2] at h

/-- The layout `time.RFC3339` is parsed exactly for the strings of the lenient timestamp
form. -/
theorem timeParse_rfc3339_eq_none_iff (input : String) :
    timeParse Layout.rfc3339 input = none ↔ lenientTimestampWritten input.data = none := by
  constructor
  · intro h
    cases hw : lenientTimestampWritten input.data with
    | none => rfl
    | some w =>
      obtain ⟨nsec, hp⟩ := timeParse_of_lenientTimestampWritten input w hw
      rw [h] at hp
      simp at hp
  · intro h
    cases hp : timeParse Layout.rfc3339 input with
    | none => rfl
    | some t =>
      rw [lenientTimestampWritten_of_timeParse input t hp] at h
      simp at h

/-- A well-formed RFC 3339 timestamp is not a YYYY-MM-DD date. -/
theorem dateWritten_of_rfc3339Written (input : String) (w : Written)
    (h : rfc3339Written input.data = some w) : dateWritten input.data = none := by
  obtain ⟨l⟩ := input
  simp only at h
  rcases l with _ | ⟨y1, _ | ⟨y2, _ | ⟨y3, _ | ⟨y4, _ | ⟨s1, _ | ⟨m1, _ | ⟨m2, _ | ⟨s2,
    _ | ⟨d1, _ | ⟨d2, _ | ⟨t, rest⟩⟩⟩⟩⟩⟩⟩⟩⟩⟩⟩
    <;> first
      | (simp only [rfc3339Written, reduceCtorEq] at h; done)
      | simp [dateWritten]

/-- A well-formed RFC 3339 timestamp with the second 60 is not of the form that `time.Parse`
reads with the layout `time.RFC3339`. -/
theorem lenientTimestampWritten_leap_second (input : String) (w : Written)
    (h : rfc3339Written input.data = some w) (hs : w.second = 60) :
    lenientTimestampWritten input.data = none := by
  obtain ⟨l⟩ := input
  simp only at h
  rcases l with _ | ⟨y1, _ | ⟨y2, _ | ⟨y3, _ | ⟨y4, _ | ⟨s1, _ | ⟨m1, _ | ⟨m2, _ | ⟨s2,
    _ | ⟨d1, _ | ⟨d2, _ | ⟨t, _ | ⟨h1, _ | ⟨h2, _ | ⟨c1, _ | ⟨n1, _ | ⟨n2, _ | ⟨c2,
    _ | ⟨e1, _ | ⟨e2, rest⟩⟩⟩⟩⟩⟩⟩⟩⟩⟩⟩⟩⟩⟩⟩⟩⟩⟩⟩
    <;> try (simp only [rfc3339Written, reduceCtorEq] at h)
  by_cases hc : s1 = '-' ∧ s2 = '-' ∧ t = 'T' ∧ c1 = ':' ∧ c2 = ':'
      ∧ [h1, h2, n1, n2, e1, e2].all isDigitRune = true
      ∧ decimal [h1, h2] ≤ 23 ∧ decimal [n1, n2] ≤ 59 ∧ decimal [e1, e2] ≤ 60
  · rw [if_pos hc] at h
    obtain ⟨rfl, rfl, rfl, rfl, rfl, hd, hh, hn, -⟩ := hc
    have hall : ∀ c ∈ [h1, h2, n1, n2, e1, e2], isDigitRune c = true := by simpa using hd
    cases hcal : calendarDate y1 y2 y3 y4 m1 m2 d1 d2 with
    | none => simp [hcal] at h
    | some ymd =>
      obtain ⟨year, month, day⟩ := ymd
      cases hfz : fractionAndZoneWritten rest with
      | none => simp [hcal, hfz] at h
      | some off =>
        simp only [hcal, hfz, Option.some.injEq] at h
        subst h
        simp only at hs
        have hsec : ¬ decimal [e1, e2] ≤ 59 := by omega
        simp [lenientTimestampWritten, lenientClockWritten, hall h1 (by simp),
          hall h2 (by simp), hcal, hsec]
  · rw [if_neg hc] at h
    simp at h

/-! ## `ParseDateISO8601`: further claims -/

/-- Counterexample for C27: the input "2024-01-01T1:00:00Z", with a one-digit hour, is not
empty, is not a valid YYYY-MM-DD date and is not a valid RFC 3339 timestamp, yet
`ParseDateISO8601` returns a time and a nil error for it: the RFC 3339 layout is parsed
leniently by `time.Parse`. -/
theorem ParseDateISO8601_accepts_one_digit_hour :
    "2024-01-01T1:00:00Z" ≠ ""
      ∧ dateWritten "2024-01-01T1:00:00Z".data = none
      ∧ rfc3339Written "2024-01-01T1:00:00Z".data = none
      ∧ ParseDateISO8601 "2024-01-01T1:00:00Z" = (some (Time.mk 2024 1 1 1 0 0 0 0), none) := by
  refine ⟨by decide, by decide, by decide, by decide⟩

/-- C27, amended: a non-empty input gets a nil time and the error "invalid date format
'input': expected ISO 8601 format (e.g., '2024-01-01' or '2024-01-01T10:00:00Z')" exactly when
it is neither a valid YYYY-MM-DD calendar date nor a timestamp of the form that `time.Parse`
reads with the layout `time.RFC3339`: a valid calendar date YYYY-MM-DD, the letter T, an hour
0 to 23 of one or two digits, a colon, a two-digit minute 00 to 59, a colon, a two-digit second
00 to 59, optionally a period or a comma followed by digits, and Z or a sign, a two-digit hour
up to 24, a colon and a two-digit minute up to 60.  The slash-separated, the unseparated and
the truncated date, month 13 and day 32 are inputs that get the error. -/
theorem ParseDateISO8601_invalid (input : String) (h0 : input ≠ "") :
    (dateWritten input.data = none ∧ lenientTimestampWritten input.data = none)
      ↔ ParseDateISO8601 input = (none, some ("invalid date format '" ++ input
          ++ "': expected ISO 8601 format (e.g., '2024-01-01' or '2024-01-01T10:00:00Z')")) := by
  constructor
  · rintro ⟨hdate, hstamp⟩
    simp only [ParseDateISO8601, h0, if_false,
      (timeParse_dateOnly_eq_none_iff input).mpr hdate,
      (timeParse_rfc3339_eq_none_iff input).mpr hstamp]
  · intro h
    cases hd : timeParse Layout.dateOnly input with
    | some t => simp [ParseDateISO8601, h0, hd] at h
    | none =>
      cases hr : timeParse Layout.rfc3339 input with
      | some t => simp [ParseDateISO8601, h0, hd, hr] at h
      | none =>
        exact ⟨(timeParse_dateOnly_eq_none_iff input).mp hd,
          (timeParse_rfc3339_eq_none_iff input).mp hr⟩

/-- Witness for C27, amended: the five malformed inputs of the claim, and a timestamp with the
hour 24. -/
theorem ParseDateISO8601_invalid_witness :
    ParseDateISO8601 "2024/01/01" = (none, some ("invalid date format '" ++ "2024/01/01"
        ++ "': expected ISO 8601 format (e.g., '2024-01-01' or '2024-01-01T10:00:00Z')"))
      ∧ ParseDateISO8601 "20240101" = (none, some ("invalid date format '" ++ "20240101"
        ++ "': expected ISO 8601 format (e.g., '2024-01-01' or '2024-01-01T10:00:00Z')"))
      ∧ ParseDateISO8601 "2024-01" = (none, some ("invalid date format '" ++ "2024-01"
        ++ "': expected ISO 8601 format (e.g., '2024-01-01' or '2024-01-01T10:00:00Z')"))
      ∧ ParseDateISO8601 "2024-13-01" = (none, some ("invalid date format '" ++ "2024-13-01"
        ++ "': expected ISO 8601 format (e.g., '2024-01-01' or '2024-01-01T10:00:00Z')"))
      ∧ ParseDateISO8601 "2024-01-32" = (none, some ("invalid date format '" ++ "2024-01-32"
        ++ "': expected ISO 8601 format (e.g., '2024-01-01' or '2024-01-01T10:00:00Z')"))
      ∧ ParseDateISO8601 "2024-01-01T24:00:00Z" = (none, some ("invalid date format '"
        ++ "2024-01-01T24:00:00Z"
        ++ "': expected ISO 8601 format (e.g., '2024-01-01' or '2024-01-01T10:00:00Z')")) :=
  ⟨(ParseDateISO8601_invalid "2024/01/01" (by decide)).mp ⟨by decide, by decide⟩,
    (ParseDateISO8601_invalid "20240101" (by decide)).mp ⟨by decide, by decide⟩,
    (ParseDateISO8601_invalid "2024-01" (by decide)).mp ⟨by decide, by decide⟩,
    (ParseDateISO8601_invalid "2024-13-01" (by decide)).mp ⟨by decide, by decide⟩,
    (ParseDateISO8601_invalid "2024-01-32" (by decide)).mp ⟨by decide, by decide⟩,
    (ParseDateISO8601_invalid "2024-01-01T24:00:00Z" (by decide)).mp ⟨by decide, by decide⟩⟩

/-- Counterexample for C28: "2016-12-31T23:59:60Z", the leap second at the end of 2016, is a
well-formed RFC 3339 timestamp, and `ParseDateISO8601` returns a nil time and an error for it:
`time.Parse` accepts no second above 59. -/
theorem ParseDateISO8601_rejects_leap_second :
    rfc3339Written "2016-12-31T23:59:60Z".data = some (Written.mk 2016 12 31 23 59 60 0)
      ∧ ParseDateISO8601 "2016-12-31T23:59:60Z" = (none, some ("invalid date format '"
          ++ "2016-12-31T23:59:60Z"
          ++ "': expected ISO 8601 format (e.g., '2024-01-01' or '2024-01-01T10:00:00Z')")) := by
  refine ⟨by decide, by decide⟩

/-- C28, amended: for every well-formed RFC 3339 timestamp (date, `T`, time, and `Z` or a
numeric offset) whose second is at most 59, `ParseDateISO8601` returns a nil error and a time
whose year, month, day, hour, minute and second are the ones written in the input, in the
input's own UTC offset; the time of day is kept.  For every well-formed RFC 3339 timestamp
whose second is the leap second 60, it returns a nil time and the error "invalid date format
'input': expected ISO 8601 format (e.g., '2024-01-01' or '2024-01-01T10:00:00Z')". -/
theorem ParseDateISO8601_rfc3339 (input : String) (w : Written)
    (h : rfc3339Written input.data = some w) :
    (w.second ≤ 59 →
      ∃ t, ParseDateISO8601 input = (some t, none)
        ∧ t.year = w.year ∧ t.month = w.month ∧ t.day = w.day
        ∧ t.hour = w.hour ∧ t.minute = w.minute ∧ t.second = w.second
        ∧ t.offset = w.offset)
    ∧ (w.second = 60 →
      ParseDateISO8601 input = (none, some ("invalid date format '" ++ input
        ++ "': expected ISO 8601 format (e.g., '2024-01-01' or '2024-01-01T10:00:00Z')"))) := by
  have h0 : input ≠ "" := by
    intro he; subst he; simp [rfc3339Written] at h
  refine ⟨fun hs => ?_, fun hs => ?_⟩
  · obtain ⟨hdate, nsec, hstamp⟩ := timeParse_of_rfc3339Written input w h hs
    refine ⟨Time.mk w.year w.month w.day w.hour w.minute w.second nsec w.offset, ?_,
      rfl, rfl, rfl, rfl, rfl, rfl, rfl⟩
    simp only [ParseDateISO8601, h0, if_false, hdate, hstamp]
  · simp only [ParseDateISO8601, h0, if_false,
      (timeParse_dateOnly_eq_none_iff input).mpr (dateWritten_of_rfc3339Written input w h),
      (timeParse_rfc3339_eq_none_iff input).mpr
        (lenientTimestampWritten_leap_second input w h hs)]

/-- Witness for C28, amended: the timestamps of the tests, in UTC and with an offset of nine
hours, one with a fraction and a negative offset, and a leap second with an offset. -/
theorem ParseDateISO8601_rfc3339_witness :
    ParseDateISO8601 "2024-01-01T10:30:45Z" = (some (Time.mk 2024 1 1 10 30 45 0 0), none)
      ∧ ParseDateISO8601 "2024-12-25T15:30:00+09:00"
          = (some (Time.mk 2024 12 25 15 30 0 0 32400), none)
      ∧ (∃ t, ParseDateISO8601 "2024-12-25T15:30:00+09:00" = (some t, none)
          ∧ t.year = (Written.mk 2024 12 25 15 30 0 32400).year
          ∧ t.month = (Written.mk 2024 12 25 15 30 0 32400).month
          ∧ t.day = (Written.mk 2024 12 25 15 30 0 32400).day
          ∧ t.hour = (Written.mk 2024 12 25 15 30 0 32400).hour
          ∧ t.minute = (Written.mk 2024 12 25 15 30 0 32400).minute
          ∧ t.second = (Written.mk 2024 12 25 15 30 0 32400).second
          ∧ t.offset = (Written.mk 2024 12 25 15 30 0 32400).offset)
      ∧ ParseDateISO8601 "2024-06-30T23:59:59.25-05:30"
          = (some (Time.mk 2024 6 30 23 59 59 250000000 (-19800)), none)
      ∧ ParseDateISO8601 "1998-12-31T15:59:60.5-08:00" = (none, some ("invalid date format '"
          ++ "1998-12-31T15:59:60.5-08:00"
          ++ "': expected ISO 8601 format (e.g., '2024-01-01' or '2024-01-01T10:00:00Z')")) :=
  ⟨by decide, by decide,
    (ParseDateISO8601_rfc3339 "2024-12-25T15:30:00+09:00" (Written.mk 2024 12 25 15 30 0 32400)
      (by decide)).1 (by decide),
    by decide,
    (ParseDateISO8601_rfc3339 "1998-12-31T15:59:60.5-08:00"
      (Written.mk 1998 12 31 15 59 60 (-28800)) (by decide)).2 (by decide)⟩

end Validation

namespace Search

/-! ## Shape and size of the escaped pattern -/

theorem scanPattern_backslash (d : Char) (rest : List Char) :
    scanPattern ('\\' :: d :: rest)
      = (scanPattern rest).map (fun tokens => Token.literal d :: tokens) := by
  rw [scanPattern.eq_def]
  cases h : scanPattern rest <;> simp [h]

theorem scanPattern_plain (c : Char) (rest : List Char)
    (h1 : c ≠ '\\') (h2 : c ≠ '%') (h3 : c ≠ '_') :
    scanPattern (c :: rest)
      = (scanPattern rest).map (fun tokens => Token.literal c :: tokens) := by
  rw [scanPattern.eq_def]
  cases h : scanPattern rest <;> simp [h, h1, h2, h3]

theorem scanPattern_escaped (k p : List Char) :
    scanPattern (replacerReplace k ++ p)
      = (scanPattern p).map (fun tokens => k.map Token.literal ++ tokens) := by
  induction k with
  | nil => simp [replacerReplace]
  | cons c cs ih =>
    by_cases h : c = '\\' ∨ c = '%' ∨ c = '_'
    · rw [replacerReplace_cons_special c cs h]
      simp only [List.cons_append, scanPattern_backslash, ih, Option.map_map]
      cases scanPattern p <;> simp
    · simp only [not_or] at h
      rw [replacerReplace_cons_plain c cs h.1 h.2.1 h.2.2]
      simp only [List.cons_append, scanPattern_plain c _ h.1 h.2.1 h.2.2, ih, Option.map_map]
      cases scanPattern p <;> simp

theorem scanPattern_EscapeILIKE (input : String) :
    scanPattern (EscapeILIKE input).data
      = some (Token.anySequence :: (input.data.map Token.literal ++ [Token.anySequence])) := by
  have hp : scanPattern ['%'] = some [Token.anySequence] := by decide
  have h := scanPattern_escaped input.data ['%']
  rw [hp] at h
  rw [EscapeILIKE_data, scanPattern.eq_def]
  simp [h]

theorem length_replacerReplace (l : List Char) :
    (replacerReplace l).length = l.length + (l.filter isMeta).length := by
  induction l with
  | nil => rfl
  | cons c cs ih =>
    by_cases h : c = '\\' ∨ c = '%' ∨ c = '_'
    · have hm : isMeta c = true := by
        simp only [isMeta, Bool.or_eq_true, decide_eq_true_eq]; tauto
      rw [replacerReplace_cons_special c cs h, List.filter_cons_of_pos hm]
      simp only [List.length_cons, ih]
      omega
    · have hm : ¬ isMeta c = true := by
        simp only [isMeta, Bool.or_eq_true, decide_eq_true_eq]; tauto
      simp only [not_or] at h
      rw [replacerReplace_cons_plain c cs h.1 h.2.1 h.2.2, List.filter_cons_of_neg hm]
      simp only [List.length_cons, ih]
      omega

theorem utf8Len_replacerReplace (l : List Char) :
    String.utf8Len (replacerReplace l) = String.utf8Len l + (l.filter isMeta).length := by
  have hb : Char.utf8Size '\\' = 1 := by decide
  induction l with
  | nil => rfl
  | cons c cs ih =>
    by_cases h : c = '\\' ∨ c = '%' ∨ c = '_'
    · have hm : isMeta c = true := by
        simp only [isMeta, Bool.or_eq_true, decide_eq_true_eq]; tauto
      rw [replacerReplace_cons_special c cs h, List.filter_cons_of_pos hm]
      simp only [String.utf8Len_cons, List.length_cons, ih, hb]
      omega
    · have hm : ¬ isMeta c = true := by
        simp only [isMeta, Bool.or_eq_true, decide_eq_true_eq]; tauto
      simp only [not_or] at h
      rw [replacerReplace_cons_plain c cs h.1 h.2.1 h.2.2, List.filter_cons_of_neg hm]
      simp only [String.utf8Len_cons, ih]
      omega

theorem filter_isMeta_Repeat (n : Nat) :
    ((Repeat "test_pattern%" n).data.filter isMeta).length = 2 * n := by
  induction n with
  | zero => rfl
  | succ n ih =>
    have h1 : ("test_pattern%".data.filter isMeta).length = 2 := by decide
    simp only [Repeat] at ih
    simp only [Repeat, List.replicate_succ, List.flatten_cons, List.filter_append,
      List.length_append, h1, ih]
    omega

/-- C31: the pattern returned by `EscapeILIKE` is a well-formed LIKE pattern. Scanned left to
right, each backslash consuming the following character, the scan does not end on a dangling
backslash; the first and the last token are unescaped percent wildcards; and the tokens
between them are the characters of the input, each matching itself, so no other unescaped
percent or underscore occurs. -/
theorem EscapeILIKE_well_formed (input : String) :
    ∃ middle, scanPattern (EscapeILIKE input).data
        = some (Token.anySequence :: (middle ++ [Token.anySequence]))
      ∧ middle = input.data.map Token.literal
      ∧ ∀ t ∈ middle, t ≠ Token.anySequence ∧ t ≠ Token.anyOne := by
  refine ⟨input.data.map Token.literal, scanPattern_EscapeILIKE input, rfl, ?_⟩
  intro t ht
  obtain ⟨c, -, rfl⟩ := List.mem_map.mp ht
  exact ⟨by simp, by simp⟩

/-- C32: exact growth of `EscapeILIKE`. For every input the length of the pattern, in code
points and in UTF-8 bytes, is the length of the input plus 2 plus the number of occurrences of
percent, underscore and backslash in it; the input made of `n` copies of "test_pattern%" gains
exactly `2n` escapes besides the two wrapping percent signs. -/
theorem EscapeILIKE_exact_growth :
    (∀ s : String, (EscapeILIKE s).length = s.length + 2 + (s.data.filter isMeta).length)
    ∧ (∀ s : String,
        (EscapeILIKE s).utf8ByteSize = s.utf8ByteSize + 2 + (s.data.filter isMeta).length)
    ∧ (∀ n : Nat, (EscapeILIKE (Repeat "test_pattern%" n)).length
        = (Repeat "test_pattern%" n).length + 2 + 2 * n) := by
  have h1 : ∀ s : String,
      (EscapeILIKE s).length = s.length + 2 + (s.data.filter isMeta).length := by
    intro s
    simp only [String.length, EscapeILIKE_data, List.length_cons, List.length_append,
      length_replacerReplace, List.length_nil]
    omega
  refine ⟨h1, ?_, ?_⟩
  · intro s
    have hp : Char.utf8Size '%' = 1 := by decide
    have hd : (EscapeILIKE s).utf8ByteSize = String.utf8Len (EscapeILIKE s).data := by
      cases EscapeILIKE s; rfl
    have hs : s.utf8ByteSize = String.utf8Len s.data := by
      cases s; rfl
    rw [hd, hs, EscapeILIKE_data]
    simp only [String.utf8Len_cons, String.utf8Len_append, String.utf8Len_nil,
      utf8Len_replacerReplace, hp]
    omega
  · intro n
    rw [h1, filter_isMeta_Repeat]

/-- C33: `ParseKeywords` is monotone in its limits. If it succeeds with `ks` for the limits
`c` and `l`, it succeeds with the same `ks` for all limits `c' ≥ c` and `l' ≥ l`. -/
theorem ParseKeywords_monotone (input : String) (c l c' l' : Int) (ks : List String)
    (h : ParseKeywords input c l = (some ks, none)) (hc : c ≤ c') (hl : l ≤ l') :
    ParseKeywords input c' l' = (some ks, none) := by
  have hnil : (ParseKeywords input c l).2 = none := by rw [h]
  obtain ⟨h0, h1, h2⟩ := (parse_nil_error_iff input c l).mp hnil
  have h0' := List.length_pos.mp h0
  have hks : ks = maximalRuns input := by
    rw [parse_ok_of input c l h0' h1 h2] at h
    simp only [Prod.mk.injEq, Option.some.injEq, and_true] at h
    exact h.symm
  rw [parse_ok_of input c' l' h0' (le_trans h1 hc) (fun k hk => le_trans (h2 k hk) hl), hks]

/-- Witness for C33: the limits 2 and 5 raised to the defaults. -/
theorem ParseKeywords_monotone_witness :
    ParseKeywords "Go React" 2 5 = (some ["Go", "React"], none)
      ∧ ParseKeywords "Go React" 10 100 = (some ["Go", "React"], none) :=
  ⟨by decide,
    ParseKeywords_monotone "Go React" 2 5 10 100 ["Go", "React"] (by decide) (by decide)
      (by decide)⟩

/-- The white space of the parser, `unicode.IsSpace`, is exactly the set of the characters
with the Unicode property `White_Space`. -/
theorem isSpace_iff_mem_unicodeWhiteSpace (c : Char) :
    isSpace c = true ↔ c ∈ unicodeWhiteSpace := by
  constructor
  · intro h
    have hn : c.toNat = 0x09 ∨ c.toNat = 0x0A ∨ c.toNat = 0x0B ∨ c.toNat = 0x0C
        ∨ c.toNat = 0x0D ∨ c.toNat = 0x20 ∨ c.toNat = 0x85 ∨ c.toNat = 0xA0
        ∨ c.toNat = 0x1680 ∨ c.toNat = 0x2000 ∨ c.toNat = 0x2001 ∨ c.toNat = 0x2002
        ∨ c.toNat = 0x2003 ∨ c.toNat = 0x2004 ∨ c.toNat = 0x2005 ∨ c.toNat = 0x2006
        ∨ c.toNat = 0x2007 ∨ c.toNat = 0x2008 ∨ c.toNat = 0x2009 ∨ c.toNat = 0x200A
        ∨ c.toNat = 0x2028 ∨ c.toNat = 0x2029 ∨ c.toNat = 0x202F ∨ c.toNat = 0x205F
        ∨ c.toNat = 0x3000 := by
      unfold isSpace at h
      split at h <;> simp only [Bool.or_eq_true, Bool.and_eq_true, decide_eq_true_eq] at h
        <;> omega
    rw [← Char.ofNat_toNat c]
    rcases hn with h | h | h | h | h | h | h | h | h | h | h | h | h | h | h | h | h | h | h
      | h | h | h | h | h | h <;> rw [h] <;> decide
  · revert c
    decide

/-- C34: every Unicode white-space character is a separator, not only space, tab and newline.
The white space of the parser is exactly the set of the 25 characters with the Unicode property
`White_Space`, to which carriage return, form feed, vertical tab, the no-break space U+00A0
and the ideographic space U+3000 belong; keywords joined by non-empty runs of such characters,
with any of them before and after, are split into exactly these keywords; none of them occurs
in a returned keyword; and an input made only of them fails with "keywords cannot be
empty". -/
theorem ParseKeywords_unicode_whitespace :
    (∀ c : Char, isSpace c = true ↔ c ∈ unicodeWhiteSpace)
    ∧ (∀ c ∈ ['\r', '\x0c', '\x0b', '\u00a0', '\u3000'], c ∈ unicodeWhiteSpace)
    ∧ (∀ (lead first : String) (rest : List (String × String)) (trail : String)
        (maxCount maxLength : Int),
        ((first :: rest.map Prod.snd).length : Int) ≤ maxCount →
        (∀ k ∈ first :: rest.map Prod.snd,
          k ≠ "" ∧ (∀ c ∈ k.data, c ∉ unicodeWhiteSpace) ∧ (runeCount k : Int) ≤ maxLength) →
        (∀ p ∈ rest, p.1 ≠ "" ∧ ∀ c ∈ p.1.data, c ∈ unicodeWhiteSpace) →
        (∀ c ∈ lead.data, c ∈ unicodeWhiteSpace) →
        (∀ c ∈ trail.data, c ∈ unicodeWhiteSpace) →
        ParseKeywords (joinKeywords lead first rest trail) maxCount maxLength
          = (some (first :: rest.map Prod.snd), none))
    ∧ (∀ (input : String) (maxCount maxLength : Int) (ks : List String),
        ParseKeywords input maxCount maxLength = (some ks, none) →
        ∀ k ∈ ks, ∀ c ∈ k.data, c ∉ unicodeWhiteSpace)
    ∧ (∀ (input : String) (maxCount maxLength : Int),
        (∀ c ∈ input.data, c ∈ unicodeWhiteSpace) →
        ParseKeywords input maxCount maxLength = (none, some "keywords cannot be empty")) := by
  have hsp : ∀ c ∈ unicodeWhiteSpace, isSpace c = true :=
    fun c hc => (isSpace_iff_mem_unicodeWhiteSpace c).mpr hc
  have hns : ∀ c, c ∉ unicodeWhiteSpace → isSpace c = false := by
    intro c hc
    rw [← Bool.not_eq_true, isSpace_iff_mem_unicodeWhiteSpace]
    exact hc
  refine ⟨isSpace_iff_mem_unicodeWhiteSpace, by decide, ?_, ?_, ?_⟩
  · intro lead first rest trail maxCount maxLength hcount hkeys hseps hlead htrail
    have hF : maximalRuns (joinKeywords lead first rest trail) = first :: rest.map Prod.snd := by
      rw [← Fields_eq_maximalRuns]
      refine Fields_joinKeywords lead first rest trail (fun c hc => hsp c (hlead c hc)) ?_ ?_
        (fun c hc => hsp c (htrail c hc))
      · exact ⟨(hkeys first (by simp)).1,
          fun c hc => hns c ((hkeys first (by simp)).2.1 c hc)⟩
      · intro p hp
        have hk := hkeys p.2 (List.mem_cons_of_mem _ (List.mem_map_of_mem Prod.snd hp))
        exact ⟨⟨(hseps p hp).1, fun c hc => hsp c ((hseps p hp).2 c hc)⟩,
          ⟨hk.1, fun c hc => hns c (hk.2.1 c hc)⟩⟩
    have := parse_ok_of (joinKeywords lead first rest trail) maxCount maxLength
      (by rw [hF]; simp) (by rw [hF]; exact hcount)
      (by rw [hF]; exact fun k hk => (hkeys k hk).2.2)
    rw [this, hF]
  · intro input maxCount maxLength ks h k hk c hc hmem
    have hnil : (ParseKeywords input maxCount maxLength).2 = none := by rw [h]
    obtain ⟨h0, h1, h2⟩ := (parse_nil_error_iff input maxCount maxLength).mp hnil
    rw [parse_ok_of input maxCount maxLength (List.length_pos.mp h0) h1 h2] at h
    simp only [Prod.mk.injEq, Option.some.injEq, and_true] at h
    subst h
    have := maximalRuns_no_space input k hk c hc
    rw [hsp c hmem] at this
    exact absurd this (by simp)
  · intro input maxCount maxLength hall
    apply parse_empty_of
    rw [← Fields_eq_maximalRuns, Fields_eq_nil_iff]
    exact fun c hc => hsp c (hall c hc)

/-- Witness for C34: keywords separated by a carriage return, a no-break space, an ideographic
space, a form feed, a vertical tab, a next-line character, an Ogham space mark, an em space and
a line separator, and an input made only of such characters. -/
theorem ParseKeywords_unicode_whitespace_witness :
    ParseKeywords "Go\rReact\u00a0Rust\u3000Zig\x0cC\x0bD\u0085E\u1680F\u2003G\u2028H" 10 100
        = (some ["Go", "React", "Rust", "Zig", "C", "D", "E", "F", "G", "H"], none)
      ∧ ParseKeywords (joinKeywords "\r\u205f" "Go" [("\u00a0\u3000\u2009", "React")]
          "\x0c\x0b\u202f\u2029") 10 100
        = (some ("Go" :: [("\u00a0\u3000\u2009", "React")].map Prod.snd), none)
      ∧ ParseKeywords "\r\x0c\x0b\u00a0\u3000\u0085\u1680\u2000\u200a\u2028" 10 100
        = (none, some "keywords cannot be empty") :=
  ⟨by decide,
    ParseKeywords_unicode_whitespace.2.2.1 "\r\u205f" "Go" [("\u00a0\u3000\u2009", "React")]
      "\x0c\x0b\u202f\u2029" 10 100 (by decide) (by decide) (by decide) (by decide) (by decide),
    ParseKeywords_unicode_whitespace.2.2.2.2
      "\r\x0c\x0b\u00a0\u3000\u0085\u1680\u2000\u200a\u2028" 10 100 (by decide)⟩

end Search

namespace ArticleHandler

/-! ## The list handler -/

/-- The loop appends one DTO per item, in order, when no `Article` pointer is nil. -/
theorem appendLoop_of_articles (list : List ArticleWithSource)
    (h : ∀ item ∈ list, item.Article ≠ none) :
    ∀ out : List DTO, ∃ dtos, appendLoop list out = some (out ++ dtos)
      ∧ dtos.length = list.length
      ∧ ∀ (i : Nat) (item : ArticleWithSource) (article : Article),
          list.get? i = some item → item.Article = some article →
          dtos.get? i = some (DTO.mk article.ID article.SourceID item.SourceName article.Title
            article.URL article.Summary article.PublishedAt article.CreatedAt) := by
  induction list with
  | nil => intro out; exact ⟨[], by simp [appendLoop], rfl, by simp⟩
  | cons first rest ih =>
    intro out
    cases ha : first.Article with
    | none => exact absurd ha (h first (by simp))
    | some a =>
      obtain ⟨dtos, h1, h2, h3⟩ := ih (fun item hi => h item (List.mem_cons_of_mem _ hi))
        (out ++ [DTO.mk a.ID a.SourceID first.SourceName a.Title a.URL a.Summary a.PublishedAt
          a.CreatedAt])
      refine ⟨DTO.mk a.ID a.SourceID first.SourceName a.Title a.URL a.Summary a.PublishedAt
        a.CreatedAt :: dtos, ?_, by simp [h2], ?_⟩
      · simp only [appendLoop, ha, h1, List.append_assoc, List.singleton_append]
      · intro i item article hi hart
        cases i with
        | zero =>
          simp only [List.get?_cons_zero, Option.some.injEq] at hi ⊢
          subst hi
          rw [ha] at hart
          simp only [Option.some.injEq] at hart
          subst hart
          rfl
        | succ j =>
          simp only [List.get?_cons_succ] at hi ⊢
          exact h3 j item article hi hart

/-- The loop panics when an `Article` pointer is nil. -/
theorem appendLoop_of_nil_article (list : List ArticleWithSource)
    (h : ∃ item ∈ list, item.Article = none) :
    ∀ out : List DTO, appendLoop list out = none := by
  induction list with
  | nil => simp at h
  | cons first rest ih =>
    intro out
    cases ha : first.Article with
    | none => simp [appendLoop, ha]
    | some a =>
      obtain ⟨item, hi, hn⟩ := h
      rcases List.mem_cons.mp hi with rfl | hr
      · rw [ha] at hn; simp at hn
      · simp only [appendLoop, ha]
        exact ih ⟨item, hr, hn⟩ _

/-- Counterexample for C35: `ListWithSource` returns, without error, a list of one pair whose
`Article` pointer is nil, which the type `[]repository.ArticleWithSource` permits; the handler
dereferences the pointer and panics, so no response with status 200 and a DTO array of length
one is written. -/
theorem ServeHTTP_panics_on_nil_article :
    ServeHTTP ([ArticleWithSource.mk none "Go Blog"], none) = Outcome.panics
      ∧ ¬ ∃ dtos, ServeHTTP ([ArticleWithSource.mk none "Go Blog"], none)
          = Outcome.respondJSON 200 (some dtos) := by
  refine ⟨by decide, ?_⟩
  rintro ⟨dtos, h⟩
  have hp : ServeHTTP ([ArticleWithSource.mk none "Go Blog"], none) = Outcome.panics := by
    decide
  rw [hp] at h
  exact Outcome.noConfusion h

/-- C35, amended: `ListHandler.ServeHTTP` maps the service result one to one.  When
`ListWithSource` returns, without error, a list in which every `Article` pointer is non-nil,
the handler answers through `respond.JSON` with status 200 and a non-nil DTO slice of the same
length and order, whose i-th element copies ID, SourceID, Title, URL, Summary, PublishedAt and
CreatedAt from the i-th article and SourceName from the i-th pair (the empty list gives the
empty, non-nil slice); when the list has a nil `Article` pointer, the handler panics; when
`ListWithSource` returns an error, it answers through `respond.SafeError` with status 500 and
no DTO slice. -/
theorem ServeHTTP_maps_one_to_one :
    (∀ list : List ArticleWithSource, (∀ item ∈ list, item.Article ≠ none) →
      ∃ dtos, ServeHTTP (list, none) = Outcome.respondJSON 200 (some dtos)
        ∧ dtos.length = list.length
        ∧ ∀ (i : Nat) (item : ArticleWithSource) (article : Article),
            list.get? i = some item → item.Article = some article →
            dtos.get? i = some (DTO.mk article.ID article.SourceID item.SourceName
              article.Title article.URL article.Summary article.PublishedAt article.CreatedAt))
    ∧ ServeHTTP ([], none) = Outcome.respondJSON 200 (some [])
    ∧ (∀ list : List ArticleWithSource, (∃ item ∈ list, item.Article = none) →
        ServeHTTP (list, none) = Outcome.panics)
    ∧ (∀ (list : List ArticleWithSource) (err : String),
        ServeHTTP (list, some err) = Outcome.respondSafeError 500 err) := by
  refine ⟨?_, rfl, ?_, fun list err => rfl⟩
  · intro list h
    obtain ⟨dtos, h1, h2, h3⟩ := appendLoop_of_articles list h []
    refine ⟨dtos, ?_, h2, h3⟩
    simp only [ServeHTTP, h1, List.nil_append, StatusOK]
  · intro list h
    simp only [ServeHTTP, appendLoop_of_nil_article list h []]

/-- Witness for C35, amended: a list of one article. -/
theorem ServeHTTP_maps_one_to_one_witness :
    ∃ dtos, ServeHTTP ([ArticleWithSource.mk (some (Article.mk 1 2 "Go 1.24 released"
          "https://example.com" "sum" (Validation.Time.mk 2025 7 19 0 0 0 0 0)
          (Validation.Time.mk 2025 7 20 0 0 0 0 0))) "Go Blog"], none)
        = Outcome.respondJSON 200 (some dtos)
      ∧ dtos.length = 1
      ∧ dtos.get? 0 = some (DTO.mk 1 2 "Go Blog" "Go 1.24 released" "https://example.com" "sum"
          (Validation.Time.mk 2025 7 19 0 0 0 0 0) (Validation.Time.mk 2025 7 20 0 0 0 0 0)) := by
  obtain ⟨dtos, h1, h2, h3⟩ := ServeHTTP_maps_one_to_one.1
    [ArticleWithSource.mk (some (Article.mk 1 2 "Go 1.24 released" "https://example.com" "sum"
      (Validation.Time.mk 2025 7 19 0 0 0 0 0) (Validation.Time.mk 2025 7 20 0 0 0 0 0)))
      "Go Blog"] (by decide)
  exact ⟨dtos, h1, h2, h3 0 _ _ rfl rfl⟩

end ArticleHandler
